import Mathlib

/-!
# Namespace surgery and depth dispatch of pyxmpp2's libxml2 add-ons

A shallow embedding of `src/libxml2addon/tree.c` (`xmlRemoveNs`, `xmlReplaceNs`) and of
`src/ext/xmlextra.c` (`remove_ns`, `replace_ns`, the SAX callbacks of the stream reader).

Memory is a store of node records addressed by index; a C pointer is an `Option` of an index,
`none` standing for `NULL`.  The singly linked chains `node->properties` (through `attr->next`)
and `node->nsDef` (through `ns->next`) are kept as lists inside the node record; the links
`children`, `next` and `parent` stay pointers, because the traversal of the C code walks them.
A chain kept as a list belongs to its node alone: the model covers the stores in which an
`xmlNs` cell is linked into one `nsDef` chain only, which is what libxml2 builds (a declaration
is owned by the element that carries it).
A function of the C code that may dereference a pointer outside the store, or loop for ever on
cyclic links, returns `none` in that case.
-/

namespace XmlExtra

/-! ## Tree model -/

/-- Address of an `xmlNode` in the store. -/
abbrev NodePtr := Nat

/-- Address of an `xmlNs`; the namespace records themselves are not inspected by the code. -/
abbrev NsPtr := Nat

/-- An `xmlAttr`: the code reads `attr->ns` and follows `attr->next` only. -/
structure XmlAttr where
  name : String
  ns : Option NsPtr
deriving DecidableEq, Repr

/-- An `xmlNode` with the fields the code reads or writes. -/
structure XmlNode where
  name : String
  ns : Option NsPtr
  properties : List XmlAttr
  nsDef : List NsPtr
  children : Option NodePtr
  next : Option NodePtr
  parent : Option NodePtr
deriving DecidableEq, Repr

/-- The memory holding the nodes: `h[p]?` is the record at address `p`. -/
abbrev Store := List XmlNode

/-- The inner `while (node != tree)` loop of the traversal ("go up to parents->next if needed"),
followed by the exit condition `if (node == tree) node = NULL`.  The result is the new value of
`node`.  The first argument bounds the number of iterations. -/
def climb (h : Store) (tree : NodePtr) : Nat → NodePtr → Option (Option NodePtr)
  | fuel, node =>
    if node = tree then some none
    else
      match fuel with
      | 0 => none
      | fuel + 1 =>
        match h[node]? with
        | none => none
        | some n =>
          let node1 := match n.parent with
            | some p => p
            | none => node
          match h[node1]? with
          | none => none
          | some n1 =>
            if node1 ≠ tree ∧ n1.next ≠ none then
              some (if n1.next = some tree then none else n1.next)
            else if n1.parent = none then some none
            else climb h tree fuel node1

/-- The node-advance step at the end of each iteration of the outer loop ("Browse the full
subtree, deep first"): `n` is the record of `node`; the result is the next value of `node`,
`some none` also standing for the final `break`.  The four functions carry the same text for
this step (tree.c lines 101-125 and 188-212, xmlextra.c lines 117-139 and 199-220), so it is
written once. -/
def advance (h : Store) (tree node : NodePtr) (n : XmlNode) : Option (Option NodePtr) :=
  if n.children ≠ none then some n.children
  else if node ≠ tree ∧ n.next ≠ none then some n.next
  else if node ≠ tree then climb h tree (h.length + 1) node
  else some none

/-! ## Namespace rewriter: `xmlRemoveNs` (tree.c) and `remove_ns` (xmlextra.c) -/

/-- The three failing `return`s of `xmlRemoveNs` and of `remove_ns`, in source order. -/
inductive RemoveNsError where
  | nullNamespace
  | nodeInUse
  | attrInUse
deriving DecidableEq, Repr

/-- Text handed to `xmlGenericError` by `xmlRemoveNs` at each failing return. -/
def xmlRemoveNsMessage : RemoveNsError → String
  | .nullNamespace => "xmlRemoveNs : NULL namespace\n"
  | .nodeInUse => "xmlRemoveNs : namespace in use\n"
  | .attrInUse => "xmlRemoveNs : namespace in use\n"

/-- Text handed to `PyErr_SetString(MyError, ...)` by `remove_ns` at each failing return. -/
def removeNsMessage : RemoveNsError → String
  | .nullNamespace => "remove_ns: NULL namespace"
  | .nodeInUse => "remove_ns: NULL namespace"
  | .attrInUse => "remove_ns: NULL namespace"

/-- The loop over `node->properties` of the removal: is some `attr->ns == ns`? -/
def attrUses (ns : NsPtr) : List XmlAttr → Bool
  | [] => false
  | a :: rest => if a.ns = some ns then true else attrUses ns rest

/-- The loop over `node->nsDef` of the removal: is some `nsDef == ns`? -/
def declares (ns : NsPtr) : List NsPtr → Bool
  | [] => false
  | d :: rest => if d = ns then true else declares ns rest

/-- The final loop of the removal on `declNode->nsDef`: the first cell equal to `ns` is
unlinked (`declNode->nsDef = nsDef->next` or `prev->next = nsDef->next`) and the loop stops. -/
def unlinkNs (ns : NsPtr) : List NsPtr → List NsPtr
  | [] => []
  | d :: rest => if d = ns then rest else d :: unlinkNs ns rest

/-- How the scan loop of the removal ends: at a failing `return`, or past the last node with
the final value of `declNode`. -/
inductive ScanResult where
  | failed (e : RemoveNsError)
  | done (declNode : Option NodePtr)
deriving DecidableEq, Repr

/-- What the caller of the removal gets back: a failure (`NULL` after the error message in
tree.c, the raised `MyError` in xmlextra.c) or the returned pointer. -/
inductive RemoveNsReturn where
  | failed (e : RemoveNsError)
  | returned (p : Option NodePtr)
deriving DecidableEq, Repr

/-- The state a call of the removal leaves: the store, the namespace handed to `xmlFreeNs`
(if any), and what is returned. -/
structure RemoveNsOutcome where
  store : Store
  freed : Option NsPtr
  ret : RemoveNsReturn
deriving DecidableEq, Repr

/-- The `while (node != NULL)` loop of `xmlRemoveNs`; the state is `node` and `declNode`.  The
loop writes nothing to the store. -/
def xmlRemoveNsScan (h : Store) (tree : NodePtr) (ns : NsPtr) :
    Nat → Option NodePtr → Option NodePtr → Option ScanResult
  | _, none, declNode => some (.done declNode)
  | 0, some _, _ => none
  | fuel + 1, some node, declNode =>
    match h[node]? with
    | none => none
    | some n =>
      if n.ns = some ns then some (.failed .nodeInUse)
      else if attrUses ns n.properties then some (.failed .attrInUse)
      else
        let declNode1 := if declares ns n.nsDef then some node else declNode
        match advance h tree node n with
        | none => none
        | some node1 => xmlRemoveNsScan h tree ns fuel node1 declNode1

/-- The tail of the removal, after the scan: nothing to do without a declaring node, otherwise
unlink `ns` from the chain of `declNode` and free it; `ret` is the value to return.  The C
code unlinks by writing `declNode->nsDef` or `prev->next`, the latter a field of an `xmlNs`
cell; with every cell in one chain only, as the model has it, that rewrites the chain of
`declNode` and no other. -/
def removeDecl (h : Store) (ns : NsPtr) (ret : Option NodePtr) :
    Option NodePtr → Option RemoveNsOutcome
  | none => some ⟨h, none, .returned ret⟩
  | some d =>
    match h[d]? with
    | none => none
    | some dn =>
      some ⟨h.set d { dn with nsDef := unlinkNs ns dn.nsDef },
        if declares ns dn.nsDef then some ns else none, .returned ret⟩

/-- `xmlRemoveNs(tree, ns)` of tree.c.  On success the returned pointer is `tree`. -/
def xmlRemoveNs (h : Store) (tree : Option NodePtr) (ns : Option NsPtr) :
    Option RemoveNsOutcome :=
  match ns with
  | none => some ⟨h, none, .failed .nullNamespace⟩
  | some ns =>
    match tree with
    | none => some ⟨h, none, .returned none⟩
    | some t =>
      match xmlRemoveNsScan h t ns (h.length + 1) (some t) none with
      | none => none
      | some (.failed e) => some ⟨h, none, .failed e⟩
      | some (.done declNode) => removeDecl h ns (some t) declNode

/-- The `while (node != NULL)` loop of `remove_ns`. -/
def removeNsScan (h : Store) (tree : NodePtr) (ns : NsPtr) :
    Nat → Option NodePtr → Option NodePtr → Option ScanResult
  | _, none, declNode => some (.done declNode)
  | 0, some _, _ => none
  | fuel + 1, some node, declNode =>
    match h[node]? with
    | none => none
    | some n =>
      if n.ns = some ns then some (.failed .nodeInUse)
      else if attrUses ns n.properties then some (.failed .attrInUse)
      else
        let declNode1 := if declares ns n.nsDef then some node else declNode
        match advance h tree node n with
        | none => none
        | some node1 => removeNsScan h tree ns fuel node1 declNode1

/-- `remove_ns(tree, ns)` of xmlextra.c.  On success it returns `None`, recorded as
`returned none`. -/
def remove_ns (h : Store) (tree : Option NodePtr) (ns : Option NsPtr) :
    Option RemoveNsOutcome :=
  match ns with
  | none => some ⟨h, none, .failed .nullNamespace⟩
  | some ns =>
    match tree with
    | none => some ⟨h, none, .returned none⟩
    | some t =>
      match removeNsScan h t ns (h.length + 1) (some t) none with
      | none => none
      | some (.failed e) => some ⟨h, none, .failed e⟩
      | some (.done declNode) => removeDecl h ns none declNode

/-- The text `xmlRemoveNs(tree, ns)` hands to `xmlGenericError` before it returns `NULL`;
`none` when the call does not fail. -/
def xmlRemoveNsLogs (h : Store) (tree : Option NodePtr) (ns : Option NsPtr) :
    Option String :=
  match xmlRemoveNs h tree ns with
  | some ⟨_, _, .failed e⟩ => some (xmlRemoveNsMessage e)
  | _ => none

/-- The text of the `MyError` exception that `remove_ns(tree, ns)` raises; `none` when the
call does not fail. -/
def removeNsRaises (h : Store) (tree : Option NodePtr) (ns : Option NsPtr) :
    Option String :=
  match remove_ns h tree ns with
  | some ⟨_, _, .failed e⟩ => some (removeNsMessage e)
  | _ => none

/-! ## Namespace rewriter: `xmlReplaceNs` (tree.c) and `replace_ns` (xmlextra.c) -/

/-- The loop over `node->properties` of the replacement.  Its body is
`if (attr->ns == oldNs) node->ns = newNs;`: the only location written is `node->ns`, which is
the state threaded through the loop. -/
def replaceAttrLoop (oldNs newNs : Option NsPtr) : Option NsPtr → List XmlAttr → Option NsPtr
  | nodeNs, [] => nodeNs
  | nodeNs, a :: rest =>
    replaceAttrLoop oldNs newNs (if a.ns = oldNs then newNs else nodeNs) rest

/-- One iteration of the replacement on the record of `node`, before the advance. -/
def replaceNode (oldNs newNs : Option NsPtr) (n : XmlNode) : XmlNode :=
  let ns1 := if n.ns = oldNs then newNs else n.ns
  { n with ns := replaceAttrLoop oldNs newNs ns1 n.properties }

/-- The `while (node != NULL)` loop of `xmlReplaceNs`. -/
def xmlReplaceNsLoop (tree : NodePtr) (oldNs newNs : Option NsPtr) :
    Nat → Store → Option NodePtr → Option Store
  | _, h, none => some h
  | 0, _, some _ => none
  | fuel + 1, h, some node =>
    match h[node]? with
    | none => none
    | some n =>
      let n1 := replaceNode oldNs newNs n
      let h1 := h.set node n1
      match advance h1 tree node n1 with
      | none => none
      | some node1 => xmlReplaceNsLoop tree oldNs newNs fuel h1 node1

/-- `xmlReplaceNs(tree, oldNs, newNs)` of tree.c: the final store and the returned `tree`. -/
def xmlReplaceNs (h : Store) (tree : Option NodePtr) (oldNs newNs : Option NsPtr) :
    Option (Store × Option NodePtr) :=
  match tree with
  | none => some (h, none)
  | some t =>
    match xmlReplaceNsLoop t oldNs newNs (h.length + 1) h (some t) with
    | none => none
    | some h1 => some (h1, some t)

/-- The `while (node != NULL)` loop of `replace_ns`. -/
def replaceNsLoop (tree : NodePtr) (old_ns new_ns : Option NsPtr) :
    Nat → Store → Option NodePtr → Option Store
  | _, h, none => some h
  | 0, _, some _ => none
  | fuel + 1, h, some node =>
    match h[node]? with
    | none => none
    | some n =>
      let n1 := replaceNode old_ns new_ns n
      let h1 := h.set node n1
      match advance h1 tree node n1 with
      | none => none
      | some node1 => replaceNsLoop tree old_ns new_ns fuel h1 node1

/-- `replace_ns(tree, old_ns, new_ns)` of xmlextra.c: the final store; it returns `None`. -/
def replace_ns (h : Store) (tree : Option NodePtr) (old_ns new_ns : Option NsPtr) :
    Option Store :=
  match tree with
  | none => some h
  | some t => replaceNsLoop t old_ns new_ns (h.length + 1) h (some t)

/-! ## Trees in the store -/

/-- The shape of a chain of siblings with their descendants: `node p c s` is the node at
address `p`, whose children are the forest `c` and whose following siblings are the forest `s`. -/
inductive Forest where
  | nil : Forest
  | node (ptr : NodePtr) (child sibling : Forest) : Forest
deriving DecidableEq, Repr

/-- Addresses of a forest in document order (preorder, depth first). -/
def Forest.ptrs : Forest → List NodePtr
  | .nil => []
  | .node p c s => p :: (c.ptrs ++ s.ptrs)

/-- The store realises the forest `f` as the sibling chain starting at `first`, all of whose
members have parent `par`: every link `children`, `next`, `parent` agrees with the forest. -/
def linked (h : Store) (par : Option NodePtr) : Option NodePtr → Forest → Bool
  | none, .nil => true
  | some p, .node q c s =>
    p == q &&
      match h[p]? with
      | none => false
      | some n => n.parent == par && linked h (some p) n.children c && linked h par n.next s
  | _, _ => false

/-- The node at `tree` is the root of a subtree whose descendants are the forest `kids`:
links consistent, every node at one place only.  The `parent` and `next` of `tree` itself are
free, so `tree` may sit anywhere inside a larger document. -/
def isSubtree (h : Store) (tree : NodePtr) (kids : Forest) : Bool :=
  match h[tree]? with
  | none => false
  | some n => linked h (some tree) n.children kids && decide (tree :: kids.ptrs).Nodup

/-- The node record at `p` refers to `ns`, as its own namespace or through an attribute. -/
def refersTo (ns : Option NsPtr) (n : XmlNode) : Prop :=
  n.ns = ns ∨ ∃ a ∈ n.properties, a.ns = ns

instance (ns : Option NsPtr) (n : XmlNode) : Decidable (refersTo ns n) := by
  unfold refersTo; infer_instance

/-! ## Stream reader: the parser context and the handlers of libxml2 behind the callbacks

The callbacks of xmlextra.c read `ctxt->nodeNr`, `ctxt->node` and `ctxt->myDoc` and delegate
to the default SAX handlers saved in the reader; these and `xmlUnlinkNode`, `xmlFreeNode`
belong to libxml2.  The document under construction is kept as the stack of open elements,
each with the children attached to it so far. -/

/-- Attach the forest `g` after the last tree of a sibling chain. -/
def Forest.append : Forest → Forest → Forest
  | .nil, g => g
  | .node p c s, g => .node p c (s.append g)

/-- Drop the subtree rooted at address `p`, wherever it sits in the forest. -/
def Forest.remove (p : NodePtr) : Forest → Forest
  | .nil => .nil
  | .node q c s => if q = p then s.remove p else .node q (c.remove p) (s.remove p)

/-- An element whose start has been seen and whose end has not: its node, its name and the
children attached so far. -/
structure OpenElem where
  ptr : NodePtr
  name : String
  kids : Forest
deriving DecidableEq, Repr

/-- Modelled from the spec: the parser context `xmlParserCtxt` of libxml2 as far as the
callbacks see it.  `nodeTab` is the stack of open elements, innermost first; `docChildren`
are the finished children of `ctxt->myDoc`; `nextPtr` is the next unused node address;
`freed` lists the roots handed to `xmlFreeNode`. -/
structure ParserCtxt where
  nodeTab : List OpenElem
  docChildren : Forest
  nextPtr : NodePtr
  freed : List NodePtr
deriving DecidableEq, Repr

/-- The field `ctxt->nodeNr`: the number of open elements, the depth. -/
def ParserCtxt.nodeNr (c : ParserCtxt) : Nat := c.nodeTab.length

/-- The field `ctxt->node`: the innermost open element, `NULL` outside the root. -/
def ParserCtxt.node (c : ParserCtxt) : Option NodePtr := c.nodeTab.head?.map OpenElem.ptr

/-- Modelled from the spec: the open-element handling of libxml2 behind `reader->startElement`.
It creates the node of the element and pushes it, which increments the depth. -/
def defaultStartElement (c : ParserCtxt) (name : String) : ParserCtxt :=
  { c with nodeTab := ⟨c.nextPtr, name, .nil⟩ :: c.nodeTab, nextPtr := c.nextPtr + 1 }

/-- Modelled from the spec: the close-element handling of libxml2 behind `reader->endElement`.
It pops the innermost open element, which stays a child of its parent (of the document for
the root); the depth never goes below zero. -/
def defaultEndElement (c : ParserCtxt) : ParserCtxt :=
  match c.nodeTab with
  | [] => c
  | [top] =>
    { c with nodeTab := [], docChildren := c.docChildren.append (.node top.ptr top.kids .nil) }
  | top :: par :: rest =>
    { c with nodeTab :=
        { par with kids := par.kids.append (.node top.ptr top.kids .nil) } :: rest }

/-- Modelled from the spec: a content handler of libxml2 (`reader->characters`,
`reader->cdataBlock`, `reader->processingInstruction`) attaching one new leaf node to the
innermost open element, or to the document outside the root. -/
def defaultContent (c : ParserCtxt) : ParserCtxt :=
  match c.nodeTab with
  | [] =>
    { c with docChildren := c.docChildren.append (.node c.nextPtr .nil .nil),
             nextPtr := c.nextPtr + 1 }
  | top :: rest =>
    { c with nodeTab := { top with kids := top.kids.append (.node c.nextPtr .nil .nil) } :: rest,
             nextPtr := c.nextPtr + 1 }

/-- Modelled from the spec: `xmlUnlinkNode(node)` of libxml2; the subtree at `node` leaves the
children of its parent. -/
def xmlUnlinkNode (c : ParserCtxt) (node : NodePtr) : ParserCtxt :=
  { c with nodeTab := c.nodeTab.map fun o => { o with kids := o.kids.remove node },
           docChildren := c.docChildren.remove node }

/-- Modelled from the spec: the content handlers of libxml2 that stay in the SAX table as
copied from `xmlDefaultSAXHandler` (`ignorableWhitespace`, `reference`); they attach one new
leaf node to the innermost open element, at any depth, and do nothing outside the root. -/
def defaultUngated (c : ParserCtxt) : ParserCtxt :=
  match c.nodeTab with
  | [] => c
  | _ :: _ => defaultContent c

/-- Modelled from the spec: `xmlFreeNode(node)` of libxml2; the subtree is destroyed. -/
def xmlFreeNode (c : ParserCtxt) (node : NodePtr) : ParserCtxt :=
  { c with freed := c.freed ++ [node] }

/-! ## Stream reader: the callbacks of xmlextra.c -/

/-- A method call on the Python handler object; the document argument, always `ctxt->myDoc`,
is left out. -/
inductive HandlerCall where
  | streamStart
  | stanzaStart (node : Option NodePtr)
  | stanzaEnd (node : NodePtr)
  | streamEnd
  | error (msg : String)
deriving DecidableEq, Repr

/-- The handler object: given the document as it stands (the handler is passed the document
and the node), the calls it has received so far and a new call, does the call return normally
(`true`) or raise (`false`, `PyObject_CallMethod` returns `NULL`)? -/
abbrev Handler := ParserCtxt → List HandlerCall → HandlerCall → Bool

/-- A callback of the tokenizer into the SAX table set up by `reader_new`: the seven slots
it replaces, and the two content slots it leaves as copied from `xmlDefaultSAXHandler`
(`ignorableWhitespace`, `reference`).  For `error` and `fatalError` the argument is the
formatted message, `none` when `PyString_FromFormatV` fails.  The slots set to `NULL` are
never called; the remaining ones (document start and end, the internal subset, the locator,
warnings) touch neither the element stack, nor the children of an element, nor the
handler. -/
inductive SaxEvent where
  | startElement (name : String)
  | endElement (name : String)
  | characters (ch : String)
  | cdataBlock (value : String)
  | processingInstruction (target data : String)
  | error (msg : Option String)
  | fatalError (msg : Option String)
  | ignorableWhitespace (ch : String)
  | reference (name : String)
deriving DecidableEq, Repr

/-- The `ReaderObject` with its parser context; `calls` records the calls made to the handler
and `forwarded` the content callbacks that the callbacks of the reader passed on to libxml2,
oldest first. -/
structure Reader where
  ctxt : ParserCtxt
  eof : Bool
  exception : Bool
  calls : List HandlerCall
  forwarded : List SaxEvent
deriving DecidableEq, Repr

/-- `obj = PyObject_CallMethod(reader->handler, ...); if (obj == NULL) reader->exception = 1;` -/
def callHandler (handler : Handler) (r : Reader) (c : HandlerCall) : Reader :=
  { r with calls := r.calls ++ [c],
           exception := if handler r.ctxt r.calls c then r.exception else true }

/-- `myStartElement`: delegate, then report the stream root at depth 1 and a stanza root at
depth 2. -/
def myStartElement (handler : Handler) (r : Reader) (name : String) : Reader :=
  let r1 := { r with ctxt := defaultStartElement r.ctxt name }
  if r1.ctxt.nodeNr = 1 then callHandler handler r1 .streamStart
  else if r1.ctxt.nodeNr = 2 then callHandler handler r1 (.stanzaStart r1.ctxt.node)
  else r1

/-- `myEndElement`: capture `ctxt->node`, delegate, then report the end of the stream at
depth 0, or the end of a stanza at depth 1 and then unlink and free its node. -/
def myEndElement (handler : Handler) (r : Reader) (_name : String) : Reader :=
  let node := r.ctxt.node
  let r1 := { r with ctxt := defaultEndElement r.ctxt }
  if r1.ctxt.nodeNr = 0 then callHandler handler { r1 with eof := true } .streamEnd
  else if r1.ctxt.nodeNr = 1 then
    match node with
    | none => r1
    | some p =>
      let r2 := callHandler handler r1 (.stanzaEnd p)
      { r2 with ctxt := xmlFreeNode (xmlUnlinkNode r2.ctxt p) p }
  else r1

/-- `myCharacters`: pass the text on only when `ctxt->nodeNr > 1`. -/
def myCharacters (r : Reader) (ch : String) : Reader :=
  if r.ctxt.nodeNr > 1 then
    { r with ctxt := defaultContent r.ctxt, forwarded := r.forwarded ++ [.characters ch] }
  else r

/-- `myCdataBlock`: pass the block on only when `ctxt->nodeNr > 1`. -/
def myCdataBlock (r : Reader) (value : String) : Reader :=
  if r.ctxt.nodeNr > 1 then
    { r with ctxt := defaultContent r.ctxt, forwarded := r.forwarded ++ [.cdataBlock value] }
  else r

/-- `myProcessingInstruction`: pass the instruction on only when `ctxt->nodeNr == 0`. -/
def myProcessingInstruction (r : Reader) (target data : String) : Reader :=
  if r.ctxt.nodeNr = 0 then
    { r with ctxt := defaultContent r.ctxt,
             forwarded := r.forwarded ++ [.processingInstruction target data] }
  else r

/-- `myError`: without a formatted message set the exception flag, otherwise call the
`error` method of the handler. -/
def myError (handler : Handler) (r : Reader) (msg : Option String) : Reader :=
  match msg with
  | none => { r with exception := true }
  | some str => callHandler handler r (.error str)

/-- `myFatalError`: the same body as `myError`. -/
def myFatalError (handler : Handler) (r : Reader) (msg : Option String) : Reader :=
  match msg with
  | none => { r with exception := true }
  | some str => callHandler handler r (.error str)

/-- The state `reader_new` sets up: a fresh parser context, `eof = 0`, `exception = 0`. -/
def reader_new : Reader :=
  { ctxt := ⟨[], .nil, 0, []⟩, eof := false, exception := false, calls := [], forwarded := [] }

/-- The SAX table set up by `reader_new`: which function each callback of the tokenizer
runs.  The table starts as a copy of `xmlDefaultSAXHandler`; seven slots are replaced by the
callbacks above, while `ignorableWhitespace` and `reference` keep the handler of libxml2, which
no callback of the reader stands in front of. -/
def dispatch (handler : Handler) (r : Reader) : SaxEvent → Reader
  | .startElement name => myStartElement handler r name
  | .endElement name => myEndElement handler r name
  | .characters ch => myCharacters r ch
  | .cdataBlock value => myCdataBlock r value
  | .processingInstruction target data => myProcessingInstruction r target data
  | .error msg => myError handler r msg
  | .fatalError msg => myFatalError handler r msg
  | .ignorableWhitespace _ => { r with ctxt := defaultUngated r.ctxt }
  | .reference _ => { r with ctxt := defaultUngated r.ctxt }

/-- The callbacks of a run of the tokenizer, dispatched one after the other. -/
def dispatchAll (handler : Handler) (r : Reader) (events : List SaxEvent) : Reader :=
  events.foldl (dispatch handler) r

/-- A well-nested sequence of content: elements with their content, character data, CDATA
blocks and processing instructions. -/
inductive Markup where
  | nil : Markup
  | elem (name : String) (inner rest : Markup) : Markup
  | chars (ch : String) (rest : Markup) : Markup
  | cdata (value : String) (rest : Markup) : Markup
  | pi (target data : String) (rest : Markup) : Markup
deriving DecidableEq, Repr

/-- The callbacks the tokenizer makes for a piece of content, in document order. -/
def Markup.events : Markup → List SaxEvent
  | .nil => []
  | .elem name inner rest =>
    .startElement name :: (inner.events ++ .endElement name :: rest.events)
  | .chars ch rest => .characters ch :: rest.events
  | .cdata value rest => .cdataBlock value :: rest.events
  | .pi target data rest => .processingInstruction target data :: rest.events

/-- The number of elements at the top level of a piece of content. -/
def Markup.elems : Markup → Nat
  | .nil => 0
  | .elem _ _ rest => rest.elems + 1
  | .chars _ rest => rest.elems
  | .cdata _ rest => rest.elems
  | .pi _ _ rest => rest.elems

/-- The character-data and CDATA callbacks of a piece of content, at any depth, in document
order. -/
def Markup.texts : Markup → List SaxEvent
  | .nil => []
  | .elem _ inner rest => inner.texts ++ rest.texts
  | .chars ch rest => .characters ch :: rest.texts
  | .cdata value rest => .cdataBlock value :: rest.texts
  | .pi _ _ rest => rest.texts

/-- The character-data and CDATA callbacks that lie inside the elements at the top level of a
piece of content; those between the elements are left out. -/
def Markup.stanzaTexts : Markup → List SaxEvent
  | .nil => []
  | .elem _ inner rest => inner.texts ++ rest.stanzaTexts
  | .chars _ rest => rest.stanzaTexts
  | .cdata _ rest => rest.stanzaTexts
  | .pi _ _ rest => rest.stanzaTexts

/-- The handler calls for a sequence of stanzas: each start directly followed by its end. -/
def stanzaCalls : List NodePtr → List HandlerCall
  | [] => []
  | p :: rest => .stanzaStart (some p) :: .stanzaEnd p :: stanzaCalls rest

/-- The document `<stream><msg>hi</msg></stream>`. -/
def streamMsgHi : Markup :=
  .elem "stream" (.elem "msg" (.chars "hi" .nil) .nil) .nil

/-! ## Definitions used to state and prove the properties -/

/-- The node the traversal reaches after the last address of a list: the head of what follows,
or the continuation `k`. -/
def headOr (l : List NodePtr) (k : Option NodePtr) : Option NodePtr :=
  match l with
  | [] => k
  | y :: _ => some y

/-- Along the list, the advance step leads from each address to the next one, and from the
last one to `k`. -/
def Follows (h : Store) (tree : NodePtr) (k : Option NodePtr) : List NodePtr → Prop
  | [] => True
  | x :: rest =>
    (∃ n, h[x]? = some n ∧ advance h tree x n = some (headOr rest k)) ∧ Follows h tree k rest

/-- The scan of the removal as a recursion over the list of addresses to visit. -/
def scanList (h : Store) (ns : NsPtr) :
    List NodePtr → Option NodePtr → ScanResult
  | [], declNode => .done declNode
  | x :: rest, declNode =>
    match h[x]? with
    | none => .done declNode
    | some n =>
      if n.ns = some ns then .failed .nodeInUse
      else if attrUses ns n.properties then .failed .attrInUse
      else scanList h ns rest (if declares ns n.nsDef then some x else declNode)

/-- The last node of the list whose chain declares `ns`, or `declNode` if there is none. -/
def lastDecl (h : Store) (ns : NsPtr) : List NodePtr → Option NodePtr → Option NodePtr
  | [], declNode => declNode
  | x :: rest, declNode =>
    match h[x]? with
    | none => declNode
    | some n => lastDecl h ns rest (if declares ns n.nsDef then some x else declNode)

/-- The failing returns that report a namespace in use (by a node, or by an attribute). -/
def RemoveNsError.inUse : RemoveNsError → Bool
  | .nullNamespace => false
  | .nodeInUse => true
  | .attrInUse => true

/-- Shorthand for test records: an element without attributes or declarations. -/
def elemNode (name : String) (children next parent : Option NodePtr) : XmlNode :=
  { name := name, ns := none, properties := [], nsDef := [],
    children := children, next := next, parent := parent }

/-- A store with `ns1` (address 7) declared on the root and used by an attribute three levels
deep: `<r xmlns:ns1=".."><a><c><d ns1:x=".."/></c></a><b/></r>`. -/
def deepAttrStore : Store :=
  [ { elemNode "r" (some 1) none none with nsDef := [7] },
    elemNode "a" (some 3) (some 2) (some 0),
    elemNode "b" none none (some 0),
    elemNode "c" (some 4) none (some 1),
    { elemNode "d" none none (some 3) with properties := [⟨"x", some 7⟩] } ]

/-- The descendants of the root of `deepAttrStore`. -/
def deepAttrKids : Forest :=
  .node 1 (.node 3 (.node 4 .nil .nil) .nil) (.node 2 .nil .nil)

/-- The same document after clearing the namespace reference of the attribute. -/
def clearedAttrStore : Store :=
  deepAttrStore.set 4 { elemNode "d" none none (some 3) with properties := [⟨"x", none⟩] }

/-- The link fields of a record: all that the traversal reads. -/
def links (n : XmlNode) : Option NodePtr × Option NodePtr × Option NodePtr :=
  (n.children, n.next, n.parent)

/-- One iteration of the replacement applied to the record at `p`. -/
def replaceAt (oldNs newNs : Option NsPtr) (h : Store) (p : NodePtr) : Store :=
  match h[p]? with
  | none => h
  | some m => h.set p (replaceNode oldNs newNs m)

/-- The nodes of a stack of open elements with the children attached to them. -/
def openPtrs : List OpenElem → List NodePtr
  | [] => []
  | o :: rest => o.ptr :: (o.kids.ptrs ++ openPtrs rest)

/-- The nodes reachable from the document: its finished children and the open elements with
their children. -/
def ParserCtxt.reachable (c : ParserCtxt) : List NodePtr :=
  c.docChildren.ptrs ++ openPtrs c.nodeTab

/-! ## Stream reader: feeding chunks -/

/-- What `reader_feed` hands back: `None`; or `NULL` with the exception left by the callbacks;
or `NULL` after raising `MyError` with "Parser error #code.". -/
inductive FeedResult where
  | ok
  | handlerError
  | parseError (code : Int)
deriving DecidableEq, Repr

/-- The push parser of libxml2 behind `xmlParseChunk`, taken as a parameter: from its state,
the bytes of a chunk and the terminate flag it gives its new state, the callbacks it makes
into the SAX table, in order, and its return code. -/
abbrev Tokenizer (σ : Type) := σ → List Nat → Bool → σ × List SaxEvent × Int

/-- `reader_feed`: clear `reader->exception`, run `xmlParseChunk` on the bytes with
`terminate = (len == 0)`, whose callbacks go through the SAX table, then report. -/
def reader_feed {σ : Type} (tok : Tokenizer σ) (handler : Handler) (s : σ × Reader)
    (str : List Nat) : (σ × Reader) × FeedResult :=
  let r0 := { s.2 with exception := false }
  let out := tok s.1 str (str.length == 0)
  let r1 := dispatchAll handler r0 out.2.1
  ((out.1, r1),
    if r1.exception then .handlerError
    else if out.2.2 = 0 then .ok
    else .parseError out.2.2)

/-- A session: the chunks fed one after the other, whatever each call reports. -/
def feedAll {σ : Type} (tok : Tokenizer σ) (handler : Handler) :
    σ × Reader → List (List Nat) → σ × Reader
  | s, [] => s
  | s, chunk :: rest => feedAll tok handler (reader_feed tok handler s chunk).1 rest

/-- All the callbacks the tokenizer makes over a sequence of chunks. -/
def tokenAll {σ : Type} (tok : Tokenizer σ) : σ → List (List Nat) → List SaxEvent
  | _, [] => []
  | t, chunk :: rest =>
    (tok t chunk (chunk.length == 0)).2.1 ++
      tokenAll tok (tok t chunk (chunk.length == 0)).1 rest

/-- Element-start and element-end callbacks. -/
def SaxEvent.isElement : SaxEvent → Bool
  | .startElement _ => true
  | .endElement _ => true
  | _ => false

/-- The four structural events, without the node they are about. -/
inductive StructuralEvent where
  | streamStart
  | stanzaStart
  | stanzaEnd
  | streamEnd
deriving DecidableEq, Repr

/-- The structural event a handler call stands for; `error` calls are not structural. -/
def HandlerCall.structural : HandlerCall → Option StructuralEvent
  | .streamStart => some .streamStart
  | .stanzaStart _ => some .stanzaStart
  | .stanzaEnd _ => some .stanzaEnd
  | .streamEnd => some .streamEnd
  | .error _ => none

/-- The structural events among the calls made to the handler, in order. -/
def structuralEvents (calls : List HandlerCall) : List StructuralEvent :=
  calls.filterMap HandlerCall.structural

/-- The state machine of the spec on the depth alone: the structural events for a sequence
of callbacks started at depth `d`. -/
def depthTrace : Nat → List SaxEvent → List StructuralEvent
  | _, [] => []
  | d, .startElement _ :: rest =>
    (if d + 1 = 1 then [.streamStart] else if d + 1 = 2 then [.stanzaStart] else []) ++
      depthTrace (d + 1) rest
  | d, .endElement _ :: rest =>
    (if d - 1 = 0 then [.streamEnd] else if d - 1 = 1 then [.stanzaEnd] else []) ++
      depthTrace (d - 1) rest
  | d, _ :: rest => depthTrace d rest

/-- The depth after a sequence of callbacks started at depth `d`. -/
def depthAfter : Nat → List SaxEvent → Nat
  | d, [] => d
  | d, .startElement _ :: rest => depthAfter (d + 1) rest
  | d, .endElement _ :: rest => depthAfter (d - 1) rest
  | d, _ :: rest => depthAfter d rest

/-- A way of splitting an input into chunks: the chunks, none of them empty, put together
give the input.  An empty chunk is not part of a split: `reader_feed` passes it on with
`terminate = 1`, so it stands for the end of the input and comes once, after the split. -/
def IsSplit (chunks : List (List Nat)) (input : List Nat) : Prop :=
  (∀ c ∈ chunks, c ≠ []) ∧ chunks.flatten = input

/-- For an input, the tokenizer makes the same element callbacks in the same order however
the input is split into chunks (each split followed by the terminal empty chunk). -/
def ChunkInvariantOn {σ : Type} (tok : Tokenizer σ) (t0 : σ) (input : List Nat) : Prop :=
  ∀ c1 c2 : List (List Nat), IsSplit c1 input → IsSplit c2 input →
    (tokenAll tok t0 (c1 ++ [[]])).filter SaxEvent.isElement =
      (tokenAll tok t0 (c2 ++ [[]])).filter SaxEvent.isElement

/-- State of the sample tokenizer: has the end of the input been signalled, and the bytes of
a tag read so far when a chunk ended inside a tag. -/
structure TagState where
  ended : Bool
  pending : Option (List Nat)
deriving DecidableEq, Repr

/-- The text with the given bytes. -/
def bytesToString (bytes : List Nat) : String :=
  String.mk (bytes.map Char.ofNat)

/-- The callback for a complete tag: an end tag when it starts with `/` (47). -/
def tagEvent : List Nat → SaxEvent
  | 47 :: name => .endElement (bytesToString name)
  | name => .startElement (bytesToString name)

/-- The callback for the character data read so far, if any. -/
def flushText (text : List Nat) : List SaxEvent :=
  if text.isEmpty then [] else [.characters (bytesToString text)]

/-- The sample tokenizer on the bytes of one chunk: `<` (60) opens a tag and `>` (62) closes
it; character data is reported at the next tag and at the end of the chunk, so the way the
input is split shows in the character callbacks.  The result is the unfinished tag, if the
chunk ends inside one, and the callbacks. -/
def scanBytes : Option (List Nat) → List Nat → List Nat → Option (List Nat) × List SaxEvent
  | pending, text, [] => (pending, flushText text)
  | none, text, b :: rest =>
    if b = 60 then
      ((scanBytes (some []) [] rest).1, flushText text ++ (scanBytes (some []) [] rest).2)
    else scanBytes none (text ++ [b]) rest
  | some tag, text, b :: rest =>
    if b = 62 then
      ((scanBytes none [] rest).1, tagEvent tag :: (scanBytes none [] rest).2)
    else scanBytes (some (tag ++ [b])) text rest

/-- A sample tokenizer with the interface of `xmlParseChunk`: a tag may run over several
chunks, the end of the input is final (chunks arriving after it give no callbacks and the
error code 1), and an input ending inside a tag gives the error code 1. -/
def tagTokenizer : Tokenizer TagState := fun s str terminate =>
  if s.ended then (s, [], 1)
  else
    (⟨terminate, (scanBytes s.pending [] str).1⟩, (scanBytes s.pending [] str).2,
      if terminate && (scanBytes s.pending [] str).1.isSome then 1 else 0)

/-- The element callbacks of the sample tokenizer for a run of bytes, whatever the chunks. -/
def elemScan : Option (List Nat) → List Nat → Option (List Nat) × List SaxEvent
  | pending, [] => (pending, [])
  | none, b :: rest => if b = 60 then elemScan (some []) rest else elemScan none rest
  | some tag, b :: rest =>
    if b = 62 then ((elemScan none rest).1, tagEvent tag :: (elemScan none rest).2)
    else elemScan (some (tag ++ [b])) rest

/-- The handler call a callback leads to, with the document as it stands when the call is
made: none for most callbacks. -/
def handlerCallOf (r : Reader) : SaxEvent → Option (ParserCtxt × HandlerCall)
  | .startElement name =>
    let c := defaultStartElement r.ctxt name
    if c.nodeNr = 1 then some (c, .streamStart)
    else if c.nodeNr = 2 then some (c, .stanzaStart c.node)
    else none
  | .endElement _ =>
    let c := defaultEndElement r.ctxt
    if c.nodeNr = 0 then some (c, .streamEnd)
    else if c.nodeNr = 1 then r.ctxt.node.map fun p => (c, .stanzaEnd p)
    else none
  | .error (some str) => some (r.ctxt, .error str)
  | .fatalError (some str) => some (r.ctxt, .error str)
  | _ => none

/-- An error callback whose message could not be built. -/
def SaxEvent.unformatted : SaxEvent → Bool
  | .error none => true
  | .fatalError none => true
  | _ => false

/-- Dispatching the callback from `r` sets the exception flag: the handler call it leads to
raises, or its message could not be built. -/
def raisesAt (handler : Handler) (r : Reader) (e : SaxEvent) : Bool :=
  e.unformatted ||
    match handlerCallOf r e with
    | none => false
    | some (c, call) => !handler c r.calls call

/-- Some callback of the sequence, dispatched in its turn from `r`, sets the flag. -/
def raisesDuring (handler : Handler) : Reader → List SaxEvent → Bool
  | _, [] => false
  | r, e :: rest => raisesAt handler r e || raisesDuring handler (dispatch handler r e) rest

/-- A tokenizer for one scenario: whatever the bytes, it reports one error whose message
cannot be built, and returns 0. -/
def unformattedErrorTokenizer : Tokenizer Unit := fun _ _ _ => ((), [.error none], 0)

/-- The skeleton of the loops of the namespace functions: the nodes visited from `node` on,
in the order of the visits. -/
def traverse (h : Store) (tree : NodePtr) : Nat → Option NodePtr → Option (List NodePtr)
  | _, none => some []
  | 0, some _ => none
  | fuel + 1, some node =>
    match h[node]? with
    | none => none
    | some n =>
      match advance h tree node n with
      | none => none
      | some node1 => (traverse h tree fuel node1).map (node :: ·)

/-- The callbacks for a sequence of processing instructions, given as target and data. -/
def piEvents (l : List (String × String)) : List SaxEvent :=
  l.map fun td => SaxEvent.processingInstruction td.1 td.2

/-- Element-start callbacks. -/
def SaxEvent.isStart : SaxEvent → Bool
  | .startElement _ => true
  | _ => false

/-- The first node of the list, taken in traversal order, whose chain contains `ns`: the
declaring node in the words of the specification. -/
def firstDecl (h : Store) (ns : NsPtr) (l : List NodePtr) : Option NodePtr :=
  l.find? fun y =>
    match h[y]? with
    | none => false
    | some m => decide (ns ∈ m.nsDef)

/-- A store for `<r><a xmlns:p2=".." xmlns:p1=".."/><b/></r>`: the namespace at address 7
(`p1`) is declared on the inner node `a`, after the one at address 8, and used nowhere. -/
def innerDeclStore : Store :=
  [ elemNode "r" (some 1) none none,
    { elemNode "a" none (some 2) (some 0) with nsDef := [8, 7] },
    elemNode "b" none none (some 0) ]

/-- A store for `<r xmlns:p1=".." xmlns:p2=".."><p2:d p1:x=".."/></r>`: the namespaces are at
addresses 7 (`p1`) and 8 (`p2`); the node `d` is in `p2`, its attribute `x` in `p1`. -/
def ownNsStore : Store :=
  [ { elemNode "r" (some 1) none none with nsDef := [7, 8] },
    { elemNode "d" none none (some 0) with ns := some 8, properties := [⟨"x", some 7⟩] } ]

/-- The failing return behind what the removal hands back, if it is a failure. -/
def RemoveNsReturn.failure : RemoveNsReturn → Option RemoveNsError
  | .failed e => some e
  | .returned _ => none

/-- Two reader states that differ at most in the exception flag. -/
def sameButFlag (r1 r2 : Reader) : Prop :=
  r1.ctxt = r2.ctxt ∧ r1.eof = r2.eof ∧ r1.calls = r2.calls ∧ r1.forwarded = r2.forwarded

/-- A handler whose `_stanza_end` raises; every other call returns normally. -/
def stanzaEndFails : Handler := fun _ _ call =>
  match call with
  | .stanzaEnd _ => false
  | _ => true

/-! ## Proofs: the traversal -/

theorem headOr_append (l1 l2 : List NodePtr) (k : Option NodePtr) :
    headOr (l1 ++ l2) k = headOr l1 (headOr l2 k) := by
  cases l1 <;> rfl

theorem follows_append (h : Store) (tree : NodePtr) (k : Option NodePtr) (l2 : List NodePtr) :
    ∀ l1 : List NodePtr, Follows h tree (headOr l2 k) l1 → Follows h tree k l2 →
      Follows h tree k (l1 ++ l2)
  | [], _, h2 => h2
  | x :: rest, h1, h2 => by
    obtain ⟨⟨n, hn, ha⟩, hr⟩ := h1
    refine ⟨⟨n, hn, ?_⟩, follows_append h tree k l2 rest hr h2⟩
    rw [ha]
    exact congrArg some (headOr_append rest l2 k).symm

theorem linked_nil {h : Store} {par first : Option NodePtr}
    (hl : linked h par first .nil = true) : first = none := by
  cases first with
  | none => rfl
  | some p => simp [linked] at hl

theorem linked_node {h : Store} {par first : Option NodePtr} {q : NodePtr} {c s : Forest}
    (hl : linked h par first (.node q c s) = true) :
    first = some q ∧ ∃ n, h[q]? = some n ∧ n.parent = par ∧
      linked h (some q) n.children c = true ∧ linked h par n.next s = true := by
  cases first with
  | none => simp [linked] at hl
  | some p =>
    simp only [linked, Bool.and_eq_true, beq_iff_eq] at hl
    obtain ⟨hpq, hrest⟩ := hl
    subst hpq
    cases hp : h[p]? with
    | none => simp [hp] at hrest
    | some n =>
      simp only [hp, Bool.and_eq_true, beq_iff_eq] at hrest
      exact ⟨rfl, n, rfl, hrest.1.1, hrest.1.2, hrest.2⟩

theorem linked_headOr {h : Store} {par first : Option NodePtr} {f : Forest}
    (hl : linked h par first f = true) : first = headOr f.ptrs none := by
  cases f with
  | nil => exact linked_nil hl
  | node q c s => exact (linked_node hl).1

theorem linked_valid {h : Store} : ∀ (f : Forest) (par first : Option NodePtr),
    linked h par first f = true → ∀ p ∈ f.ptrs, p < h.length
  | .nil, _, _, _, p, hp => by simp [Forest.ptrs] at hp
  | .node q c s, par, first, hl, p, hp => by
    obtain ⟨_, n, hn, _, hc, hs⟩ := linked_node hl
    simp only [Forest.ptrs, List.mem_cons, List.mem_append] at hp
    rcases hp with rfl | hp | hp
    · exact (List.getElem?_eq_some_iff.mp hn).1
    · exact linked_valid c _ _ hc p hp
    · exact linked_valid s _ _ hs p hp

theorem length_le_of_nodup_lt {l : List Nat} {n : Nat} (hd : l.Nodup) (hlt : ∀ p ∈ l, p < n) :
    l.length ≤ n := by
  have hsub : l ⊆ List.range n := fun p hp => List.mem_range.mpr (hlt p hp)
  simpa using (List.subperm_of_subset hd hsub).length_le

/-- Unfolding of one iteration of `climb` from a node `x ≠ tree` whose parent is `p`. -/
theorem climb_step {h : Store} {tree x p : NodePtr} {xn pn : XmlNode} (fuel : Nat)
    (hx : h[x]? = some xn) (hxt : x ≠ tree) (hpar : xn.parent = some p)
    (hp : h[p]? = some pn) :
    climb h tree (fuel + 1) x =
      if p ≠ tree ∧ pn.next ≠ none then some (if pn.next = some tree then none else pn.next)
      else if pn.parent = none then some none
      else climb h tree fuel p := by
  rw [climb.eq_def]
  simp only [hxt, if_false, hx, hpar, hp]

theorem climb_root (h : Store) (tree : NodePtr) (fuel : Nat) :
    climb h tree fuel tree = some none := by
  rw [climb.eq_def]; simp

/-- Inside a forest below `par`, the advance step follows document order; from the last node
it goes where climbing out of a child of `par` goes. -/
theorem follows_forest (h : Store) (tree : NodePtr) :
    ∀ (f : Forest) (par : NodePtr) (first k : Option NodePtr) (d : Nat),
      linked h (some par) first f = true → tree ∉ f.ptrs → d + f.ptrs.length ≤ h.length →
      (∀ fuel, d ≤ fuel → ∀ x xn, h[x]? = some xn → x ≠ tree → xn.parent = some par →
        climb h tree (fuel + 1) x = some k) →
      Follows h tree k f.ptrs
  | .nil, _, _, _, _, _, _, _, _ => trivial
  | .node q c s, par, first, k, d, hl, ht, hd, hk => by
    obtain ⟨_, n, hn, hpar, hc, hs⟩ := linked_node hl
    simp only [Forest.ptrs, List.mem_cons, List.mem_append, not_or] at ht
    obtain ⟨hqt, htc, hts⟩ := ht
    have hqt' : q ≠ tree := fun e => hqt e.symm
    simp only [Forest.ptrs, List.length_cons, List.length_append] at hd
    have hnext := linked_headOr hs
    have hchild := linked_headOr hc
    -- where climbing out of a child of `q` leads
    have hkq : ∀ fuel, d + 1 ≤ fuel → ∀ x xn, h[x]? = some xn → x ≠ tree →
        xn.parent = some q → climb h tree (fuel + 1) x = some (headOr s.ptrs k) := by
      intro fuel hf x xn hx hxt hxp
      rw [climb_step fuel hx hxt hxp hn]
      cases hsp : s.ptrs with
      | nil =>
        have : n.next = none := by rw [hnext, hsp]; rfl
        obtain ⟨fuel', rfl⟩ : ∃ m, fuel = m + 1 := ⟨fuel - 1, by omega⟩
        simp only [this, ne_eq, not_true_eq_false, and_false, if_false, hpar]
        simpa [headOr] using hk fuel' (by omega) q n hn hqt' hpar
      | cons y rest =>
        have hy : n.next = some y := by rw [hnext, hsp]; rfl
        have hyt : y ≠ tree := by
          intro e
          apply hts
          rw [hsp, e]; exact List.mem_cons_self _ _
        simp [hy, hqt', hyt, headOr]
    refine ⟨⟨n, hn, ?_⟩, ?_⟩
    · -- the advance step from `q` itself
      unfold advance
      cases hcp : c.ptrs with
      | nil =>
        have hc0 : n.children = none := by rw [hchild, hcp]; rfl
        cases hsp : s.ptrs with
        | nil =>
          have hn0 : n.next = none := by rw [hnext, hsp]; rfl
          simp only [hc0, hn0, ne_eq, not_true_eq_false, and_false, if_false, hqt',
            not_false_eq_true, if_true]
          simpa [headOr] using hk h.length (by omega) q n hn hqt' hpar
        | cons y rest =>
          have hy : n.next = some y := by rw [hnext, hsp]; rfl
          simp [hc0, hy, hqt', headOr]
      | cons y rest =>
        have hy : n.children = some y := by rw [hchild, hcp]; rfl
        simp [hy, headOr]
    · apply follows_append
      · exact follows_forest h tree c q n.children (headOr s.ptrs k) (d + 1) hc htc
          (by omega) hkq
      · exact follows_forest h tree s par n.next k d (hpar ▸ hs) hts (by omega) hk

/-- What `isSubtree` says, unpacked. -/
theorem isSubtree_iff {h : Store} {tree : NodePtr} {kids : Forest} :
    isSubtree h tree kids = true ↔
      ∃ n, h[tree]? = some n ∧ linked h (some tree) n.children kids = true ∧
        (tree :: kids.ptrs).Nodup := by
  unfold isSubtree
  cases ht : h[tree]? with
  | none => simp
  | some n => simp

/-- Every address of a subtree is inside the store. -/
theorem isSubtree_valid {h : Store} {tree : NodePtr} {kids : Forest}
    (hw : isSubtree h tree kids = true) : ∀ p ∈ tree :: kids.ptrs, p < h.length := by
  obtain ⟨n, hn, hl, _⟩ := isSubtree_iff.mp hw
  intro p hp
  rcases List.mem_cons.mp hp with rfl | hp
  · exact (List.getElem?_eq_some_iff.mp hn).1
  · exact linked_valid kids _ _ hl p hp

theorem isSubtree_length {h : Store} {tree : NodePtr} {kids : Forest}
    (hw : isSubtree h tree kids = true) : (tree :: kids.ptrs).length ≤ h.length := by
  obtain ⟨_, _, _, hnd⟩ := isSubtree_iff.mp hw
  exact length_le_of_nodup_lt hnd (isSubtree_valid hw)

/-- The traversal of the C code, started at the root of a subtree, steps through the nodes of
the subtree in document order and then stops. -/
theorem follows_subtree {h : Store} {tree : NodePtr} {kids : Forest}
    (hw : isSubtree h tree kids = true) : Follows h tree none (tree :: kids.ptrs) := by
  have hlen := isSubtree_length hw
  obtain ⟨n, hn, hl, hnd⟩ := isSubtree_iff.mp hw
  have htk : tree ∉ kids.ptrs := (List.nodup_cons.mp hnd).1
  simp only [List.length_cons] at hlen
  refine ⟨⟨n, hn, ?_⟩, ?_⟩
  · unfold advance
    have hchild := linked_headOr hl
    cases hcp : kids.ptrs with
    | nil =>
      have : n.children = none := by rw [hchild, hcp]; rfl
      simp [this, headOr]
    | cons y rest =>
      have : n.children = some y := by rw [hchild, hcp]; rfl
      simp [this, headOr]
  · refine follows_forest h tree kids tree n.children none 0 hl htk (by omega) ?_
    intro fuel _ x xn hx hxt hxp
    rw [climb_step fuel hx hxt hxp hn, climb_root]
    simp

/-! ### The removal scan along the document order -/

theorem xmlRemoveNsScan_eq (h : Store) (tree : NodePtr) (ns : NsPtr) :
    ∀ (l : List NodePtr) (fuel : Nat) (declNode : Option NodePtr),
      Follows h tree none l → l.length ≤ fuel →
      xmlRemoveNsScan h tree ns fuel (headOr l none) declNode = some (scanList h ns l declNode)
  | [], fuel, declNode, _, _ => by
    cases fuel <;> simp [headOr, xmlRemoveNsScan, scanList]
  | x :: rest, 0, _, _, hf => by simp at hf
  | x :: rest, fuel + 1, declNode, hfo, hf => by
    obtain ⟨⟨n, hn, ha⟩, hr⟩ := hfo
    simp only [headOr, xmlRemoveNsScan, scanList, hn, ha]
    split
    · rfl
    · split
      · rfl
      · exact xmlRemoveNsScan_eq h tree ns rest fuel _ hr (by simpa using hf)

theorem removeNsScan_eq_xml (h : Store) (tree : NodePtr) (ns : NsPtr) :
    ∀ (fuel : Nat) (node declNode : Option NodePtr),
      removeNsScan h tree ns fuel node declNode = xmlRemoveNsScan h tree ns fuel node declNode
  | 0, none, _ => by simp [removeNsScan, xmlRemoveNsScan]
  | 0, some _, _ => by simp [removeNsScan, xmlRemoveNsScan]
  | fuel + 1, none, _ => by simp [removeNsScan, xmlRemoveNsScan]
  | fuel + 1, some node, declNode => by
    simp only [removeNsScan, xmlRemoveNsScan]
    cases h[node]? with
    | none => rfl
    | some n =>
      simp only
      split
      · rfl
      · split
        · rfl
        · cases advance h tree node n with
          | none => rfl
          | some node1 => exact removeNsScan_eq_xml h tree ns fuel node1 _

theorem attrUses_iff (ns : NsPtr) : ∀ l : List XmlAttr,
    attrUses ns l = true ↔ ∃ a ∈ l, a.ns = some ns
  | [] => by simp [attrUses]
  | a :: rest => by
    by_cases ha : a.ns = some ns
    · simp [attrUses, ha]
    · simp [attrUses, ha, attrUses_iff ns rest]

theorem declares_iff (ns : NsPtr) : ∀ l : List NsPtr, declares ns l = true ↔ ns ∈ l
  | [] => by simp [declares]
  | d :: rest => by
    by_cases hd : d = ns
    · simp [declares, hd]
    · have : ¬ ns = d := fun e => hd e.symm
      simp [declares, hd, this, declares_iff ns rest]

theorem unlinkNs_eq_erase (ns : NsPtr) : ∀ l : List NsPtr, unlinkNs ns l = l.erase ns
  | [] => rfl
  | d :: rest => by
    by_cases hd : d = ns
    · simp [unlinkNs, hd]
    · simp [unlinkNs, hd, List.erase_cons_tail, unlinkNs_eq_erase ns rest]

/-- The scan fails at the first node in use, whatever was seen before. -/
theorem scanList_inUse (h : Store) (ns : NsPtr) :
    ∀ (l : List NodePtr) (declNode : Option NodePtr) (x : NodePtr) (n : XmlNode),
      (∀ y ∈ l, y < h.length) → x ∈ l → h[x]? = some n → refersTo (some ns) n →
      scanList h ns l declNode = .failed .nodeInUse ∨
        scanList h ns l declNode = .failed .attrInUse
  | [], _, _, _, _, hx, _, _ => by simp at hx
  | y :: rest, declNode, x, n, hv, hx, hn, hu => by
    have hy : y < h.length := hv y (List.mem_cons_self _ _)
    obtain ⟨m, hm⟩ : ∃ m, h[y]? = some m := ⟨h[y], List.getElem?_eq_getElem hy⟩
    simp only [scanList, hm]
    by_cases h1 : m.ns = some ns
    · simp [h1]
    · by_cases h2 : attrUses ns m.properties = true
      · simp [h1, h2]
      · simp only [h1, h2, if_false]
        rcases List.mem_cons.mp hx with rfl | hx
        · exfalso
          rw [hm] at hn
          cases hn
          rcases hu with hu | hu
          · exact h1 hu
          · exact h2 ((attrUses_iff ns _).mpr hu)
        · exact scanList_inUse h ns rest _ x n
            (fun z hz => hv z (List.mem_cons_of_mem _ hz)) hx hn hu

/-- Without any use of `ns`, the scan runs to the end and keeps the last declaring node. -/
theorem scanList_unused (h : Store) (ns : NsPtr) :
    ∀ (l : List NodePtr) (declNode : Option NodePtr),
      (∀ y ∈ l, ∀ m, h[y]? = some m → ¬ refersTo (some ns) m) →
      scanList h ns l declNode = .done (lastDecl h ns l declNode)
  | [], _, _ => rfl
  | y :: rest, declNode, hu => by
    cases hm : h[y]? with
    | none => simp [scanList, lastDecl, hm]
    | some m =>
      have hno := hu y (List.mem_cons_self _ _) m hm
      have h1 : ¬ m.ns = some ns := fun e => hno (Or.inl e)
      have h2 : ¬ attrUses ns m.properties = true :=
        fun e => hno (Or.inr ((attrUses_iff ns _).mp e))
      simp only [scanList, lastDecl, hm, h1, h2, if_false]
      exact scanList_unused h ns rest _ (fun z hz => hu z (List.mem_cons_of_mem _ hz))

theorem lastDecl_none (h : Store) (ns : NsPtr) :
    ∀ (l : List NodePtr) (declNode : Option NodePtr),
      (∀ y ∈ l, ∀ m, h[y]? = some m → ns ∉ m.nsDef) →
      lastDecl h ns l declNode = declNode
  | [], _, _ => rfl
  | y :: rest, declNode, hu => by
    cases hm : h[y]? with
    | none => simp [lastDecl, hm]
    | some m =>
      have h1 : ¬ declares ns m.nsDef = true :=
        fun e => hu y (List.mem_cons_self _ _) m hm ((declares_iff ns _).mp e)
      simp only [lastDecl, hm, h1, if_false]
      exact lastDecl_none h ns rest _ (fun z hz => hu z (List.mem_cons_of_mem _ hz))

theorem lastDecl_keep (h : Store) (ns : NsPtr) (D : NodePtr) :
    ∀ (l : List NodePtr), (∀ y ∈ l, y < h.length) →
      (∀ y ∈ l, ∀ m, h[y]? = some m → ns ∈ m.nsDef → y = D) →
      lastDecl h ns l (some D) = some D
  | [], _, _ => rfl
  | y :: rest, hv, hu => by
    have hy : y < h.length := hv y (List.mem_cons_self _ _)
    obtain ⟨m, hm⟩ : ∃ m, h[y]? = some m := ⟨h[y], List.getElem?_eq_getElem hy⟩
    have hrest := lastDecl_keep h ns D rest (fun z hz => hv z (List.mem_cons_of_mem _ hz))
      (fun z hz => hu z (List.mem_cons_of_mem _ hz))
    simp only [lastDecl, hm]
    by_cases h1 : declares ns m.nsDef = true
    · have : y = D := hu y (List.mem_cons_self _ _) m hm ((declares_iff ns _).mp h1)
      simp [h1, this, hrest]
    · simp [h1, hrest]

/-- When a single node `D` of the list declares `ns`, the scan ends with `declNode = D`. -/
theorem lastDecl_unique (h : Store) (ns : NsPtr) (D : NodePtr) (dn : XmlNode)
    (hD : h[D]? = some dn) (hdecl : ns ∈ dn.nsDef) :
    ∀ (l : List NodePtr) (declNode : Option NodePtr), (∀ y ∈ l, y < h.length) → D ∈ l →
      (∀ y ∈ l, ∀ m, h[y]? = some m → ns ∈ m.nsDef → y = D) →
      lastDecl h ns l declNode = some D
  | [], _, _, hmem, _ => by simp at hmem
  | y :: rest, declNode, hv, hmem, hu => by
    have hy : y < h.length := hv y (List.mem_cons_self _ _)
    obtain ⟨m, hm⟩ : ∃ m, h[y]? = some m := ⟨h[y], List.getElem?_eq_getElem hy⟩
    have hv' : ∀ z ∈ rest, z < h.length := fun z hz => hv z (List.mem_cons_of_mem _ hz)
    have hu' : ∀ z ∈ rest, ∀ m, h[z]? = some m → ns ∈ m.nsDef → z = D :=
      fun z hz => hu z (List.mem_cons_of_mem _ hz)
    simp only [lastDecl, hm]
    by_cases hyD : y = D
    · subst hyD
      rw [hD] at hm
      cases hm
      simp [(declares_iff ns _).mpr hdecl, lastDecl_keep h ns y rest hv' hu']
    · have h1 : ¬ declares ns m.nsDef = true :=
        fun e => hyD (hu y (List.mem_cons_self _ _) m hm ((declares_iff ns _).mp e))
      have hmem' : D ∈ rest := by
        rcases List.mem_cons.mp hmem with e | e
        · exact absurd e.symm hyD
        · exact e
      simp only [h1, if_false]
      exact lastDecl_unique h ns D dn hD hdecl rest declNode hv' hmem' hu'

/-- The scan of `xmlRemoveNs` on a subtree, as a recursion over its document order. -/
theorem xmlRemoveNsScan_subtree {h : Store} {tree : NodePtr} {kids : Forest} (ns : NsPtr)
    (hw : isSubtree h tree kids = true) :
    xmlRemoveNsScan h tree ns (h.length + 1) (some tree) none =
      some (scanList h ns (tree :: kids.ptrs) none) := by
  have := xmlRemoveNsScan_eq h tree ns (tree :: kids.ptrs) (h.length + 1) none
    (follows_subtree hw) (Nat.le_succ_of_le (isSubtree_length hw))
  simpa [headOr] using this

/-- The two removals are the same function up to the pointer returned on success. -/
theorem remove_ns_eq (h : Store) (tree : Option NodePtr) (ns : Option NsPtr) :
    remove_ns h tree ns =
      (xmlRemoveNs h tree ns).map fun o =>
        { o with ret := match o.ret with
            | .failed e => .failed e
            | .returned _ => .returned none } := by
  cases ns with
  | none => rfl
  | some ns =>
    cases tree with
    | none => rfl
    | some t =>
      simp only [remove_ns, xmlRemoveNs, removeNsScan_eq_xml]
      cases xmlRemoveNsScan h t ns (h.length + 1) (some t) none with
      | none => rfl
      | some r =>
        cases r with
        | failed e => rfl
        | done d =>
          cases d with
          | none => rfl
          | some d =>
            simp only [removeDecl]
            cases h[d]? <;> rfl

/-! ## Removal of a namespace declaration -/

/-- The text `remove_ns` raises its error with is the same at all three failing returns. -/
theorem removeNsMessage_const (e : RemoveNsError) :
    removeNsMessage e = "remove_ns: NULL namespace" := by
  cases e <;> rfl

/-- If some node of the subtree rooted at `tree` (root, inner node or leaf) has `ns` as its
own namespace or carries an attribute whose namespace is `ns`, then both `xmlRemoveNs` and
`remove_ns` return, and they return at one of their two namespace-in-use `return`s (where
`xmlRemoveNs` logs "namespace in use"), with the store as it was. -/
theorem remove_fails_when_in_use (h : Store) (tree : NodePtr) (kids : Forest)
    (ns : NsPtr) (x : NodePtr) (n : XmlNode)
    (hw : isSubtree h tree kids = true) (hx : x ∈ tree :: kids.ptrs)
    (hn : h[x]? = some n) (hu : refersTo (some ns) n) :
    ∃ e, e.inUse = true ∧ xmlRemoveNsMessage e = "xmlRemoveNs : namespace in use\n" ∧
      xmlRemoveNs h (some tree) (some ns) = some ⟨h, none, .failed e⟩ ∧
      remove_ns h (some tree) (some ns) = some ⟨h, none, .failed e⟩ := by
  have hscan := xmlRemoveNsScan_subtree ns hw
  have key : ∀ e, scanList h ns (tree :: kids.ptrs) none = .failed e →
      xmlRemoveNs h (some tree) (some ns) = some ⟨h, none, .failed e⟩ ∧
      remove_ns h (some tree) (some ns) = some ⟨h, none, .failed e⟩ := by
    intro e he
    have h1 : xmlRemoveNs h (some tree) (some ns) = some ⟨h, none, .failed e⟩ := by
      simp only [xmlRemoveNs, hscan, he]
    exact ⟨h1, by rw [remove_ns_eq, h1]; rfl⟩
  rcases scanList_inUse h ns (tree :: kids.ptrs) none x n (isSubtree_valid hw) hx hn hu
    with he | he
  · exact ⟨.nodeInUse, rfl, rfl, key _ he⟩
  · exact ⟨.attrInUse, rfl, rfl, key _ he⟩

/-- C1 (the code at the failing input): in the sample document the namespace 7, declared on
the root, is used by an attribute three levels deep.  `remove_ns` fails there, at its
attribute-in-use `return`, but the exception it raises carries the text "remove_ns: NULL
namespace", the very exception it raises for a null namespace: nothing tells the caller that
the namespace is in use.  `xmlRemoveNs`, at the same `return`, reports "namespace in use",
and a different text for a null namespace. -/
theorem remove_ns_in_use_raises_null_namespace :
    isSubtree deepAttrStore 0 deepAttrKids = true ∧
    remove_ns deepAttrStore (some 0) (some 7) =
      some ⟨deepAttrStore, none, .failed .attrInUse⟩ ∧
    removeNsRaises deepAttrStore (some 0) (some 7) = some "remove_ns: NULL namespace" ∧
    removeNsRaises deepAttrStore (some 0) none = some "remove_ns: NULL namespace" ∧
    xmlRemoveNsLogs deepAttrStore (some 0) (some 7) =
      some "xmlRemoveNs : namespace in use\n" ∧
    xmlRemoveNsLogs deepAttrStore (some 0) none = some "xmlRemoveNs : NULL namespace\n" := by
  decide

/-- Both removals on a subtree without any use of `ns`: they run `removeDecl` on the last
declaring node. -/
theorem remove_unused {h : Store} {tree : NodePtr} {kids : Forest} (ns : NsPtr)
    (hw : isSubtree h tree kids = true)
    (hunused : ∀ y ∈ tree :: kids.ptrs, ∀ m, h[y]? = some m → ¬ refersTo (some ns) m) :
    xmlRemoveNs h (some tree) (some ns) =
        removeDecl h ns (some tree) (lastDecl h ns (tree :: kids.ptrs) none) ∧
      remove_ns h (some tree) (some ns) =
        removeDecl h ns none (lastDecl h ns (tree :: kids.ptrs) none) := by
  have hscan := xmlRemoveNsScan_subtree ns hw
  rw [scanList_unused h ns _ none hunused] at hscan
  constructor
  · simp only [xmlRemoveNs, hscan]
  · simp only [remove_ns, removeNsScan_eq_xml, hscan]

/-- C4: when nothing in the subtree refers to `ns` and `ns` is in the declaration chain of the
node `D` of the subtree (the one chain owning it), both removals succeed, the chain of `D`
becomes its former chain without `ns`, the other declarations in their order, `ns` is freed,
nothing else changes, and no node or attribute of the subtree refers to `ns` afterwards. -/
theorem remove_namespace_unlinks_declaration (h : Store) (tree : NodePtr) (kids : Forest)
    (ns : NsPtr) (D : NodePtr) (dn : XmlNode)
    (hw : isSubtree h tree kids = true) (hD : D ∈ tree :: kids.ptrs)
    (hdn : h[D]? = some dn) (hdecl : ns ∈ dn.nsDef) (hchain : dn.nsDef.Nodup)
    (hown : ∀ y ∈ tree :: kids.ptrs, ∀ m, h[y]? = some m → ns ∈ m.nsDef → y = D)
    (hunused : ∀ y ∈ tree :: kids.ptrs, ∀ m, h[y]? = some m → ¬ refersTo (some ns) m) :
    ∃ h1 : Store,
      h1 = h.set D { dn with nsDef := dn.nsDef.filter (fun d => d ≠ ns) } ∧
      xmlRemoveNs h (some tree) (some ns) = some ⟨h1, some ns, .returned (some tree)⟩ ∧
      remove_ns h (some tree) (some ns) = some ⟨h1, some ns, .returned none⟩ ∧
      h1[D]? = some { dn with nsDef := dn.nsDef.filter (fun d => d ≠ ns) } ∧
      ∀ y ∈ tree :: kids.ptrs, ∀ m, h1[y]? = some m → ¬ refersTo (some ns) m := by
  obtain ⟨hx, hr⟩ := remove_unused ns hw hunused
  have hlast := lastDecl_unique h ns D dn hdn hdecl (tree :: kids.ptrs) none
    (isSubtree_valid hw) hD hown
  have hDlt : D < h.length := (List.getElem?_eq_some_iff.mp hdn).1
  have hfilter : unlinkNs ns dn.nsDef = dn.nsDef.filter (fun d => d ≠ ns) := by
    rw [unlinkNs_eq_erase, hchain.erase_eq_filter]
    apply List.filter_congr
    intro d _
    by_cases hd : d = ns <;> simp [hd]
  refine ⟨_, rfl, ?_, ?_, ?_, ?_⟩
  · rw [hx, hlast]
    simp only [removeDecl, hdn, (declares_iff ns _).mpr hdecl, if_true, hfilter]
  · rw [hr, hlast]
    simp only [removeDecl, hdn, (declares_iff ns _).mpr hdecl, if_true, hfilter]
  · exact List.getElem?_set_self hDlt
  · intro y hy m hm
    by_cases hyD : D = y
    · subst hyD
      rw [List.getElem?_set_self hDlt] at hm
      cases hm
      exact hunused D hy dn hdn
    · rw [List.getElem?_set_ne hyD] at hm
      exact hunused y hy m hm

/-- Witness for C4: once the attribute three levels deep no longer refers to `ns1`, the
declaration on the root is removed. -/
theorem remove_namespace_unlinks_declaration_witness :
    isSubtree clearedAttrStore 0 deepAttrKids = true ∧
    ∃ h1 : Store,
      h1 = clearedAttrStore.set 0
        { ({ elemNode "r" (some 1) none none with nsDef := [7] } : XmlNode) with
          nsDef := [7].filter (fun d => d ≠ 7) } ∧
      xmlRemoveNs clearedAttrStore (some 0) (some 7) =
        some ⟨h1, some 7, .returned (some 0)⟩ ∧
      remove_ns clearedAttrStore (some 0) (some 7) = some ⟨h1, some 7, .returned none⟩ ∧
      h1[0]? = some { ({ elemNode "r" (some 1) none none with nsDef := [7] } : XmlNode) with
          nsDef := [7].filter (fun d => d ≠ 7) } ∧
      ∀ y ∈ 0 :: deepAttrKids.ptrs, ∀ m, h1[y]? = some m → ¬ refersTo (some 7) m :=
  ⟨by decide,
    remove_namespace_unlinks_declaration clearedAttrStore 0 deepAttrKids 7 0
      { elemNode "r" (some 1) none none with nsDef := [7] }
      (by decide) (by decide) (by rfl) (by decide) (by decide) (by decide) (by decide)⟩

/-- C5: when `ns` is in no declaration chain of the subtree and nothing in the subtree refers
to it, both removals succeed and leave the store exactly as it was, freeing nothing. -/
theorem remove_namespace_noop (h : Store) (tree : NodePtr) (kids : Forest) (ns : NsPtr)
    (hw : isSubtree h tree kids = true)
    (hnodecl : ∀ y ∈ tree :: kids.ptrs, ∀ m, h[y]? = some m → ns ∉ m.nsDef)
    (hunused : ∀ y ∈ tree :: kids.ptrs, ∀ m, h[y]? = some m → ¬ refersTo (some ns) m) :
    xmlRemoveNs h (some tree) (some ns) = some ⟨h, none, .returned (some tree)⟩ ∧
      remove_ns h (some tree) (some ns) = some ⟨h, none, .returned none⟩ := by
  obtain ⟨hx, hr⟩ := remove_unused ns hw hunused
  rw [lastDecl_none h ns _ none hnodecl] at hx hr
  exact ⟨hx, hr⟩

/-- Witness for C5: a namespace declared and used nowhere in the document. -/
theorem remove_namespace_noop_witness :
    isSubtree deepAttrStore 0 deepAttrKids = true ∧
    xmlRemoveNs deepAttrStore (some 0) (some 8) =
      some ⟨deepAttrStore, none, .returned (some 0)⟩ ∧
    remove_ns deepAttrStore (some 0) (some 8) = some ⟨deepAttrStore, none, .returned none⟩ :=
  ⟨by decide,
    remove_namespace_noop deepAttrStore 0 deepAttrKids 8 (by decide) (by decide) (by decide)⟩

/-- C6: with a null namespace both removals fail at their first return, the null-namespace
one, whatever the store and the tree pointer are (even a pointer outside the store, so no node
is read), and the store is left as it was. -/
theorem remove_namespace_null (h : Store) (tree : Option NodePtr) :
    xmlRemoveNs h tree none = some ⟨h, none, .failed .nullNamespace⟩ ∧
      remove_ns h tree none = some ⟨h, none, .failed .nullNamespace⟩ :=
  ⟨rfl, rfl⟩

/-! ## Proofs: the replacement -/

theorem links_get {h h1 : Store} (hs : h.map links = h1.map links) (p : NodePtr) :
    (h[p]?).map links = (h1[p]?).map links := by
  rw [← List.getElem?_map, ← List.getElem?_map, hs]

theorem links_get_some {h h1 : Store} (hs : h.map links = h1.map links) {p : NodePtr}
    {m : XmlNode} (hm : h[p]? = some m) :
    ∃ m1, h1[p]? = some m1 ∧ m1.children = m.children ∧ m1.next = m.next ∧
      m1.parent = m.parent := by
  have := links_get hs p
  rw [hm] at this
  cases hm1 : h1[p]? with
  | none => simp [hm1] at this
  | some m1 =>
    simp only [hm1, Option.map_some', Option.some.injEq, links, Prod.mk.injEq] at this
    exact ⟨m1, rfl, this.1.symm, this.2.1.symm, this.2.2.symm⟩

theorem links_length {h h1 : Store} (hs : h.map links = h1.map links) :
    h.length = h1.length := by
  simpa using congrArg List.length hs

/-- The climb reads link fields only. -/
theorem climb_congr {h h1 : Store} (hs : h.map links = h1.map links) (tree : NodePtr) :
    ∀ (fuel : Nat) (x : NodePtr), climb h tree fuel x = climb h1 tree fuel x
  | 0, x => by
    rw [climb.eq_def, climb.eq_def]
  | fuel + 1, x => by
    rw [climb.eq_def, climb.eq_def (h := h1)]
    by_cases hx : x = tree
    · simp [hx]
    · simp only [hx, if_false]
      cases hm : h[x]? with
      | none =>
        have := links_get hs x
        rw [hm] at this
        cases hm1 : h1[x]? with
        | none => rfl
        | some m1 => simp [hm1] at this
      | some m =>
        obtain ⟨m1, hm1, _, _, hp⟩ := links_get_some hs hm
        simp only [hm1, hp]
        generalize (match m.parent with | some p => p | none => x) = y
        cases hy : h[y]? with
        | none =>
          have := links_get hs y
          rw [hy] at this
          cases hy1 : h1[y]? with
          | none => rfl
          | some m1 => simp [hy1] at this
        | some n =>
          obtain ⟨n1, hn1, _, hnn, hnp⟩ := links_get_some hs hy
          simp only [hn1, hnn, hnp, climb_congr hs tree fuel y]

/-- The advance step reads link fields only. -/
theorem advance_congr {h h1 : Store} (hs : h.map links = h1.map links) (tree x : NodePtr)
    {m m1 : XmlNode} (hc : m1.children = m.children) (hn : m1.next = m.next) :
    advance h1 tree x m1 = advance h tree x m := by
  unfold advance
  rw [hc, hn, climb_congr hs tree, links_length hs]

theorem follows_congr {h h1 : Store} (hs : h.map links = h1.map links) (tree : NodePtr)
    (k : Option NodePtr) : ∀ l : List NodePtr, Follows h tree k l → Follows h1 tree k l
  | [], _ => trivial
  | x :: rest, ⟨⟨m, hm, ha⟩, hr⟩ => by
    obtain ⟨m1, hm1, hc, hn, _⟩ := links_get_some hs hm
    exact ⟨⟨m1, hm1, by rw [advance_congr hs tree x hc hn, ha]⟩,
      follows_congr hs tree k rest hr⟩

theorem linked_congr {h h1 : Store} (hs : h.map links = h1.map links) :
    ∀ (f : Forest) (par first : Option NodePtr),
      linked h par first f = true → linked h1 par first f = true
  | .nil, _, first, hl => by
    rw [linked_nil hl]; rfl
  | .node q c s, par, first, hl => by
    obtain ⟨hf, n, hn, hp, hc, hs'⟩ := linked_node hl
    obtain ⟨n1, hn1, hc1, hnx1, hp1⟩ := links_get_some hs hn
    subst hf
    simp only [linked, beq_self_eq_true, Bool.true_and, hn1, Bool.and_eq_true, beq_iff_eq]
    refine ⟨⟨by rw [hp1, hp], ?_⟩, ?_⟩
    · rw [hc1]; exact linked_congr hs c _ _ hc
    · rw [hnx1]; exact linked_congr hs s _ _ hs'

theorem isSubtree_congr {h h1 : Store} (hs : h.map links = h1.map links) {tree : NodePtr}
    {kids : Forest} (hw : isSubtree h tree kids = true) : isSubtree h1 tree kids = true := by
  obtain ⟨n, hn, hl, hnd⟩ := isSubtree_iff.mp hw
  obtain ⟨n1, hn1, hc1, _, _⟩ := links_get_some hs hn
  exact isSubtree_iff.mpr ⟨n1, hn1, by rw [hc1]; exact linked_congr hs kids _ _ hl, hnd⟩

theorem links_replaceNode (oldNs newNs : Option NsPtr) (m : XmlNode) :
    links (replaceNode oldNs newNs m) = links m := rfl

theorem links_replaceAt (oldNs newNs : Option NsPtr) (h : Store) (p : NodePtr) :
    (replaceAt oldNs newNs h p).map links = h.map links := by
  unfold replaceAt
  cases hm : h[p]? with
  | none => rfl
  | some m =>
    simp only [List.map_set, links_replaceNode]
    apply List.ext_getElem?
    intro i
    by_cases hi : p = i
    · subst hi
      rw [List.getElem?_set_self (by simpa using (List.getElem?_eq_some_iff.mp hm).1),
        List.getElem?_map, hm]
      rfl
    · rw [List.getElem?_set_ne hi]

theorem links_foldl_replaceAt (oldNs newNs : Option NsPtr) :
    ∀ (l : List NodePtr) (h : Store),
      (l.foldl (replaceAt oldNs newNs) h).map links = h.map links
  | [], _ => rfl
  | x :: rest, h => by
    rw [List.foldl_cons, links_foldl_replaceAt oldNs newNs rest, links_replaceAt]

/-- The loop of `xmlReplaceNs` along the document order of a subtree. -/
theorem xmlReplaceNsLoop_eq (tree : NodePtr) (oldNs newNs : Option NsPtr) :
    ∀ (l : List NodePtr) (fuel : Nat) (h : Store),
      Follows h tree none l → l.length ≤ fuel →
      xmlReplaceNsLoop tree oldNs newNs fuel h (headOr l none) =
        some (l.foldl (replaceAt oldNs newNs) h)
  | [], fuel, h, _, _ => by
    cases fuel <;> simp [headOr, xmlReplaceNsLoop]
  | x :: rest, 0, _, _, hf => by simp at hf
  | x :: rest, fuel + 1, h, ⟨⟨m, hm, ha⟩, hr⟩, hf => by
    have hs : h.map links = (replaceAt oldNs newNs h x).map links :=
      (links_replaceAt oldNs newNs h x).symm
    have hset : replaceAt oldNs newNs h x = h.set x (replaceNode oldNs newNs m) := by
      simp [replaceAt, hm]
    have hadv : advance (h.set x (replaceNode oldNs newNs m)) tree x
        (replaceNode oldNs newNs m) = some (headOr rest none) := by
      have hcg : advance (replaceAt oldNs newNs h x) tree x (replaceNode oldNs newNs m) =
          advance h tree x m := advance_congr hs tree x rfl rfl
      rw [← hset, hcg, ha]
    simp only [headOr, xmlReplaceNsLoop, hm, hadv, List.foldl_cons, hset]
    have := xmlReplaceNsLoop_eq tree oldNs newNs rest fuel _
      (follows_congr hs tree none rest hr) (by simpa using hf)
    rw [hset] at this
    exact this

theorem replaceNsLoop_eq_xml (tree : NodePtr) (oldNs newNs : Option NsPtr) :
    ∀ (fuel : Nat) (h : Store) (node : Option NodePtr),
      replaceNsLoop tree oldNs newNs fuel h node = xmlReplaceNsLoop tree oldNs newNs fuel h node
  | 0, _, none => by simp [replaceNsLoop, xmlReplaceNsLoop]
  | 0, _, some _ => by simp [replaceNsLoop, xmlReplaceNsLoop]
  | fuel + 1, _, none => by simp [replaceNsLoop, xmlReplaceNsLoop]
  | fuel + 1, h, some node => by
    simp only [replaceNsLoop, xmlReplaceNsLoop]
    cases h[node]? with
    | none => rfl
    | some n =>
      simp only
      cases advance (h.set node (replaceNode oldNs newNs n)) tree node
          (replaceNode oldNs newNs n) with
      | none => rfl
      | some node1 => exact replaceNsLoop_eq_xml tree oldNs newNs fuel _ node1

/-- Both replacements on a subtree: the iteration body applied once at each address of the
subtree, in document order. -/
theorem replace_subtree {h : Store} {tree : NodePtr} {kids : Forest}
    (oldNs newNs : Option NsPtr) (hw : isSubtree h tree kids = true) :
    xmlReplaceNs h (some tree) oldNs newNs =
        some ((tree :: kids.ptrs).foldl (replaceAt oldNs newNs) h, some tree) ∧
      replace_ns h (some tree) oldNs newNs =
        some ((tree :: kids.ptrs).foldl (replaceAt oldNs newNs) h) := by
  have := xmlReplaceNsLoop_eq tree oldNs newNs (tree :: kids.ptrs) (h.length + 1) h
    (follows_subtree hw) (Nat.le_succ_of_le (isSubtree_length hw))
  simp only [headOr] at this
  constructor
  · simp only [xmlReplaceNs, this]
  · simp only [replace_ns, replaceNsLoop_eq_xml, this]

theorem replaceAt_get (oldNs newNs : Option NsPtr) (h : Store) (x p : NodePtr) :
    (replaceAt oldNs newNs h x)[p]? =
      if p = x then (h[p]?).map (replaceNode oldNs newNs) else h[p]? := by
  unfold replaceAt
  by_cases hpx : p = x
  · subst hpx
    cases hm : h[p]? with
    | none => simp [hm]
    | some m =>
      simp [List.getElem?_set_self (List.getElem?_eq_some_iff.mp hm).1]
  · have hxp : x ≠ p := fun e => hpx e.symm
    cases hm : h[x]? with
    | none => simp [hpx]
    | some m => simp [hpx, List.getElem?_set_ne hxp]

/-- After the fold, the records at the addresses of the list went through the iteration body
once; all others are as before. -/
theorem foldl_replaceAt_get (oldNs newNs : Option NsPtr) :
    ∀ (l : List NodePtr) (h : Store) (p : NodePtr), l.Nodup →
      (l.foldl (replaceAt oldNs newNs) h)[p]? =
        if p ∈ l then (h[p]?).map (replaceNode oldNs newNs) else h[p]?
  | [], _, _, _ => by simp
  | x :: rest, h, p, hnd => by
    obtain ⟨hx, hrest⟩ := List.nodup_cons.mp hnd
    rw [List.foldl_cons, foldl_replaceAt_get oldNs newNs rest _ p hrest, replaceAt_get]
    by_cases hpx : p = x
    · subst hpx
      simp [hx]
    · simp [hpx]

theorem replaceAttrLoop_eq (oldNs newNs : Option NsPtr) :
    ∀ (l : List XmlAttr) (nodeNs : Option NsPtr),
      replaceAttrLoop oldNs newNs nodeNs l =
        if ∃ a ∈ l, a.ns = oldNs then newNs else nodeNs
  | [], _ => by simp [replaceAttrLoop]
  | a :: rest, nodeNs => by
    rw [replaceAttrLoop, replaceAttrLoop_eq oldNs newNs rest]
    by_cases ha : a.ns = oldNs
    · by_cases hr : ∃ b ∈ rest, b.ns = oldNs
      · simp [ha, hr]
      · simp [ha, hr]
    · by_cases hr : ∃ b ∈ rest, b.ns = oldNs
      · simp [ha, hr]
      · simp [ha, hr]

/-- The namespace reference the iteration body leaves on a node. -/
theorem replaceNode_ns (oldNs newNs : Option NsPtr) (m : XmlNode) :
    (replaceNode oldNs newNs m).ns =
      if refersTo oldNs m then newNs else m.ns := by
  simp only [replaceNode, replaceAttrLoop_eq, refersTo]
  by_cases h1 : m.ns = oldNs
  · by_cases h2 : ∃ a ∈ m.properties, a.ns = oldNs <;> simp [h1, h2]
  · by_cases h2 : ∃ a ∈ m.properties, a.ns = oldNs <;> simp [h1, h2]

theorem replaceNode_idem (oldNs newNs : Option NsPtr) (m : XmlNode) :
    replaceNode oldNs newNs (replaceNode oldNs newNs m) = replaceNode oldNs newNs m := by
  have hns := replaceNode_ns oldNs newNs (replaceNode oldNs newNs m)
  have hns0 := replaceNode_ns oldNs newNs m
  have hprops : (replaceNode oldNs newNs m).properties = m.properties := rfl
  have key : (replaceNode oldNs newNs (replaceNode oldNs newNs m)).ns =
      (replaceNode oldNs newNs m).ns := by
    rw [hns]
    by_cases hr : refersTo oldNs (replaceNode oldNs newNs m)
    · rw [if_pos hr]
      rcases hr with hr | hr
      · by_cases h0 : refersTo oldNs m
        · rw [hns0, if_pos h0]
        · rw [hns0, if_neg h0] at hr
          exact absurd (Or.inl hr) h0
      · have h0 : refersTo oldNs m := Or.inr hr
        rw [hns0, if_pos h0]
    · rw [if_neg hr]
  calc replaceNode oldNs newNs (replaceNode oldNs newNs m)
      = { replaceNode oldNs newNs m with
          ns := (replaceNode oldNs newNs (replaceNode oldNs newNs m)).ns } := rfl
    _ = replaceNode oldNs newNs m := by rw [key]

/-! ## Replacement of a namespace reference -/

/-- C2 (the code at the failing input): replacing `ns1` (7) by namespace 9 in the document
whose node `d` carries the attribute `x` in `ns1` leaves the reference of the attribute at
`ns1` and writes 9 into the own reference of `d`, which was null; the loop over the attributes
assigns `node->ns`. -/
theorem replace_namespace_attribute_kept :
    (xmlReplaceNs deepAttrStore (some 0) (some 7) (some 9)).map
        (fun r => (r.1[4]?).map fun m => (m.ns, m.properties)) =
      some (some (some 9, [⟨"x", some 7⟩])) ∧
    (replace_ns deepAttrStore (some 0) (some 7) (some 9)).map
        (fun r => (r[4]?).map fun m => (m.ns, m.properties)) =
      some (some (some 9, [⟨"x", some 7⟩])) := by
  decide

/-- C3: after either replacement on a subtree, every node of the subtree whose own namespace
reference was `oldNs` has own namespace reference `newNs`; `oldNs` and `newNs` may be null. -/
theorem replace_namespace_rewrites_nodes (h : Store) (tree : NodePtr) (kids : Forest)
    (oldNs newNs : Option NsPtr) (hw : isSubtree h tree kids = true) :
    ∃ h1 : Store,
      xmlReplaceNs h (some tree) oldNs newNs = some (h1, some tree) ∧
      replace_ns h (some tree) oldNs newNs = some h1 ∧
      ∀ x ∈ tree :: kids.ptrs, ∀ m, h[x]? = some m → m.ns = oldNs →
        ∃ m1, h1[x]? = some m1 ∧ m1.ns = newNs := by
  obtain ⟨hx, hr⟩ := replace_subtree oldNs newNs hw
  obtain ⟨_, _, _, hnd⟩ := isSubtree_iff.mp hw
  refine ⟨_, hx, hr, ?_⟩
  intro x hxl m hm hns
  refine ⟨replaceNode oldNs newNs m, ?_, ?_⟩
  · rw [foldl_replaceAt_get oldNs newNs _ h x hnd, if_pos hxl, hm]
    rfl
  · have href : refersTo oldNs m := Or.inl hns
    rw [replaceNode_ns, if_pos href]

/-- Witness for C3: replacing the null namespace by namespace 9 in the sample document. -/
theorem replace_namespace_rewrites_nodes_witness :
    isSubtree deepAttrStore 0 deepAttrKids = true ∧
    ∃ h1 : Store,
      xmlReplaceNs deepAttrStore (some 0) none (some 9) = some (h1, some 0) ∧
      replace_ns deepAttrStore (some 0) none (some 9) = some h1 ∧
      ∀ x ∈ 0 :: deepAttrKids.ptrs, ∀ m, deepAttrStore[x]? = some m → m.ns = none →
        ∃ m1, h1[x]? = some m1 ∧ m1.ns = some 9 :=
  ⟨by decide,
    replace_namespace_rewrites_nodes deepAttrStore 0 deepAttrKids none (some 9) (by decide)⟩

/-- C7: either replacement on a subtree keeps the size of the store and, at every address of
the store, the declaration chain (same declarations, same order), the name, the links
`children`, `next`, `parent` and the list of attributes of the record. -/
theorem replace_namespace_keeps_declarations (h : Store) (tree : NodePtr) (kids : Forest)
    (oldNs newNs : Option NsPtr) (hw : isSubtree h tree kids = true) :
    ∃ h1 : Store,
      xmlReplaceNs h (some tree) oldNs newNs = some (h1, some tree) ∧
      replace_ns h (some tree) oldNs newNs = some h1 ∧
      h1.length = h.length ∧
      ∀ (p : NodePtr) (m : XmlNode), h[p]? = some m →
        ∃ m1 : XmlNode, h1[p]? = some m1 ∧ m1.nsDef = m.nsDef ∧ m1.name = m.name ∧
          m1.children = m.children ∧ m1.next = m.next ∧ m1.parent = m.parent ∧
          m1.properties.map XmlAttr.name = m.properties.map XmlAttr.name := by
  obtain ⟨hx, hr⟩ := replace_subtree oldNs newNs hw
  obtain ⟨_, _, _, hnd⟩ := isSubtree_iff.mp hw
  refine ⟨_, hx, hr, ?_, ?_⟩
  · exact (links_length (links_foldl_replaceAt oldNs newNs _ h)).symm ▸ rfl
  · intro p m hm
    rw [foldl_replaceAt_get oldNs newNs _ h p hnd, hm]
    by_cases hp : p ∈ tree :: kids.ptrs
    · rw [if_pos hp]
      exact ⟨replaceNode oldNs newNs m, rfl, rfl, rfl, rfl, rfl, rfl, rfl⟩
    · rw [if_neg hp]
      exact ⟨m, rfl, rfl, rfl, rfl, rfl, rfl, rfl⟩

/-- Witness for C7: the replacement of `ns1` in the sample document. -/
theorem replace_namespace_keeps_declarations_witness :
    isSubtree deepAttrStore 0 deepAttrKids = true ∧
    ∃ h1 : Store,
      xmlReplaceNs deepAttrStore (some 0) (some 7) (some 9) = some (h1, some 0) ∧
      replace_ns deepAttrStore (some 0) (some 7) (some 9) = some h1 ∧
      h1.length = deepAttrStore.length ∧
      ∀ (p : NodePtr) (m : XmlNode), deepAttrStore[p]? = some m →
        ∃ m1 : XmlNode, h1[p]? = some m1 ∧ m1.nsDef = m.nsDef ∧ m1.name = m.name ∧
          m1.children = m.children ∧ m1.next = m.next ∧ m1.parent = m.parent ∧
          m1.properties.map XmlAttr.name = m.properties.map XmlAttr.name :=
  ⟨by decide,
    replace_namespace_keeps_declarations deepAttrStore 0 deepAttrKids (some 7) (some 9)
      (by decide)⟩

/-- C8: either replacement is idempotent on a subtree: run again with the same arguments on
the store it produced, it returns that store unchanged. -/
theorem replace_namespace_idempotent (h : Store) (tree : NodePtr) (kids : Forest)
    (oldNs newNs : Option NsPtr) (hw : isSubtree h tree kids = true) :
    ∃ h1 : Store,
      xmlReplaceNs h (some tree) oldNs newNs = some (h1, some tree) ∧
      xmlReplaceNs h1 (some tree) oldNs newNs = some (h1, some tree) ∧
      replace_ns h (some tree) oldNs newNs = some h1 ∧
      replace_ns h1 (some tree) oldNs newNs = some h1 := by
  obtain ⟨hx, hr⟩ := replace_subtree oldNs newNs hw
  obtain ⟨_, _, _, hnd⟩ := isSubtree_iff.mp hw
  have hw1 : isSubtree ((tree :: kids.ptrs).foldl (replaceAt oldNs newNs) h) tree kids
      = true :=
    isSubtree_congr (links_foldl_replaceAt oldNs newNs _ h).symm hw
  obtain ⟨hx1, hr1⟩ := replace_subtree oldNs newNs hw1
  have hsame : (tree :: kids.ptrs).foldl (replaceAt oldNs newNs)
      ((tree :: kids.ptrs).foldl (replaceAt oldNs newNs) h) =
      (tree :: kids.ptrs).foldl (replaceAt oldNs newNs) h := by
    apply List.ext_getElem?
    intro p
    rw [foldl_replaceAt_get oldNs newNs _ _ p hnd, foldl_replaceAt_get oldNs newNs _ h p hnd]
    by_cases hp : p ∈ tree :: kids.ptrs
    · simp only [if_pos hp, Option.map_map]
      congr 1
      funext m
      exact replaceNode_idem oldNs newNs m
    · simp only [if_neg hp]
  rw [hsame] at hx1 hr1
  exact ⟨_, hx, hx1, hr, hr1⟩

/-- Witness for C8: replacing `ns1` twice in the sample document. -/
theorem replace_namespace_idempotent_witness :
    isSubtree deepAttrStore 0 deepAttrKids = true ∧
    ∃ h1 : Store,
      xmlReplaceNs deepAttrStore (some 0) (some 7) (some 9) = some (h1, some 0) ∧
      xmlReplaceNs h1 (some 0) (some 7) (some 9) = some (h1, some 0) ∧
      replace_ns deepAttrStore (some 0) (some 7) (some 9) = some h1 ∧
      replace_ns h1 (some 0) (some 7) (some 9) = some h1 :=
  ⟨by decide,
    replace_namespace_idempotent deepAttrStore 0 deepAttrKids (some 7) (some 9) (by decide)⟩

/-! ## Proofs: the depth dispatcher -/

theorem dispatchAll_append (handler : Handler) (r : Reader) (l1 l2 : List SaxEvent) :
    dispatchAll handler r (l1 ++ l2) = dispatchAll handler (dispatchAll handler r l1) l2 := by
  simp [dispatchAll, List.foldl_append]

theorem dispatchAll_cons (handler : Handler) (r : Reader) (e : SaxEvent) (l : List SaxEvent) :
    dispatchAll handler r (e :: l) = dispatchAll handler (dispatch handler r e) l := rfl

/-- An element start at depth two or more: no handler call, the new node is pushed. -/
theorem myStartElement_deep (handler : Handler) (r : Reader) (name : String)
    (hd : 2 ≤ r.ctxt.nodeTab.length) :
    (myStartElement handler r name).calls = r.calls ∧
      (myStartElement handler r name).ctxt.nodeTab.map OpenElem.ptr =
        r.ctxt.nextPtr :: r.ctxt.nodeTab.map OpenElem.ptr := by
  have h1 : ¬ r.ctxt.nodeTab.length + 1 = 1 := by omega
  have h2 : ¬ r.ctxt.nodeTab.length + 1 = 2 := by omega
  simp [myStartElement, defaultStartElement, ParserCtxt.nodeNr, h1, h2]

/-- An element end at depth three or more: no handler call, the innermost node is popped. -/
theorem myEndElement_deep (handler : Handler) (r : Reader) (name : String)
    (hd : 3 ≤ r.ctxt.nodeTab.length) :
    (myEndElement handler r name).calls = r.calls ∧
      (myEndElement handler r name).ctxt.nodeTab.map OpenElem.ptr =
        (r.ctxt.nodeTab.map OpenElem.ptr).tail := by
  obtain ⟨⟨nodeTab, docChildren, nextPtr, freed⟩, eof, exc, calls, fwd⟩ := r
  match nodeTab, hd with
  | a :: b :: c :: rest, _ =>
    simp [myEndElement, defaultEndElement, ParserCtxt.nodeNr]

/-- A content callback never calls the handler and keeps the open elements. -/
theorem content_keeps (handler : Handler) (r : Reader) (e : SaxEvent)
    (he : (∃ ch, e = .characters ch) ∨ (∃ v, e = .cdataBlock v) ∨
      ∃ t d, e = .processingInstruction t d) :
    (dispatch handler r e).calls = r.calls ∧
      (dispatch handler r e).ctxt.nodeTab.map OpenElem.ptr =
        r.ctxt.nodeTab.map OpenElem.ptr := by
  obtain ⟨⟨nodeTab, docChildren, nextPtr, freed⟩, eof, exc, calls, fwd⟩ := r
  rcases he with ⟨ch, rfl⟩ | ⟨v, rfl⟩ | ⟨t, d, rfl⟩
  · cases nodeTab with
    | nil => simp [dispatch, myCharacters, ParserCtxt.nodeNr]
    | cons a rest =>
      simp only [dispatch, myCharacters, ParserCtxt.nodeNr]
      split <;> simp [defaultContent]
  · cases nodeTab with
    | nil => simp [dispatch, myCdataBlock, ParserCtxt.nodeNr]
    | cons a rest =>
      simp only [dispatch, myCdataBlock, ParserCtxt.nodeNr]
      split <;> simp [defaultContent]
  · cases nodeTab with
    | nil => simp [dispatch, myProcessingInstruction, ParserCtxt.nodeNr, defaultContent]
    | cons a rest => simp [dispatch, myProcessingInstruction, ParserCtxt.nodeNr]

/-- Content at depth two or more, inside a stanza: no handler call at all, and the open
elements are the same afterwards. -/
theorem deep_silent (handler : Handler) :
    ∀ (m : Markup) (r : Reader), 2 ≤ r.ctxt.nodeTab.length →
      (dispatchAll handler r m.events).calls = r.calls ∧
        (dispatchAll handler r m.events).ctxt.nodeTab.map OpenElem.ptr =
          r.ctxt.nodeTab.map OpenElem.ptr
  | .nil, r, _ => ⟨rfl, rfl⟩
  | .elem name inner rest, r, hd => by
    simp only [Markup.events, dispatchAll_cons, dispatchAll_append, dispatch]
    obtain ⟨hc1, hp1⟩ := myStartElement_deep handler r name hd
    have hl1 : 3 ≤ (myStartElement handler r name).ctxt.nodeTab.length := by
      have := congrArg List.length hp1
      simp at this
      omega
    obtain ⟨hc2, hp2⟩ := deep_silent handler inner (myStartElement handler r name)
      (by omega)
    have hl2 : 3 ≤ (dispatchAll handler (myStartElement handler r name)
        inner.events).ctxt.nodeTab.length := by
      have := congrArg List.length hp2
      simp at this
      omega
    obtain ⟨hc3, hp3⟩ := myEndElement_deep handler _ name hl2
    have hl3 : 2 ≤ (myEndElement handler (dispatchAll handler (myStartElement handler r name)
        inner.events) name).ctxt.nodeTab.length := by
      have := congrArg List.length hp3
      simp at this
      omega
    obtain ⟨hc4, hp4⟩ := deep_silent handler rest _ hl3
    exact ⟨by rw [hc4, hc3, hc2, hc1], by rw [hp4, hp3, hp2, hp1]; rfl⟩
  | .chars ch rest, r, hd => by
    simp only [Markup.events, dispatchAll_cons]
    obtain ⟨hc1, hp1⟩ := content_keeps handler r (.characters ch) (Or.inl ⟨ch, rfl⟩)
    obtain ⟨hc2, hp2⟩ := deep_silent handler rest (dispatch handler r (.characters ch))
      (by have := congrArg List.length hp1; simp at this; omega)
    exact ⟨by rw [hc2, hc1], by rw [hp2, hp1]⟩
  | .cdata v rest, r, hd => by
    simp only [Markup.events, dispatchAll_cons]
    obtain ⟨hc1, hp1⟩ := content_keeps handler r (.cdataBlock v) (Or.inr (Or.inl ⟨v, rfl⟩))
    obtain ⟨hc2, hp2⟩ := deep_silent handler rest (dispatch handler r (.cdataBlock v))
      (by have := congrArg List.length hp1; simp at this; omega)
    exact ⟨by rw [hc2, hc1], by rw [hp2, hp1]⟩
  | .pi t d rest, r, hd => by
    simp only [Markup.events, dispatchAll_cons]
    obtain ⟨hc1, hp1⟩ := content_keeps handler r (.processingInstruction t d)
      (Or.inr (Or.inr ⟨t, d, rfl⟩))
    obtain ⟨hc2, hp2⟩ := deep_silent handler rest (dispatch handler r (.processingInstruction t d))
      (by have := congrArg List.length hp1; simp at this; omega)
    exact ⟨by rw [hc2, hc1], by rw [hp2, hp1]⟩

/-- An element start at depth one opens a stanza: one `stanzaStart` call with the new node. -/
theorem myStartElement_stanza (handler : Handler) (r : Reader) (name : String)
    (hd : r.ctxt.nodeTab.length = 1) :
    (myStartElement handler r name).calls =
        r.calls ++ [.stanzaStart (some r.ctxt.nextPtr)] ∧
      (myStartElement handler r name).ctxt.nodeTab.map OpenElem.ptr =
        r.ctxt.nextPtr :: r.ctxt.nodeTab.map OpenElem.ptr := by
  simp [myStartElement, defaultStartElement, ParserCtxt.nodeNr, ParserCtxt.node, hd,
    callHandler]

/-- An element end at depth two closes the stanza: one `stanzaEnd` call with the node that
was innermost, which is then popped. -/
theorem myEndElement_stanza (handler : Handler) (r : Reader) (name : String)
    (p q : NodePtr) (hp : r.ctxt.nodeTab.map OpenElem.ptr = [p, q]) :
    (myEndElement handler r name).calls = r.calls ++ [.stanzaEnd p] ∧
      (myEndElement handler r name).ctxt.nodeTab.map OpenElem.ptr = [q] := by
  obtain ⟨⟨nodeTab, docChildren, nextPtr, freed⟩, eof, exc, calls, fwd⟩ := r
  match nodeTab, hp with
  | [a, b], hp =>
    simp only [List.map_cons, List.map_nil, List.cons.injEq, and_true] at hp
    simp [myEndElement, defaultEndElement, ParserCtxt.nodeNr, ParserCtxt.node, callHandler,
      xmlFreeNode, xmlUnlinkNode, hp.1, hp.2]

/-- Content at depth one, directly below the stream root: each element is reported by its
`stanzaStart` directly followed by its `stanzaEnd` for the same node, nothing else is
reported, and the stream root is again the only open element afterwards. -/
theorem stream_body (handler : Handler) :
    ∀ (m : Markup) (r : Reader), r.ctxt.nodeTab.length = 1 →
      ∃ nodes : List NodePtr, nodes.length = m.elems ∧
        (dispatchAll handler r m.events).calls = r.calls ++ stanzaCalls nodes ∧
        (dispatchAll handler r m.events).ctxt.nodeTab.map OpenElem.ptr =
          r.ctxt.nodeTab.map OpenElem.ptr
  | .nil, r, _ => ⟨[], rfl, by simp [Markup.events, dispatchAll, stanzaCalls], rfl⟩
  | .elem name inner rest, r, hd => by
    simp only [Markup.events, dispatchAll_cons, dispatchAll_append, dispatch]
    obtain ⟨q, hq⟩ : ∃ q, r.ctxt.nodeTab.map OpenElem.ptr = [q] := by
      match hnt : r.ctxt.nodeTab, hd with
      | [a], _ => exact ⟨a.ptr, rfl⟩
    obtain ⟨hc1, hp1⟩ := myStartElement_stanza handler r name hd
    have hl1 : 2 ≤ (myStartElement handler r name).ctxt.nodeTab.length := by
      have := congrArg List.length hp1
      simp at this
      omega
    obtain ⟨hc2, hp2⟩ := deep_silent handler inner (myStartElement handler r name) hl1
    rw [hp1, hq] at hp2
    obtain ⟨hc3, hp3⟩ := myEndElement_stanza handler
      (dispatchAll handler (myStartElement handler r name) inner.events) name _ _ hp2
    have hl3 : (myEndElement handler (dispatchAll handler (myStartElement handler r name)
        inner.events) name).ctxt.nodeTab.length = 1 := by
      have := congrArg List.length hp3
      simpa using this
    obtain ⟨nodes, hn, hc4, hp4⟩ := stream_body handler rest
      (myEndElement handler (dispatchAll handler (myStartElement handler r name)
        inner.events) name) hl3
    refine ⟨r.ctxt.nextPtr :: nodes, by simp [Markup.elems, hn], ?_, ?_⟩
    · rw [hc4, hc3, hc2, hc1]
      simp [stanzaCalls]
    · rw [hp4, hp3, hq]
  | .chars ch rest, r, hd => by
    simp only [Markup.events, dispatchAll_cons]
    obtain ⟨hc1, hp1⟩ := content_keeps handler r (.characters ch) (Or.inl ⟨ch, rfl⟩)
    obtain ⟨nodes, hn, hc2, hp2⟩ := stream_body handler rest
      (dispatch handler r (.characters ch))
      (by have := congrArg List.length hp1; simp at this; omega)
    exact ⟨nodes, hn, by rw [hc2, hc1], by rw [hp2, hp1]⟩
  | .cdata v rest, r, hd => by
    simp only [Markup.events, dispatchAll_cons]
    obtain ⟨hc1, hp1⟩ := content_keeps handler r (.cdataBlock v) (Or.inr (Or.inl ⟨v, rfl⟩))
    obtain ⟨nodes, hn, hc2, hp2⟩ := stream_body handler rest
      (dispatch handler r (.cdataBlock v))
      (by have := congrArg List.length hp1; simp at this; omega)
    exact ⟨nodes, hn, by rw [hc2, hc1], by rw [hp2, hp1]⟩
  | .pi t d rest, r, hd => by
    simp only [Markup.events, dispatchAll_cons]
    obtain ⟨hc1, hp1⟩ := content_keeps handler r (.processingInstruction t d)
      (Or.inr (Or.inr ⟨t, d, rfl⟩))
    obtain ⟨nodes, hn, hc2, hp2⟩ := stream_body handler rest
      (dispatch handler r (.processingInstruction t d))
      (by have := congrArg List.length hp1; simp at this; omega)
    exact ⟨nodes, hn, by rw [hc2, hc1], by rw [hp2, hp1]⟩

/-- The start of the root on a new reader: one `streamStart` call, depth one. -/
theorem myStartElement_root (handler : Handler) (name : String) :
    (myStartElement handler reader_new name).calls = [.streamStart] ∧
      (myStartElement handler reader_new name).ctxt.nodeTab.length = 1 := by
  simp [myStartElement, defaultStartElement, ParserCtxt.nodeNr, reader_new, callHandler]

/-- The end of the root, at depth one: one `streamEnd` call. -/
theorem myEndElement_root (handler : Handler) (r : Reader) (name : String)
    (hd : r.ctxt.nodeTab.length = 1) :
    (myEndElement handler r name).calls = r.calls ++ [.streamEnd] := by
  obtain ⟨⟨nodeTab, docChildren, nextPtr, freed⟩, eof, exc, calls, fwd⟩ := r
  match nodeTab, hd with
  | [a], _ => simp [myEndElement, defaultEndElement, ParserCtxt.nodeNr, callHandler]

/-- C9: for the callbacks of a document with a single root element, whatever the handler
does, the calls made to the handler are one `streamStart`, then for each element directly
below the root, in document order, its `stanzaStart` directly followed by the `stanzaEnd` for
the same node, then one `streamEnd`; elements further down and text cause no call.  For
`<stream><msg>hi</msg></stream>` the calls are stream-start, stanza-start and stanza-end for
the node of `msg`, stream-end. -/
theorem stanza_events_in_order (handler : Handler) (root : String) (body : Markup) :
    (∃ nodes : List NodePtr, nodes.length = body.elems ∧
      (dispatchAll handler reader_new (Markup.elem root body .nil).events).calls =
        .streamStart :: (stanzaCalls nodes ++ [.streamEnd])) ∧
    streamMsgHi.events = [.startElement "stream", .startElement "msg", .characters "hi",
      .endElement "msg", .endElement "stream"] ∧
    (dispatchAll handler reader_new [.startElement "stream", .startElement "msg"]
      ).ctxt.nodeTab.map (fun o => (o.ptr, o.name)) = [(1, "msg"), (0, "stream")] ∧
    (dispatchAll handler reader_new streamMsgHi.events).calls =
      [.streamStart, .stanzaStart (some 1), .stanzaEnd 1, .streamEnd] := by
  refine ⟨?_, rfl, rfl, rfl⟩
  simp only [Markup.events, dispatchAll_cons, dispatchAll_append, dispatch,
    List.append_nil]
  obtain ⟨hc1, hl1⟩ := myStartElement_root handler root
  obtain ⟨nodes, hn, hc2, hp2⟩ := stream_body handler body
    (myStartElement handler reader_new root) hl1
  have hl2 : (dispatchAll handler (myStartElement handler reader_new root)
      body.events).ctxt.nodeTab.length = 1 := by
    have := congrArg List.length hp2
    simp at this
    omega
  refine ⟨nodes, hn, ?_⟩
  have hend := myEndElement_root handler _ root hl2
  simp only [dispatchAll, List.foldl_nil] at hend ⊢
  rw [hend]
  simp only [dispatchAll] at hc2
  rw [hc2, hc1]
  simp

theorem myStartElement_forwarded (handler : Handler) (r : Reader) (name : String) :
    (myStartElement handler r name).forwarded = r.forwarded := by
  simp only [myStartElement]
  split
  · rfl
  · split <;> rfl

theorem myEndElement_forwarded (handler : Handler) (r : Reader) (name : String) :
    (myEndElement handler r name).forwarded = r.forwarded := by
  simp only [myEndElement]
  split
  · rfl
  · split
    · cases r.ctxt.node <;> rfl
    · rfl

/-- Inside a stanza every character-data and CDATA callback is passed on, in order, and
nothing else is. -/
theorem deep_forwarded (handler : Handler) :
    ∀ (m : Markup) (r : Reader), 2 ≤ r.ctxt.nodeTab.length →
      (dispatchAll handler r m.events).forwarded = r.forwarded ++ m.texts
  | .nil, r, _ => by simp [Markup.events, Markup.texts, dispatchAll]
  | .elem name inner rest, r, hd => by
    simp only [Markup.events, dispatchAll_cons, dispatchAll_append, dispatch]
    obtain ⟨_, hp1⟩ := myStartElement_deep handler r name hd
    have hl1 : 3 ≤ (myStartElement handler r name).ctxt.nodeTab.length := by
      have := congrArg List.length hp1
      simp at this
      omega
    obtain ⟨_, hp2⟩ := deep_silent handler inner (myStartElement handler r name) (by omega)
    have hl2 : 3 ≤ (dispatchAll handler (myStartElement handler r name)
        inner.events).ctxt.nodeTab.length := by
      have := congrArg List.length hp2
      simp at this
      omega
    obtain ⟨_, hp3⟩ := myEndElement_deep handler _ name hl2
    have hl3 : 2 ≤ (myEndElement handler (dispatchAll handler (myStartElement handler r name)
        inner.events) name).ctxt.nodeTab.length := by
      have := congrArg List.length hp3
      simp at this
      omega
    rw [deep_forwarded handler rest _ hl3, myEndElement_forwarded,
      deep_forwarded handler inner _ (by omega), myStartElement_forwarded]
    simp [Markup.texts]
  | .chars ch rest, r, hd => by
    simp only [Markup.events, dispatchAll_cons]
    obtain ⟨_, hp1⟩ := content_keeps handler r (.characters ch) (Or.inl ⟨ch, rfl⟩)
    rw [deep_forwarded handler rest (dispatch handler r (.characters ch))
      (by have := congrArg List.length hp1; simp at this; omega)]
    have hgt : r.ctxt.nodeNr > 1 := by simp only [ParserCtxt.nodeNr]; omega
    simp [dispatch, myCharacters, hgt, Markup.texts]
  | .cdata v rest, r, hd => by
    simp only [Markup.events, dispatchAll_cons]
    obtain ⟨_, hp1⟩ := content_keeps handler r (.cdataBlock v) (Or.inr (Or.inl ⟨v, rfl⟩))
    rw [deep_forwarded handler rest (dispatch handler r (.cdataBlock v))
      (by have := congrArg List.length hp1; simp at this; omega)]
    have hgt : r.ctxt.nodeNr > 1 := by simp only [ParserCtxt.nodeNr]; omega
    simp [dispatch, myCdataBlock, hgt, Markup.texts]
  | .pi t d rest, r, hd => by
    simp only [Markup.events, dispatchAll_cons]
    obtain ⟨_, hp1⟩ := content_keeps handler r (.processingInstruction t d)
      (Or.inr (Or.inr ⟨t, d, rfl⟩))
    rw [deep_forwarded handler rest (dispatch handler r (.processingInstruction t d))
      (by have := congrArg List.length hp1; simp at this; omega)]
    have hne : ¬ r.ctxt.nodeNr = 0 := by simp only [ParserCtxt.nodeNr]; omega
    simp [dispatch, myProcessingInstruction, hne, Markup.texts]

/-- Directly below the stream root only the text inside the stanzas is passed on. -/
theorem body_forwarded (handler : Handler) :
    ∀ (m : Markup) (r : Reader), r.ctxt.nodeTab.length = 1 →
      (dispatchAll handler r m.events).forwarded = r.forwarded ++ m.stanzaTexts
  | .nil, r, _ => by simp [Markup.events, Markup.stanzaTexts, dispatchAll]
  | .elem name inner rest, r, hd => by
    simp only [Markup.events, dispatchAll_cons, dispatchAll_append, dispatch]
    obtain ⟨q, hq⟩ : ∃ q, r.ctxt.nodeTab.map OpenElem.ptr = [q] := by
      match hnt : r.ctxt.nodeTab, hd with
      | [a], _ => exact ⟨a.ptr, rfl⟩
    obtain ⟨_, hp1⟩ := myStartElement_stanza handler r name hd
    have hl1 : 2 ≤ (myStartElement handler r name).ctxt.nodeTab.length := by
      have := congrArg List.length hp1
      simp at this
      omega
    obtain ⟨_, hp2⟩ := deep_silent handler inner (myStartElement handler r name) hl1
    rw [hp1, hq] at hp2
    obtain ⟨_, hp3⟩ := myEndElement_stanza handler
      (dispatchAll handler (myStartElement handler r name) inner.events) name _ _ hp2
    have hl3 : (myEndElement handler (dispatchAll handler (myStartElement handler r name)
        inner.events) name).ctxt.nodeTab.length = 1 := by
      have := congrArg List.length hp3
      simpa using this
    rw [body_forwarded handler rest _ hl3, myEndElement_forwarded,
      deep_forwarded handler inner _ hl1, myStartElement_forwarded]
    simp [Markup.stanzaTexts]
  | .chars ch rest, r, hd => by
    simp only [Markup.events, dispatchAll_cons]
    have hgt : ¬ r.ctxt.nodeNr > 1 := by simp only [ParserCtxt.nodeNr]; omega
    have hstep : dispatch handler r (.characters ch) = r := by
      simp [dispatch, myCharacters, hgt]
    rw [hstep, body_forwarded handler rest r hd]
    rfl
  | .cdata v rest, r, hd => by
    simp only [Markup.events, dispatchAll_cons]
    have hgt : ¬ r.ctxt.nodeNr > 1 := by simp only [ParserCtxt.nodeNr]; omega
    have hstep : dispatch handler r (.cdataBlock v) = r := by
      simp [dispatch, myCdataBlock, hgt]
    rw [hstep, body_forwarded handler rest r hd]
    rfl
  | .pi t d rest, r, hd => by
    simp only [Markup.events, dispatchAll_cons]
    have hne : ¬ r.ctxt.nodeNr = 0 := by simp only [ParserCtxt.nodeNr]; omega
    have hstep : dispatch handler r (.processingInstruction t d) = r := by
      simp [dispatch, myProcessingInstruction, hne]
    rw [hstep, body_forwarded handler rest r hd]
    rfl

/-- Character data arriving before the root, at depth 0, leaves a new reader as it is. -/
theorem prolog_text_dropped (handler : Handler) :
    ∀ pre : List String,
      dispatchAll handler reader_new (pre.map SaxEvent.characters) = reader_new
  | [] => rfl
  | ch :: rest => by
    have hstep : dispatch handler reader_new (.characters ch) = reader_new := rfl
    rw [List.map_cons, dispatchAll_cons, hstep, prolog_text_dropped handler rest]

/-- C10: a character-data or CDATA callback is passed on to the content handling of libxml2
exactly when the depth `ctxt->nodeNr` is greater than 1: at depth 0 (before the root) and at
depth 1 (directly below the stream root) it is dropped and the reader is left as it was, at
depth 2 or more it is passed on and libxml2 attaches the text to the innermost open element.
Over a whole document, with text before the root, the callbacks passed on are exactly the
text callbacks inside the stanzas, in document order. -/
theorem text_forwarded_iff_inside_stanza (handler : Handler) (r : Reader) (text : String)
    (pre : List String) (root : String) (body : Markup) :
    ((myCharacters r text).forwarded = r.forwarded ++ [.characters text] ↔
        1 < r.ctxt.nodeNr) ∧
    ((myCdataBlock r text).forwarded = r.forwarded ++ [.cdataBlock text] ↔
        1 < r.ctxt.nodeNr) ∧
    (1 < r.ctxt.nodeNr ∨ (myCharacters r text = r ∧ myCdataBlock r text = r)) ∧
    (r.ctxt.nodeNr ≤ 1 ∨
      ((myCharacters r text).ctxt = defaultContent r.ctxt ∧
        (myCdataBlock r text).ctxt = defaultContent r.ctxt)) ∧
    (dispatchAll handler reader_new
        (pre.map SaxEvent.characters ++ (Markup.elem root body .nil).events)).forwarded =
      body.stanzaTexts := by
  have htrace : (dispatchAll handler reader_new
      (pre.map SaxEvent.characters ++ (Markup.elem root body .nil).events)).forwarded =
      body.stanzaTexts := by
    rw [dispatchAll_append, prolog_text_dropped]
    simp only [Markup.events, dispatchAll_cons, dispatchAll_append, dispatch,
      List.append_nil]
    obtain ⟨_, hl1⟩ := myStartElement_root handler root
    have hb := body_forwarded handler body (myStartElement handler reader_new root) hl1
    simp only [dispatchAll, List.foldl_nil] at hb ⊢
    rw [myEndElement_forwarded, hb, myStartElement_forwarded]
    rfl
  by_cases hd : r.ctxt.nodeNr > 1
  · have hle : ¬ r.ctxt.nodeNr ≤ 1 := by omega
    simp [myCharacters, myCdataBlock, hd, hle, htrace]
  · have hle : r.ctxt.nodeNr ≤ 1 := by omega
    have hlt : ¬ 1 < r.ctxt.nodeNr := by omega
    simp [myCharacters, myCdataBlock, hd, hle, hlt, htrace]

/-! ## Proofs: the document kept by the reader -/

/-- Content at depth two or more touches only the children of the innermost open element:
the elements below it on the stack, the children of the document and the freed nodes are as
before, and the handler is not called. -/
theorem deep_frame (handler : Handler) :
    ∀ (m : Markup) (r : Reader) (top par : OpenElem) (rest : List OpenElem),
      r.ctxt.nodeTab = top :: par :: rest →
      ∃ kids : Forest,
        (dispatchAll handler r m.events).ctxt.nodeTab =
          ⟨top.ptr, top.name, kids⟩ :: par :: rest ∧
        (dispatchAll handler r m.events).ctxt.docChildren = r.ctxt.docChildren ∧
        (dispatchAll handler r m.events).ctxt.freed = r.ctxt.freed ∧
        r.ctxt.nextPtr ≤ (dispatchAll handler r m.events).ctxt.nextPtr
  | .nil, r, top, par, rest, hnt => ⟨top.kids, by simpa [Markup.events, dispatchAll] using hnt,
      rfl, rfl, Nat.le_refl _⟩
  | .elem name inner more, r, top, par, rest, hnt => by
    simp only [Markup.events, dispatchAll_cons, dispatchAll_append, dispatch]
    obtain ⟨⟨nodeTab, dc, np, fr⟩, eof, exc, calls, fwd⟩ := r
    simp only at hnt
    subst hnt
    have hstart : myStartElement handler
        ⟨⟨top :: par :: rest, dc, np, fr⟩, eof, exc, calls, fwd⟩ name =
        ⟨⟨⟨np, name, .nil⟩ :: top :: par :: rest, dc, np + 1, fr⟩, eof, exc, calls, fwd⟩ := by
      simp [myStartElement, defaultStartElement, ParserCtxt.nodeNr]
    rw [hstart]
    obtain ⟨k1, h1, h2, h3, h4⟩ := deep_frame handler inner
      ⟨⟨⟨np, name, .nil⟩ :: top :: par :: rest, dc, np + 1, fr⟩, eof, exc, calls, fwd⟩
      ⟨np, name, .nil⟩ top (par :: rest) rfl
    generalize dispatchAll handler
      ⟨⟨⟨np, name, .nil⟩ :: top :: par :: rest, dc, np + 1, fr⟩, eof, exc, calls, fwd⟩
      inner.events = r1 at h1 h2 h3 h4 ⊢
    obtain ⟨⟨nodeTab1, dc1, np1, fr1⟩, eof1, exc1, calls1, fwd1⟩ := r1
    simp only at h1 h2 h3 h4
    subst h1 h2 h3
    have hend : myEndElement handler
        ⟨⟨⟨np, name, k1⟩ :: top :: par :: rest, dc1, np1, fr1⟩, eof1, exc1, calls1, fwd1⟩
          name =
        ⟨⟨{ top with kids := top.kids.append (.node np k1 .nil) } :: par :: rest, dc1, np1,
          fr1⟩, eof1, exc1, calls1, fwd1⟩ := by
      simp [myEndElement, defaultEndElement, ParserCtxt.nodeNr]
    rw [hend]
    obtain ⟨k2, g1, g2, g3, g4⟩ := deep_frame handler more
      ⟨⟨{ top with kids := top.kids.append (.node np k1 .nil) } :: par :: rest, dc1, np1,
        fr1⟩, eof1, exc1, calls1, fwd1⟩
      { top with kids := top.kids.append (.node np k1 .nil) } par rest rfl
    exact ⟨k2, g1, g2, g3, Nat.le_trans (Nat.le_trans (Nat.le_succ np) h4) g4⟩
  | .chars ch more, r, top, par, rest, hnt => by
    simp only [Markup.events, dispatchAll_cons, dispatch]
    obtain ⟨⟨nodeTab, dc, np, fr⟩, eof, exc, calls, fwd⟩ := r
    simp only at hnt
    subst hnt
    have hstep : myCharacters ⟨⟨top :: par :: rest, dc, np, fr⟩, eof, exc, calls, fwd⟩ ch =
        ⟨⟨{ top with kids := top.kids.append (.node np .nil .nil) } :: par :: rest, dc,
          np + 1, fr⟩, eof, exc, calls, fwd ++ [.characters ch]⟩ := by
      simp [myCharacters, defaultContent, ParserCtxt.nodeNr]
    rw [hstep]
    obtain ⟨k2, g1, g2, g3, g4⟩ := deep_frame handler more
      ⟨⟨{ top with kids := top.kids.append (.node np .nil .nil) } :: par :: rest, dc,
        np + 1, fr⟩, eof, exc, calls, fwd ++ [.characters ch]⟩
      { top with kids := top.kids.append (.node np .nil .nil) } par rest rfl
    exact ⟨k2, g1, g2, g3, Nat.le_trans (Nat.le_succ np) g4⟩
  | .cdata v more, r, top, par, rest, hnt => by
    simp only [Markup.events, dispatchAll_cons, dispatch]
    obtain ⟨⟨nodeTab, dc, np, fr⟩, eof, exc, calls, fwd⟩ := r
    simp only at hnt
    subst hnt
    have hstep : myCdataBlock ⟨⟨top :: par :: rest, dc, np, fr⟩, eof, exc, calls, fwd⟩ v =
        ⟨⟨{ top with kids := top.kids.append (.node np .nil .nil) } :: par :: rest, dc,
          np + 1, fr⟩, eof, exc, calls, fwd ++ [.cdataBlock v]⟩ := by
      simp [myCdataBlock, defaultContent, ParserCtxt.nodeNr]
    rw [hstep]
    obtain ⟨k2, g1, g2, g3, g4⟩ := deep_frame handler more
      ⟨⟨{ top with kids := top.kids.append (.node np .nil .nil) } :: par :: rest, dc,
        np + 1, fr⟩, eof, exc, calls, fwd ++ [.cdataBlock v]⟩
      { top with kids := top.kids.append (.node np .nil .nil) } par rest rfl
    exact ⟨k2, g1, g2, g3, Nat.le_trans (Nat.le_succ np) g4⟩
  | .pi t d more, r, top, par, rest, hnt => by
    simp only [Markup.events, dispatchAll_cons, dispatch]
    have hstep : myProcessingInstruction r t d = r := by
      simp [myProcessingInstruction, ParserCtxt.nodeNr, hnt]
    rw [hstep]
    exact deep_frame handler more r top par rest hnt

theorem forest_remove_single (p : NodePtr) (kids : Forest) :
    (Forest.node p kids .nil).remove p = .nil := by
  simp [Forest.remove]

/-- Removing an address that does not occur leaves a forest as it is. -/
theorem forest_remove_absent (p : NodePtr) :
    ∀ f : Forest, p ∉ f.ptrs → f.remove p = f
  | .nil, _ => rfl
  | .node q c s, hp => by
    simp only [Forest.ptrs, List.mem_cons, List.mem_append, not_or] at hp
    obtain ⟨hpq, hc, hs⟩ := hp
    have hqp : ¬ q = p := fun e => hpq e.symm
    simp [Forest.remove, hqp, forest_remove_absent p c hc, forest_remove_absent p s hs]

/-- Content directly below the stream root, starting with a root without children: each
stanza is reported, then unlinked and freed, so that afterwards the root is again the only
open element and has no children; the children of the document are untouched. -/
theorem body_frame (handler : Handler) :
    ∀ (m : Markup) (r : Reader) (optr : NodePtr) (oname : String),
      r.ctxt.nodeTab = [⟨optr, oname, .nil⟩] →
      (∀ q ∈ r.ctxt.docChildren.ptrs, q < r.ctxt.nextPtr) →
      ∃ nodes : List NodePtr, nodes.length = m.elems ∧
        (dispatchAll handler r m.events).calls = r.calls ++ stanzaCalls nodes ∧
        (dispatchAll handler r m.events).ctxt.nodeTab = [⟨optr, oname, .nil⟩] ∧
        (dispatchAll handler r m.events).ctxt.docChildren = r.ctxt.docChildren ∧
        (dispatchAll handler r m.events).ctxt.freed = r.ctxt.freed ++ nodes ∧
        r.ctxt.nextPtr ≤ (dispatchAll handler r m.events).ctxt.nextPtr ∧
        ∀ p ∈ nodes, r.ctxt.nextPtr ≤ p
  | .nil, r, optr, oname, hnt, _ =>
    ⟨[], rfl, by simp [Markup.events, dispatchAll, stanzaCalls],
      by simpa [Markup.events, dispatchAll] using hnt, rfl,
      by simp [Markup.events, dispatchAll], Nat.le_refl _, by simp⟩
  | .elem name inner more, r, optr, oname, hnt, hdc => by
    simp only [Markup.events, dispatchAll_cons, dispatchAll_append, dispatch]
    obtain ⟨⟨nodeTab, dc, np, fr⟩, eof, exc, calls, fwd⟩ := r
    simp only at hnt hdc
    subst hnt
    obtain ⟨exc0, hstart⟩ : ∃ exc0, myStartElement handler
        ⟨⟨[⟨optr, oname, .nil⟩], dc, np, fr⟩, eof, exc, calls, fwd⟩ name =
        ⟨⟨[⟨np, name, .nil⟩, ⟨optr, oname, .nil⟩], dc, np + 1, fr⟩, eof, exc0,
          calls ++ [.stanzaStart (some np)], fwd⟩ :=
      ⟨_, by simp [myStartElement, defaultStartElement, ParserCtxt.nodeNr, ParserCtxt.node,
        callHandler]; rfl⟩
    rw [hstart]
    obtain ⟨k1, h1, h2, h3, h4⟩ := deep_frame handler inner
      ⟨⟨[⟨np, name, .nil⟩, ⟨optr, oname, .nil⟩], dc, np + 1, fr⟩, eof, exc0,
        calls ++ [.stanzaStart (some np)], fwd⟩
      ⟨np, name, .nil⟩ ⟨optr, oname, .nil⟩ [] rfl
    obtain ⟨h5, _⟩ := deep_silent handler inner
      ⟨⟨[⟨np, name, .nil⟩, ⟨optr, oname, .nil⟩], dc, np + 1, fr⟩, eof, exc0,
        calls ++ [.stanzaStart (some np)], fwd⟩ (by simp)
    generalize dispatchAll handler
      ⟨⟨[⟨np, name, .nil⟩, ⟨optr, oname, .nil⟩], dc, np + 1, fr⟩, eof, exc0,
        calls ++ [.stanzaStart (some np)], fwd⟩ inner.events = r1 at h1 h2 h3 h4 h5 ⊢
    obtain ⟨⟨nodeTab1, dc1, np1, fr1⟩, eof1, exc1, calls1, fwd1⟩ := r1
    simp only at h1 h2 h3 h4 h5
    subst h1 h2 h3 h5
    have hfresh : Forest.remove np dc1 = dc1 :=
      forest_remove_absent np dc1 (fun hmem => Nat.lt_irrefl _ (hdc np hmem))
    obtain ⟨exc2, hend⟩ : ∃ exc2, myEndElement handler
        ⟨⟨[⟨np, name, k1⟩, ⟨optr, oname, .nil⟩], dc1, np1, fr1⟩, eof1, exc1,
          calls ++ [.stanzaStart (some np)], fwd1⟩ name =
        ⟨⟨[⟨optr, oname, .nil⟩], dc1, np1, fr1 ++ [np]⟩, eof1, exc2,
          calls ++ [.stanzaStart (some np)] ++ [.stanzaEnd np], fwd1⟩ :=
      ⟨_, by simp [myEndElement, defaultEndElement, ParserCtxt.nodeNr, ParserCtxt.node,
        callHandler, xmlFreeNode, xmlUnlinkNode, Forest.append, Forest.remove, hfresh]; rfl⟩
    rw [hend]
    obtain ⟨nodes, g1, g2, g3, g4, g5, g6, g7⟩ := body_frame handler more
      ⟨⟨[⟨optr, oname, .nil⟩], dc1, np1, fr1 ++ [np]⟩, eof1, exc2,
        calls ++ [.stanzaStart (some np)] ++ [.stanzaEnd np], fwd1⟩ optr oname rfl
      (fun q hq => Nat.lt_of_lt_of_le (hdc q hq) (Nat.le_trans (Nat.le_succ np) h4))
    refine ⟨np :: nodes, by simp [Markup.elems, g1], ?_, g3, g4, ?_, ?_, ?_⟩
    · rw [g2]; simp [stanzaCalls]
    · rw [g5]; simp
    · exact Nat.le_trans (Nat.le_trans (Nat.le_succ np) h4) g6
    · intro p hp
      rcases List.mem_cons.mp hp with rfl | hp
      · exact Nat.le_refl _
      · exact Nat.le_trans (Nat.le_trans (Nat.le_succ np) h4) (g7 p hp)
  | .chars ch more, r, optr, oname, hnt, hdc => by
    simp only [Markup.events, dispatchAll_cons, dispatch]
    have hstep : myCharacters r ch = r := by
      simp [myCharacters, ParserCtxt.nodeNr, hnt]
    rw [hstep]
    exact body_frame handler more r optr oname hnt hdc
  | .cdata v more, r, optr, oname, hnt, hdc => by
    simp only [Markup.events, dispatchAll_cons, dispatch]
    have hstep : myCdataBlock r v = r := by
      simp [myCdataBlock, ParserCtxt.nodeNr, hnt]
    rw [hstep]
    exact body_frame handler more r optr oname hnt hdc
  | .pi t d more, r, optr, oname, hnt, hdc => by
    simp only [Markup.events, dispatchAll_cons, dispatch]
    have hstep : myProcessingInstruction r t d = r := by
      simp [myProcessingInstruction, ParserCtxt.nodeNr, hnt]
    rw [hstep]
    exact body_frame handler more r optr oname hnt hdc

/-! ## Memory bound of the reader -/

/-- What the gates and the unlinking achieve for the callbacks that pass through the reader
(element starts and ends, character data, CDATA blocks, processing instructions): after the
root start followed by any well-nested content of these, the stream root is the only open
element and has no children, the only node reachable from the document is the root, and each
stanza reported so far has been handed to `xmlFreeNode` and is not reachable.  For
`<stream><msg>hi</msg>` the node of `msg` is freed and only the root is reachable. -/
theorem stanzas_unlinked (handler : Handler) (root : String) (body : Markup) :
    (∃ nodes : List NodePtr, nodes.length = body.elems ∧
      (dispatchAll handler reader_new (.startElement root :: body.events)).calls =
        .streamStart :: stanzaCalls nodes ∧
      (dispatchAll handler reader_new (.startElement root :: body.events)).ctxt.nodeNr = 1 ∧
      (dispatchAll handler reader_new (.startElement root :: body.events)).ctxt.nodeTab =
        [⟨0, root, .nil⟩] ∧
      (dispatchAll handler reader_new (.startElement root :: body.events)).ctxt.reachable =
        [0] ∧
      (dispatchAll handler reader_new (.startElement root :: body.events)).ctxt.freed =
        nodes ∧
      ∀ p ∈ nodes,
        p ∉ (dispatchAll handler reader_new
          (.startElement root :: body.events)).ctxt.reachable) ∧
    (dispatchAll handler reader_new [.startElement "stream", .startElement "msg",
        .characters "hi"]).ctxt.reachable = [1, 2, 0] ∧
    (dispatchAll handler reader_new [.startElement "stream", .startElement "msg",
        .characters "hi", .endElement "msg"]).ctxt.reachable = [0] ∧
    (dispatchAll handler reader_new [.startElement "stream", .startElement "msg",
        .characters "hi", .endElement "msg"]).ctxt.freed = [1] := by
  refine ⟨?_, rfl, rfl, rfl⟩
  obtain ⟨exc0, hstart⟩ : ∃ exc0, dispatch handler reader_new (.startElement root) =
      ⟨⟨[⟨0, root, .nil⟩], .nil, 1, []⟩, false, exc0, [.streamStart], []⟩ :=
    ⟨_, rfl⟩
  rw [dispatchAll_cons, hstart]
  obtain ⟨nodes, g1, g2, g3, g4, g5, _, g7⟩ := body_frame handler body
    ⟨⟨[⟨0, root, .nil⟩], .nil, 1, []⟩, false, exc0, [.streamStart], []⟩ 0 root rfl
    (by simp [Forest.ptrs])
  have hreach : (dispatchAll handler
      ⟨⟨[⟨0, root, .nil⟩], .nil, 1, []⟩, false, exc0, [.streamStart], []⟩
      body.events).ctxt.reachable = [0] := by
    simp [ParserCtxt.reachable, g3, g4, openPtrs, Forest.ptrs]
  refine ⟨nodes, g1, by simpa using g2, by simp [ParserCtxt.nodeNr, g3], g3, hreach,
    by simpa using g5, ?_⟩
  intro p hp
  rw [hreach]
  have hge : 1 ≤ p := g7 p hp
  intro hmem
  have h0 : p = 0 := by simpa using hmem
  rw [h0] at hge
  exact Nat.not_succ_le_zero 0 hge

/-- C11 (the code at the failing input): `<stream>` followed by a line break and
`<msg>hi</msg>`, the line break arriving through `ignorableWhitespace`, a slot that
`reader_new` leaves to libxml2.  After the end of `msg` the depth is 1 and no stanza is open;
the stanza (node 2) has been unlinked and freed, but the stream root has one child, the text
node of the line break (node 1), which stays reachable from the document.  The same line
break arriving through `characters` is dropped by `myCharacters` and the root has no
children. -/
theorem root_keeps_ignorable_whitespace :
    (dispatchAll (fun _ _ _ => true) reader_new
        [.startElement "stream", .ignorableWhitespace "\n", .startElement "msg",
          .characters "hi", .endElement "msg"]).calls =
      [.streamStart, .stanzaStart (some 2), .stanzaEnd 2] ∧
    (dispatchAll (fun _ _ _ => true) reader_new
        [.startElement "stream", .ignorableWhitespace "\n", .startElement "msg",
          .characters "hi", .endElement "msg"]).ctxt.nodeNr = 1 ∧
    (dispatchAll (fun _ _ _ => true) reader_new
        [.startElement "stream", .ignorableWhitespace "\n", .startElement "msg",
          .characters "hi", .endElement "msg"]).ctxt.nodeTab =
      [⟨0, "stream", .node 1 .nil .nil⟩] ∧
    (dispatchAll (fun _ _ _ => true) reader_new
        [.startElement "stream", .ignorableWhitespace "\n", .startElement "msg",
          .characters "hi", .endElement "msg"]).ctxt.reachable = [0, 1] ∧
    (dispatchAll (fun _ _ _ => true) reader_new
        [.startElement "stream", .ignorableWhitespace "\n", .startElement "msg",
          .characters "hi", .endElement "msg"]).ctxt.freed = [2] ∧
    (dispatchAll (fun _ _ _ => true) reader_new
        [.startElement "stream", .characters "\n", .startElement "msg",
          .characters "hi", .endElement "msg"]).ctxt.nodeTab = [⟨0, "stream", .nil⟩] := by
  decide

/-! ## Proofs: handler calls and the exception flag -/

/-- What one callback does to the record of handler calls and to the exception flag. -/
theorem dispatch_calls_exception (handler : Handler) (r : Reader) (e : SaxEvent) :
    (dispatch handler r e).calls =
        r.calls ++ (match handlerCallOf r e with
          | none => []
          | some (_, call) => [call]) ∧
      (dispatch handler r e).exception = (r.exception || raisesAt handler r e) := by
  cases e with
  | startElement name =>
    simp only [dispatch, myStartElement, handlerCallOf, raisesAt, SaxEvent.unformatted,
      Bool.false_or]
    by_cases h1 : (defaultStartElement r.ctxt name).nodeNr = 1
    · simp only [h1, if_true, callHandler]
      cases handler (defaultStartElement r.ctxt name) r.calls .streamStart <;> simp
    · by_cases h2 : (defaultStartElement r.ctxt name).nodeNr = 2
      · simp only [h1, h2, if_true, if_false, callHandler]
        cases hb : handler (defaultStartElement r.ctxt name) r.calls
          (.stanzaStart (defaultStartElement r.ctxt name).node) <;> simp [hb]
      · simp [h1, h2]
  | endElement name =>
    simp only [dispatch, myEndElement, handlerCallOf, raisesAt, SaxEvent.unformatted,
      Bool.false_or]
    by_cases h1 : (defaultEndElement r.ctxt).nodeNr = 0
    · simp only [h1, if_true, callHandler]
      cases handler (defaultEndElement r.ctxt) r.calls .streamEnd <;> simp
    · by_cases h2 : (defaultEndElement r.ctxt).nodeNr = 1
      · simp only [h1, h2, if_true, if_false]
        cases hn : r.ctxt.node with
        | none => simp
        | some p =>
          simp only [callHandler, Option.map_some']
          cases hb : handler (defaultEndElement r.ctxt) r.calls (.stanzaEnd p) <;> simp [hb]
      · simp [h1, h2]
  | characters ch =>
    simp only [dispatch, myCharacters, handlerCallOf, raisesAt, SaxEvent.unformatted]
    split <;> simp
  | cdataBlock v =>
    simp only [dispatch, myCdataBlock, handlerCallOf, raisesAt, SaxEvent.unformatted]
    split <;> simp
  | processingInstruction t d =>
    simp only [dispatch, myProcessingInstruction, handlerCallOf, raisesAt,
      SaxEvent.unformatted]
    split <;> simp
  | error msg =>
    cases msg with
    | none => simp [dispatch, myError, handlerCallOf, raisesAt, SaxEvent.unformatted]
    | some str =>
      simp only [dispatch, myError, handlerCallOf, raisesAt, SaxEvent.unformatted,
        callHandler, Bool.false_or]
      cases handler r.ctxt r.calls (.error str) <;> simp
  | fatalError msg =>
    cases msg with
    | none => simp [dispatch, myFatalError, handlerCallOf, raisesAt, SaxEvent.unformatted]
    | some str =>
      simp only [dispatch, myFatalError, handlerCallOf, raisesAt, SaxEvent.unformatted,
        callHandler, Bool.false_or]
      cases handler r.ctxt r.calls (.error str) <;> simp
  | ignorableWhitespace ch => simp [dispatch, handlerCallOf, raisesAt, SaxEvent.unformatted]
  | reference name => simp [dispatch, handlerCallOf, raisesAt, SaxEvent.unformatted]

/-- The flag after a run: set before, or set by one of the callbacks; no callback clears it. -/
theorem dispatchAll_exception (handler : Handler) :
    ∀ (evs : List SaxEvent) (r : Reader),
      (dispatchAll handler r evs).exception = (r.exception || raisesDuring handler r evs)
  | [], r => by simp [dispatchAll, raisesDuring]
  | e :: rest, r => by
    rw [dispatchAll_cons, dispatchAll_exception handler rest,
      (dispatch_calls_exception handler r e).2, raisesDuring, Bool.or_assoc]

/-- The flag is set during a run exactly when some callback, dispatched in its turn, sets
it. -/
theorem raisesDuring_iff (handler : Handler) :
    ∀ (evs : List SaxEvent) (r : Reader),
      raisesDuring handler r evs = true ↔
        ∃ pre e post, evs = pre ++ e :: post ∧
          raisesAt handler (dispatchAll handler r pre) e = true
  | [], r => by simp [raisesDuring]
  | e :: rest, r => by
    rw [raisesDuring, Bool.or_eq_true, raisesDuring_iff handler rest]
    constructor
    · rintro (h | ⟨pre, x, post, hsplit, hx⟩)
      · exact ⟨[], e, rest, rfl, h⟩
      · exact ⟨e :: pre, x, post, by rw [hsplit]; rfl, hx⟩
    · rintro ⟨pre, x, post, hsplit, hx⟩
      cases pre with
      | nil =>
        simp only [List.nil_append, List.cons.injEq] at hsplit
        obtain ⟨rfl, _⟩ := hsplit
        exact Or.inl hx
      | cons y pre =>
        simp only [List.cons_append, List.cons.injEq] at hsplit
        obtain ⟨rfl, rfl⟩ := hsplit
        exact Or.inr ⟨pre, x, post, rfl, hx⟩

theorem raisesAt_iff (handler : Handler) (r : Reader) (e : SaxEvent) :
    raisesAt handler r e = true ↔
      e.unformatted = true ∨
        ∃ c call, handlerCallOf r e = some (c, call) ∧ handler c r.calls call = false := by
  unfold raisesAt
  cases hc : handlerCallOf r e with
  | none => simp
  | some cc =>
    obtain ⟨c, call⟩ := cc
    simp only [Bool.or_eq_true, Bool.not_eq_true', Option.some.injEq, Prod.mk.injEq]
    constructor
    · rintro (h | h)
      · exact Or.inl h
      · exact Or.inr ⟨c, call, ⟨rfl, rfl⟩, h⟩
    · rintro (h | ⟨c1, call1, ⟨rfl, rfl⟩, h⟩)
      · exact Or.inl h
      · exact Or.inr h

/-! ## Feeding a chunk -/

/-- C12 (counterexample): the tokenizer reports one error whose message cannot be built and
returns status 0, the handler never raises and is not even called; `reader_feed` still takes
its first failing return, the one that leaves the pending exception. -/
theorem feed_fails_without_handler_failure :
    (reader_feed unformattedErrorTokenizer (fun _ _ _ => true) ((), reader_new) [60]).2 =
      .handlerError ∧
    (reader_feed unformattedErrorTokenizer (fun _ _ _ => true) ((), reader_new) [60]).1.2.calls
      = [] ∧
    (unformattedErrorTokenizer () [60] false).2.2 = 0 := by
  decide

/-- C12 (amended): `reader_feed` clears the exception flag before it drives the tokenizer, so
the value of the flag before the call does not matter; the call takes its first failing
return exactly when the flag was set during the call, that is when for some callback the
handler call it led to raised or the message of an error callback could not be built, also
when the tokenizer returned a non-zero status; otherwise it fails with the parse error of
the status exactly when the status is non-zero, and otherwise succeeds. -/
theorem feed_reports {σ : Type} (tok : Tokenizer σ) (handler : Handler) (s : σ × Reader)
    (str : List Nat) :
    (reader_feed tok handler s str).2 =
      (if raisesDuring handler { s.2 with exception := false }
          (tok s.1 str (str.length == 0)).2.1 then FeedResult.handlerError
        else if (tok s.1 str (str.length == 0)).2.2 = 0 then FeedResult.ok
        else FeedResult.parseError (tok s.1 str (str.length == 0)).2.2) ∧
    (raisesDuring handler { s.2 with exception := false }
        (tok s.1 str (str.length == 0)).2.1 = true ↔
      ∃ pre e post, (tok s.1 str (str.length == 0)).2.1 = pre ++ e :: post ∧
        (e.unformatted = true ∨
          ∃ c call,
            handlerCallOf (dispatchAll handler { s.2 with exception := false } pre) e =
              some (c, call) ∧
            handler c (dispatchAll handler { s.2 with exception := false } pre).calls call =
              false)) ∧
    reader_feed tok handler (s.1, { s.2 with exception := true }) str =
      reader_feed tok handler (s.1, { s.2 with exception := false }) str := by
  refine ⟨?_, ?_, rfl⟩
  · simp only [reader_feed, dispatchAll_exception, Bool.false_or]
  · rw [raisesDuring_iff]
    constructor
    · rintro ⟨pre, e, post, hsplit, he⟩
      exact ⟨pre, e, post, hsplit, (raisesAt_iff handler _ e).mp he⟩
    · rintro ⟨pre, e, post, hsplit, he⟩
      exact ⟨pre, e, post, hsplit, (raisesAt_iff handler _ e).mpr he⟩

/-! ## Proofs: the structural events depend on the depth alone -/

theorem defaultStartElement_nodeNr (c : ParserCtxt) (name : String) :
    (defaultStartElement c name).nodeNr = c.nodeNr + 1 := by
  simp [defaultStartElement, ParserCtxt.nodeNr]

theorem defaultEndElement_nodeNr (c : ParserCtxt) :
    (defaultEndElement c).nodeNr = c.nodeNr - 1 := by
  obtain ⟨nodeTab, dc, np, fr⟩ := c
  match nodeTab with
  | [] => simp [defaultEndElement, ParserCtxt.nodeNr]
  | [a] => simp [defaultEndElement, ParserCtxt.nodeNr]
  | a :: b :: rest => simp [defaultEndElement, ParserCtxt.nodeNr]

theorem defaultContent_nodeNr (c : ParserCtxt) : (defaultContent c).nodeNr = c.nodeNr := by
  obtain ⟨nodeTab, dc, np, fr⟩ := c
  cases nodeTab <;> simp [defaultContent, ParserCtxt.nodeNr]

theorem defaultUngated_nodeNr (c : ParserCtxt) : (defaultUngated c).nodeNr = c.nodeNr := by
  obtain ⟨nodeTab, dc, np, fr⟩ := c
  cases nodeTab <;> simp [defaultUngated, defaultContent, ParserCtxt.nodeNr]

/-- The depth after one callback. -/
theorem dispatch_nodeNr (handler : Handler) (r : Reader) (e : SaxEvent) :
    (dispatch handler r e).ctxt.nodeNr = depthAfter r.ctxt.nodeNr [e] := by
  cases e with
  | startElement name =>
    simp only [dispatch, myStartElement, depthAfter]
    split
    · simp [callHandler, defaultStartElement_nodeNr]
    · split <;> simp [callHandler, defaultStartElement_nodeNr]
  | endElement name =>
    simp only [dispatch, myEndElement, depthAfter]
    split
    · simp [callHandler, defaultEndElement_nodeNr]
    · split
      · cases r.ctxt.node with
        | none => simp [defaultEndElement_nodeNr]
        | some p =>
          simp [callHandler, xmlFreeNode, xmlUnlinkNode, ParserCtxt.nodeNr]
          simpa [ParserCtxt.nodeNr] using defaultEndElement_nodeNr r.ctxt
      · simp [defaultEndElement_nodeNr]
  | characters ch =>
    simp only [dispatch, myCharacters, depthAfter]
    split <;> simp [defaultContent_nodeNr]
  | cdataBlock v =>
    simp only [dispatch, myCdataBlock, depthAfter]
    split <;> simp [defaultContent_nodeNr]
  | processingInstruction t d =>
    simp only [dispatch, myProcessingInstruction, depthAfter]
    split <;> simp [defaultContent_nodeNr]
  | error msg =>
    cases msg <;> simp [dispatch, myError, depthAfter, callHandler]
  | fatalError msg =>
    cases msg <;> simp [dispatch, myFatalError, depthAfter, callHandler]
  | ignorableWhitespace ch => simp [dispatch, depthAfter, defaultUngated_nodeNr]
  | reference name => simp [dispatch, depthAfter, defaultUngated_nodeNr]

/-- At depth 0 no element is open, at any other depth one is. -/
theorem node_isSome_iff (c : ParserCtxt) : c.node = none ↔ c.nodeNr = 0 := by
  obtain ⟨nodeTab, dc, np, fr⟩ := c
  cases nodeTab <;> simp [ParserCtxt.node, ParserCtxt.nodeNr]

/-- The structural events one callback adds are those of the depth state machine. -/
theorem dispatch_structural (handler : Handler) (r : Reader) (e : SaxEvent) :
    structuralEvents (dispatch handler r e).calls =
      structuralEvents r.calls ++ depthTrace r.ctxt.nodeNr [e] := by
  rw [(dispatch_calls_exception handler r e).1]
  simp only [structuralEvents, List.filterMap_append]
  congr 1
  cases e with
  | startElement name =>
    simp only [handlerCallOf, depthTrace, defaultStartElement_nodeNr, List.append_nil]
    by_cases h1 : r.ctxt.nodeNr + 1 = 1
    · simp [h1, HandlerCall.structural]
    · by_cases h2 : r.ctxt.nodeNr + 1 = 2
      · simp [h1, h2, HandlerCall.structural]
      · simp [h1, h2]
  | endElement name =>
    simp only [handlerCallOf, depthTrace, defaultEndElement_nodeNr, List.append_nil]
    by_cases h1 : r.ctxt.nodeNr - 1 = 0
    · simp [h1, HandlerCall.structural]
    · by_cases h2 : r.ctxt.nodeNr - 1 = 1
      · cases hn : r.ctxt.node with
        | none =>
          have h0 := (node_isSome_iff r.ctxt).mp hn
          rw [h0] at h2
          simp at h2
        | some p => simp [h1, h2, HandlerCall.structural]
      · simp [h1, h2]
  | characters ch => simp [handlerCallOf, depthTrace]
  | cdataBlock v => simp [handlerCallOf, depthTrace]
  | processingInstruction t d => simp [handlerCallOf, depthTrace]
  | error msg => cases msg <;> simp [handlerCallOf, depthTrace, HandlerCall.structural]
  | fatalError msg => cases msg <;> simp [handlerCallOf, depthTrace, HandlerCall.structural]
  | ignorableWhitespace ch => simp [handlerCallOf, depthTrace]
  | reference name => simp [handlerCallOf, depthTrace]

theorem depthTrace_cons (d : Nat) (e : SaxEvent) (rest : List SaxEvent) :
    depthTrace d (e :: rest) = depthTrace d [e] ++ depthTrace (depthAfter d [e]) rest := by
  cases e <;> simp [depthTrace, depthAfter]

theorem depthAfter_cons (d : Nat) (e : SaxEvent) (rest : List SaxEvent) :
    depthAfter d (e :: rest) = depthAfter (depthAfter d [e]) rest := by
  cases e <;> simp [depthAfter]

theorem depthTrace_append : ∀ (l1 l2 : List SaxEvent) (d : Nat),
    depthTrace d (l1 ++ l2) = depthTrace d l1 ++ depthTrace (depthAfter d l1) l2
  | [], l2, d => by simp [depthTrace, depthAfter]
  | e :: rest, l2, d => by
    rw [List.cons_append, depthTrace_cons, depthTrace_append rest l2, depthTrace_cons d e rest,
      depthAfter_cons d e rest, List.append_assoc]

theorem depthAfter_append : ∀ (l1 l2 : List SaxEvent) (d : Nat),
    depthAfter d (l1 ++ l2) = depthAfter (depthAfter d l1) l2
  | [], l2, d => by simp [depthAfter]
  | e :: rest, l2, d => by
    rw [List.cons_append, depthAfter_cons, depthAfter_append rest l2, depthAfter_cons d e rest]

/-- Only the element callbacks count for the depth state machine. -/
theorem depthTrace_filter : ∀ (l : List SaxEvent) (d : Nat),
    depthTrace d (l.filter SaxEvent.isElement) = depthTrace d l ∧
      depthAfter d (l.filter SaxEvent.isElement) = depthAfter d l
  | [], d => by simp [depthTrace, depthAfter]
  | e :: rest, d => by
    cases e <;>
      simp [List.filter, SaxEvent.isElement, depthTrace, depthAfter,
        (depthTrace_filter rest _).1, (depthTrace_filter rest _).2]

/-- The structural events of a run of callbacks are those of the depth state machine. -/
theorem dispatchAll_structural (handler : Handler) :
    ∀ (evs : List SaxEvent) (r : Reader),
      structuralEvents (dispatchAll handler r evs).calls =
          structuralEvents r.calls ++ depthTrace r.ctxt.nodeNr evs ∧
        (dispatchAll handler r evs).ctxt.nodeNr = depthAfter r.ctxt.nodeNr evs
  | [], r => by simp [dispatchAll, depthTrace, depthAfter]
  | e :: rest, r => by
    obtain ⟨h1, h2⟩ := dispatchAll_structural handler rest (dispatch handler r e)
    rw [dispatchAll_cons, h1, h2, dispatch_structural, dispatch_nodeNr,
      depthTrace_cons r.ctxt.nodeNr e rest, depthAfter_cons r.ctxt.nodeNr e rest,
      List.append_assoc]
    exact ⟨rfl, rfl⟩

/-- The structural events of a whole session are those of the depth state machine on the
callbacks the tokenizer made, however they were spread over the calls of `reader_feed`. -/
theorem feedAll_structural {σ : Type} (tok : Tokenizer σ) (handler : Handler) :
    ∀ (chunks : List (List Nat)) (t : σ) (r : Reader),
      structuralEvents (feedAll tok handler (t, r) chunks).2.calls =
          structuralEvents r.calls ++ depthTrace r.ctxt.nodeNr (tokenAll tok t chunks) ∧
        (feedAll tok handler (t, r) chunks).2.ctxt.nodeNr =
          depthAfter r.ctxt.nodeNr (tokenAll tok t chunks)
  | [], t, r => by simp [feedAll, tokenAll, depthTrace, depthAfter]
  | chunk :: rest, t, r => by
    obtain ⟨g1, g2⟩ := dispatchAll_structural handler (tok t chunk (chunk.length == 0)).2.1
      { r with exception := false }
    obtain ⟨h1, h2⟩ := feedAll_structural tok handler rest (tok t chunk (chunk.length == 0)).1
      (dispatchAll handler { r with exception := false }
        (tok t chunk (chunk.length == 0)).2.1)
    simp only [feedAll, tokenAll, reader_feed, depthTrace_append, depthAfter_append]
    rw [h1, h2, g1, g2, List.append_assoc]
    exact ⟨rfl, rfl⟩

/-! ## Chunk boundaries -/

/-- The element callbacks of the sample tokenizer on a chunk, and the tag left unfinished, do
not depend on the character data gathered before. -/
theorem scanBytes_elem : ∀ (bytes : List Nat) (pending : Option (List Nat)) (text : List Nat),
    (scanBytes pending text bytes).1 = (elemScan pending bytes).1 ∧
      (scanBytes pending text bytes).2.filter SaxEvent.isElement = (elemScan pending bytes).2
  | [], pending, text => by
    cases pending <;> by_cases ht : text.isEmpty <;>
      simp [scanBytes, elemScan, flushText, ht, SaxEvent.isElement]
  | b :: rest, none, text => by
    by_cases hb : b = 60
    · obtain ⟨h1, h2⟩ := scanBytes_elem rest (some []) []
      by_cases ht : text.isEmpty <;>
        simp [scanBytes, elemScan, flushText, ht, hb, h1, h2, SaxEvent.isElement]
    · simpa [scanBytes, elemScan, hb] using scanBytes_elem rest none (text ++ [b])
  | b :: rest, some tag, text => by
    by_cases hb : b = 62
    · obtain ⟨h1, h2⟩ := scanBytes_elem rest none []
      have ht : (tagEvent tag).isElement = true := by
        unfold tagEvent
        split <;> rfl
      simp [scanBytes, elemScan, hb, h1, h2, ht]
    · simpa [scanBytes, elemScan, hb] using scanBytes_elem rest (some (tag ++ [b])) text

/-- The element callbacks for two runs of bytes, one after the other, are those for the two
runs put together. -/
theorem elemScan_append : ∀ (l1 l2 : List Nat) (pending : Option (List Nat)),
    elemScan pending (l1 ++ l2) =
      ((elemScan (elemScan pending l1).1 l2).1,
        (elemScan pending l1).2 ++ (elemScan (elemScan pending l1).1 l2).2)
  | [], l2, pending => by cases pending <;> simp [elemScan]
  | b :: rest, l2, none => by
    by_cases hb : b = 60
    · simpa [elemScan, hb] using elemScan_append rest l2 (some [])
    · simpa [elemScan, hb] using elemScan_append rest l2 none
  | b :: rest, l2, some tag => by
    by_cases hb : b = 62
    · simp [elemScan, hb, elemScan_append rest l2 none]
    · simpa [elemScan, hb] using elemScan_append rest l2 (some (tag ++ [b]))

/-- Over a split followed by the terminal empty chunk, the element callbacks of the sample
tokenizer are those for the whole input. -/
theorem tokenAll_tagTokenizer : ∀ (chunks : List (List Nat)) (pending : Option (List Nat)),
    (∀ c ∈ chunks, c ≠ []) →
      (tokenAll tagTokenizer ⟨false, pending⟩ (chunks ++ [[]])).filter SaxEvent.isElement =
        (elemScan pending chunks.flatten).2
  | [], pending, _ => by
    cases pending <;> simp [tokenAll, tagTokenizer, scanBytes, flushText, elemScan]
  | c :: rest, pending, hne => by
    have hc : c ≠ [] := hne c (List.mem_cons_self _ _)
    have hlen : (c.length == 0) = false := by
      cases c with
      | nil => exact absurd rfl hc
      | cons x xs => rfl
    have ih := tokenAll_tagTokenizer rest (scanBytes pending [] c).1
      (fun d hd => hne d (List.mem_cons_of_mem _ hd))
    obtain ⟨h1, h2⟩ := scanBytes_elem c pending []
    simp only [List.cons_append, tokenAll, hlen, tagTokenizer, List.filter_append,
      List.flatten_cons, elemScan_append, List.append_eq]
    simp only [Bool.false_eq_true, if_false] at ih ⊢
    rw [ih, h1, h2]

/-- The sample tokenizer makes the same element callbacks however its input is split. -/
theorem tagTokenizer_invariant (input : List Nat) :
    ChunkInvariantOn tagTokenizer ⟨false, none⟩ input := by
  intro c1 c2 h1 h2
  rw [tokenAll_tagTokenizer c1 none h1.1, tokenAll_tagTokenizer c2 none h2.1, h1.2, h2.2]

/-- C13: take the tokenizer as given and assume that on the input it makes the same element
callbacks however the input is split (the text callbacks may be cut differently).  Then for
any two ways of splitting the input into chunks, none of them empty, each split followed by
the terminal empty chunk, feeding a new reader yields the same sequence of structural events,
whatever the handler does and whatever each call of `reader_feed` reports. -/
theorem chunk_boundary_invariance {σ : Type} (tok : Tokenizer σ) (t0 : σ) (handler : Handler)
    (input : List Nat) (c1 c2 : List (List Nat))
    (htok : ChunkInvariantOn tok t0 input)
    (h1 : IsSplit c1 input) (h2 : IsSplit c2 input) :
    structuralEvents (feedAll tok handler (t0, reader_new) (c1 ++ [[]])).2.calls =
      structuralEvents (feedAll tok handler (t0, reader_new) (c2 ++ [[]])).2.calls := by
  rw [(feedAll_structural tok handler (c1 ++ [[]]) t0 reader_new).1,
    (feedAll_structural tok handler (c2 ++ [[]]) t0 reader_new).1,
    ← (depthTrace_filter (tokenAll tok t0 (c1 ++ [[]])) _).1,
    ← (depthTrace_filter (tokenAll tok t0 (c2 ++ [[]])) _).1, htok c1 c2 h1 h2]

/-- Witness for C13: the bytes of `<s><m>hi</m></s>` for the sample tokenizer, in one chunk
and in four chunks that cut through a tag and through the text; the callbacks differ (the
text arrives in one piece or in two), the structural events do not. -/
theorem chunk_boundary_invariance_witness :
    ChunkInvariantOn tagTokenizer ⟨false, none⟩
      [60, 115, 62, 60, 109, 62, 104, 105, 60, 47, 109, 62, 60, 47, 115, 62] ∧
    IsSplit [[60, 115, 62, 60, 109, 62, 104, 105, 60, 47, 109, 62, 60, 47, 115, 62]]
      [60, 115, 62, 60, 109, 62, 104, 105, 60, 47, 109, 62, 60, 47, 115, 62] ∧
    IsSplit [[60, 115], [62, 60, 109, 62, 104], [105, 60, 47], [109, 62, 60, 47, 115, 62]]
      [60, 115, 62, 60, 109, 62, 104, 105, 60, 47, 109, 62, 60, 47, 115, 62] ∧
    structuralEvents (feedAll tagTokenizer (fun _ _ _ => true) (⟨false, none⟩, reader_new)
        ([[60, 115, 62, 60, 109, 62, 104, 105, 60, 47, 109, 62, 60, 47, 115, 62]] ++
          [[]])).2.calls =
      structuralEvents (feedAll tagTokenizer (fun _ _ _ => true) (⟨false, none⟩, reader_new)
        ([[60, 115], [62, 60, 109, 62, 104], [105, 60, 47], [109, 62, 60, 47, 115, 62]] ++
          [[]])).2.calls :=
  ⟨tagTokenizer_invariant _, ⟨by decide, by decide⟩, ⟨by decide, by decide⟩,
    chunk_boundary_invariance tagTokenizer ⟨false, none⟩ (fun _ _ _ => true)
      [60, 115, 62, 60, 109, 62, 104, 105, 60, 47, 109, 62, 60, 47, 115, 62]
      [[60, 115, 62, 60, 109, 62, 104, 105, 60, 47, 109, 62, 60, 47, 115, 62]]
      [[60, 115], [62, 60, 109, 62, 104], [105, 60, 47], [109, 62, 60, 47, 115, 62]]
      (tagTokenizer_invariant _) ⟨by decide, by decide⟩ ⟨by decide, by decide⟩⟩

/-- The sample tokenizer at work on the two splits of the witness: four structural events
either way, and an empty chunk fed in the middle ends the input for good. -/
theorem tagTokenizer_session :
    structuralEvents (feedAll tagTokenizer (fun _ _ _ => true) (⟨false, none⟩, reader_new)
        ([[60, 115], [62, 60, 109, 62, 104], [105, 60, 47], [109, 62, 60, 47, 115, 62]] ++
          [[]])).2.calls = [.streamStart, .stanzaStart, .stanzaEnd, .streamEnd] ∧
    tokenAll tagTokenizer ⟨false, none⟩
        [[60, 115, 62, 60, 109, 62, 104, 105, 60, 47, 109, 62, 60, 47, 115, 62], []] =
      [.startElement "s", .startElement "m", .characters "hi", .endElement "m",
        .endElement "s"] ∧
    tokenAll tagTokenizer ⟨false, none⟩
        [[60, 115], [62, 60, 109, 62, 104], [105, 60, 47], [109, 62, 60, 47, 115, 62], []] =
      [.startElement "s", .startElement "m", .characters "h", .characters "i",
        .endElement "m", .endElement "s"] ∧
    tokenAll tagTokenizer ⟨false, none⟩
        [[60, 115, 62], [], [60, 109, 62, 60, 47, 109, 62, 60, 47, 115, 62], []] =
      [.startElement "s"] := by
  decide

/-! ## Element start and element end -/

/-- C14: on an element-start callback the reader first delegates, which raises the depth by
one, and then, on the depth read after that, calls `_stream_start` exactly when the depth is
1, `_stanza_start` with the current node exactly when the depth is 2, and makes no call at any
other depth. -/
theorem start_element_events (handler : Handler) (r : Reader) (name : String) :
    (myStartElement handler r name).ctxt = defaultStartElement r.ctxt name ∧
    (defaultStartElement r.ctxt name).nodeNr = r.ctxt.nodeNr + 1 ∧
    (myStartElement handler r name).calls =
      r.calls ++
        (if (defaultStartElement r.ctxt name).nodeNr = 1 then [.streamStart]
         else if (defaultStartElement r.ctxt name).nodeNr = 2 then
           [.stanzaStart (defaultStartElement r.ctxt name).node]
         else []) ∧
    ((myStartElement handler r name).calls = r.calls ++ [.streamStart] ↔
      (defaultStartElement r.ctxt name).nodeNr = 1) ∧
    ((myStartElement handler r name).calls =
        r.calls ++ [.stanzaStart (defaultStartElement r.ctxt name).node] ↔
      (defaultStartElement r.ctxt name).nodeNr = 2) ∧
    ((myStartElement handler r name).calls = r.calls ↔
      ¬ (defaultStartElement r.ctxt name).nodeNr = 1 ∧
        ¬ (defaultStartElement r.ctxt name).nodeNr = 2) := by
  refine ⟨?_, defaultStartElement_nodeNr r.ctxt name, ?_⟩
  · simp only [myStartElement]
    split
    · rfl
    · split <;> rfl
  · by_cases h1 : (defaultStartElement r.ctxt name).nodeNr = 1
    · simp [myStartElement, callHandler, h1]
    · by_cases h2 : (defaultStartElement r.ctxt name).nodeNr = 2
      · simp [myStartElement, callHandler, h1, h2]
      · simp [myStartElement, callHandler, h1, h2]

/-- The node captured before an element end is still linked in the document after the
delegated close, unless the element closed was the root. -/
theorem closed_node_reachable (c : ParserCtxt) :
    c.node = none ∨ (defaultEndElement c).nodeNr = 0 ∨
      ∃ p, c.node = some p ∧ p ∈ (defaultEndElement c).reachable := by
  obtain ⟨nodeTab, dc, np, fr⟩ := c
  match nodeTab with
  | [] => exact Or.inl rfl
  | [a] => exact Or.inr (Or.inl rfl)
  | a :: b :: rest =>
    refine Or.inr (Or.inr ⟨a.ptr, rfl, ?_⟩)
    have hmem : ∀ f : Forest, a.ptr ∈ (f.append (.node a.ptr a.kids .nil)).ptrs := by
      intro f
      induction f with
      | nil => simp [Forest.append, Forest.ptrs]
      | node q c s _ ih => simp [Forest.append, Forest.ptrs, ih]
    simp [defaultEndElement, ParserCtxt.reachable, openPtrs, hmem]

/-- C15: on an element-end callback the reader captures the current node, delegates, and on
the depth read after that: at depth 0 it sets `eof` and calls `_stream_end`; at depth 1 with
a captured node it calls `_stanza_end` with that node, the handler being asked on the
document in which the node is still linked, and only then unlinks and frees the node; in
every other case it makes no call and leaves the document as the delegated close left it. -/
theorem end_element_events (handler : Handler) (r : Reader) (name : String) :
    (myEndElement handler r name).calls =
      r.calls ++
        (if (defaultEndElement r.ctxt).nodeNr = 0 then [.streamEnd]
         else if (defaultEndElement r.ctxt).nodeNr = 1 then
           (match r.ctxt.node with
            | some p => [.stanzaEnd p]
            | none => [])
         else []) ∧
    (myEndElement handler r name).eof =
      (r.eof || decide ((defaultEndElement r.ctxt).nodeNr = 0)) ∧
    (myEndElement handler r name).ctxt =
      (if (defaultEndElement r.ctxt).nodeNr = 1 then
         (match r.ctxt.node with
          | some p => xmlFreeNode (xmlUnlinkNode (defaultEndElement r.ctxt) p) p
          | none => defaultEndElement r.ctxt)
       else defaultEndElement r.ctxt) ∧
    (myEndElement handler r name).exception =
      (r.exception ||
        (if (defaultEndElement r.ctxt).nodeNr = 0 then
           !handler (defaultEndElement r.ctxt) r.calls .streamEnd
         else if (defaultEndElement r.ctxt).nodeNr = 1 then
           (match r.ctxt.node with
            | some p => !handler (defaultEndElement r.ctxt) r.calls (.stanzaEnd p)
            | none => false)
         else false)) ∧
    (r.ctxt.node = none ∨ (defaultEndElement r.ctxt).nodeNr = 0 ∨
      ∃ p, r.ctxt.node = some p ∧ p ∈ (defaultEndElement r.ctxt).reachable) := by
  refine ⟨?_, ?_, ?_, ?_, closed_node_reachable r.ctxt⟩
  all_goals
    by_cases h0 : (defaultEndElement r.ctxt).nodeNr = 0
    · cases hb : handler (defaultEndElement r.ctxt) r.calls .streamEnd <;>
        simp [myEndElement, callHandler, h0, hb]
    · by_cases h1 : (defaultEndElement r.ctxt).nodeNr = 1
      · cases hn : r.ctxt.node with
        | none => simp [myEndElement, h0, h1, hn]
        | some p =>
          cases hb : handler (defaultEndElement r.ctxt) r.calls (.stanzaEnd p) <;>
            simp [myEndElement, callHandler, h0, h1, hn, hb]
      · simp [myEndElement, h0, h1]

/-! ## Processing instructions -/

/-- Outside the root every processing instruction is passed on and the depth stays 0. -/
theorem pis_outside_root (handler : Handler) :
    ∀ (l : List (String × String)) (r : Reader), r.ctxt.nodeTab = [] →
      (dispatchAll handler r (piEvents l)).forwarded = r.forwarded ++ piEvents l ∧
        (dispatchAll handler r (piEvents l)).ctxt.nodeTab = []
  | [], r, hnt => by simp [piEvents, dispatchAll, hnt]
  | td :: rest, r, hnt => by
    have hstep : dispatch handler r (.processingInstruction td.1 td.2) =
        { r with ctxt := defaultContent r.ctxt,
                 forwarded := r.forwarded ++ [.processingInstruction td.1 td.2] } := by
      simp [dispatch, myProcessingInstruction, ParserCtxt.nodeNr, hnt]
    have hnt1 : (dispatch handler r (.processingInstruction td.1 td.2)).ctxt.nodeTab = [] := by
      rw [hstep]
      simp [defaultContent, hnt]
    obtain ⟨h1, h2⟩ := pis_outside_root handler rest _ hnt1
    simp only [piEvents, List.map_cons, dispatchAll_cons] at h1 h2 ⊢
    refine ⟨?_, h2⟩
    rw [h1, hstep]
    simp

/-- C16 (counterexample): the root is opened and closed again, then a processing instruction
arrives: it is passed on. -/
theorem pi_forwarded_after_stream_end :
    (dispatchAll (fun _ _ _ => true) reader_new
        [.startElement "stream", .endElement "stream",
          .processingInstruction "t" "d"]).forwarded = [.processingInstruction "t" "d"] ∧
    (dispatchAll (fun _ _ _ => true) reader_new
        [.startElement "stream", .endElement "stream",
          .processingInstruction "t" "d"]).calls = [.streamStart, .streamEnd] := by
  decide

/-- C16 (amended): a processing instruction is passed on exactly when the depth is 0 as it
arrives, otherwise the reader is left as it was; over a document with processing
instructions before the root, inside it and after it, those before the root and those after
its end are passed on, those inside are not. -/
theorem pi_forwarded_iff_depth_zero (handler : Handler) (r : Reader) (target data : String)
    (pre post : List (String × String)) (root : String) (body : Markup) :
    ((myProcessingInstruction r target data).forwarded =
        r.forwarded ++ [.processingInstruction target data] ↔ r.ctxt.nodeNr = 0) ∧
    (r.ctxt.nodeNr = 0 ∨ myProcessingInstruction r target data = r) ∧
    (dispatchAll handler reader_new
        (piEvents pre ++ ((Markup.elem root body .nil).events ++ piEvents post))).forwarded =
      piEvents pre ++ (body.stanzaTexts ++ piEvents post) := by
  refine ⟨?_, ?_, ?_⟩
  · by_cases h0 : r.ctxt.nodeNr = 0 <;> simp [myProcessingInstruction, h0]
  · by_cases h0 : r.ctxt.nodeNr = 0
    · exact Or.inl h0
    · exact Or.inr (by simp [myProcessingInstruction, h0])
  · obtain ⟨f1, n1⟩ := pis_outside_root handler pre reader_new rfl
    simp only [Markup.events, dispatchAll_append, dispatchAll_cons, dispatch, List.append_nil]
    generalize dispatchAll handler reader_new (piEvents pre) = r1 at f1 n1 ⊢
    have hl1 : (myStartElement handler r1 root).ctxt.nodeTab.length = 1 := by
      have hc : (myStartElement handler r1 root).ctxt = defaultStartElement r1.ctxt root := by
        simp only [myStartElement]
        split
        · rfl
        · split <;> rfl
      rw [hc]
      simp [defaultStartElement, n1]
    obtain ⟨_, _, _, hp2⟩ := stream_body handler body (myStartElement handler r1 root) hl1
    have hl2 : (dispatchAll handler (myStartElement handler r1 root)
        body.events).ctxt.nodeTab.length = 1 := by
      have := congrArg List.length hp2
      simp at this
      omega
    have hf2 := body_forwarded handler body (myStartElement handler r1 root) hl1
    generalize dispatchAll handler (myStartElement handler r1 root) body.events = r2
      at hl2 hf2 ⊢
    have hn3 : (myEndElement handler r2 root).ctxt.nodeTab = [] := by
      obtain ⟨⟨nodeTab, dc, np, fr⟩, eof, exc, calls, fwd⟩ := r2
      match nodeTab, hl2 with
      | [a], _ => simp [myEndElement, defaultEndElement, ParserCtxt.nodeNr, callHandler]
    obtain ⟨f4, _⟩ := pis_outside_root handler post (myEndElement handler r2 root) hn3
    simp only [dispatchAll, List.foldl_nil] at f4 ⊢
    rw [f4, myEndElement_forwarded, hf2, myStartElement_forwarded, f1]
    simp [reader_new]

/-! ## The traversal order -/

theorem traverse_eq (h : Store) (tree : NodePtr) :
    ∀ (l : List NodePtr) (fuel : Nat), Follows h tree none l → l.length ≤ fuel →
      traverse h tree fuel (headOr l none) = some l
  | [], fuel, _, _ => by cases fuel <;> simp [headOr, traverse]
  | x :: rest, 0, _, hf => by simp at hf
  | x :: rest, fuel + 1, ⟨⟨n, hn, ha⟩, hr⟩, hf => by
    have ih := traverse_eq h tree rest fuel hr (by simpa using hf)
    have hstep : traverse h tree (fuel + 1) (some x) =
        (traverse h tree fuel (headOr rest none)).map (x :: ·) := by
      simp only [traverse, hn, ha]
    show traverse h tree (fuel + 1) (some x) = some (x :: rest)
    rw [hstep, ih]
    rfl

/-- C17: on a store whose links are consistent for the subtree at `tree`, the node-advance
steps started at `tree` visit the nodes of the subtree in document order (preorder, depth
first), each once, visit nothing else (no sibling or ancestor of `tree`), and stop; more
fuel changes nothing.  The loops of the removal and of the replacement go through the nodes
in this order. -/
theorem traversal_preorder (h : Store) (tree : NodePtr) (kids : Forest)
    (hw : isSubtree h tree kids = true) :
    traverse h tree (h.length + 1) (some tree) = some (tree :: kids.ptrs) ∧
    (tree :: kids.ptrs).Nodup ∧
    (∀ fuel : Nat, h.length ≤ fuel →
      traverse h tree fuel (some tree) = some (tree :: kids.ptrs)) ∧
    (∀ ns : NsPtr, xmlRemoveNsScan h tree ns (h.length + 1) (some tree) none =
      some (scanList h ns (tree :: kids.ptrs) none)) ∧
    (∀ oldNs newNs : Option NsPtr,
      xmlReplaceNsLoop tree oldNs newNs (h.length + 1) h (some tree) =
        some ((tree :: kids.ptrs).foldl (replaceAt oldNs newNs) h)) := by
  have hfo := follows_subtree hw
  have hlen := isSubtree_length hw
  obtain ⟨_, _, _, hnd⟩ := isSubtree_iff.mp hw
  refine ⟨?_, hnd, ?_, fun ns => xmlRemoveNsScan_subtree ns hw, ?_⟩
  · exact traverse_eq h tree (tree :: kids.ptrs) (h.length + 1) hfo (Nat.le_succ_of_le hlen)
  · intro fuel hf
    exact traverse_eq h tree (tree :: kids.ptrs) fuel hfo (Nat.le_trans hlen hf)
  · intro oldNs newNs
    exact xmlReplaceNsLoop_eq tree oldNs newNs (tree :: kids.ptrs) (h.length + 1) h hfo
      (Nat.le_succ_of_le hlen)

/-- Witness for C17: the subtree at `a` inside the sample document; its sibling `b` (address
2) and its parent `r` (address 0) are not visited. -/
theorem traversal_preorder_witness :
    isSubtree deepAttrStore 1 (.node 3 (.node 4 .nil .nil) .nil) = true ∧
    traverse deepAttrStore 1 (deepAttrStore.length + 1) (some 1) = some [1, 3, 4] :=
  ⟨by decide,
    (traversal_preorder deepAttrStore 1 (.node 3 (.node 4 .nil .nil) .nil) (by decide)).1⟩

/-! ## After the end of the stream -/

/-- At depth 0, callbacks other than element starts leave the depth at 0 and the only
structural events of the state machine are further stream ends. -/
theorem depthTrace_closed : ∀ evs : List SaxEvent,
    evs.all (fun e => !e.isStart) = true →
      (∃ k, depthTrace 0 evs = List.replicate k .streamEnd) ∧ depthAfter 0 evs = 0
  | [], _ => ⟨⟨0, rfl⟩, rfl⟩
  | e :: rest, hno => by
    simp only [List.all_cons, Bool.and_eq_true] at hno
    obtain ⟨⟨k, hk⟩, hd⟩ := depthTrace_closed rest hno.2
    cases e with
    | startElement name => simp [SaxEvent.isStart] at hno
    | endElement name =>
      exact ⟨⟨k + 1, by simp [depthTrace, hk, List.replicate_succ]⟩, by simp [depthAfter, hd]⟩
    | characters ch => exact ⟨⟨k, by simp [depthTrace, hk]⟩, by simp [depthAfter, hd]⟩
    | cdataBlock v => exact ⟨⟨k, by simp [depthTrace, hk]⟩, by simp [depthAfter, hd]⟩
    | processingInstruction t d =>
      exact ⟨⟨k, by simp [depthTrace, hk]⟩, by simp [depthAfter, hd]⟩
    | error msg => exact ⟨⟨k, by simp [depthTrace, hk]⟩, by simp [depthAfter, hd]⟩
    | fatalError msg => exact ⟨⟨k, by simp [depthTrace, hk]⟩, by simp [depthAfter, hd]⟩
    | ignorableWhitespace ch => exact ⟨⟨k, by simp [depthTrace, hk]⟩, by simp [depthAfter, hd]⟩
    | reference name => exact ⟨⟨k, by simp [depthTrace, hk]⟩, by simp [depthAfter, hd]⟩

/-- No callback clears the closed flag: `eof` is written in `myEndElement` only, and only
set there. -/
theorem dispatch_eof (handler : Handler) (r : Reader) (e : SaxEvent) (heof : r.eof = true) :
    (dispatch handler r e).eof = true := by
  cases e with
  | startElement name =>
    simp only [dispatch, myStartElement]
    split
    · simpa [callHandler] using heof
    · split
      · simpa [callHandler] using heof
      · simpa using heof
  | endElement name =>
    simp only [dispatch, myEndElement]
    split
    · simp [callHandler]
    · split
      · cases r.ctxt.node with
        | none => simpa using heof
        | some p => simpa [callHandler] using heof
      · simpa using heof
  | characters ch =>
    simp only [dispatch, myCharacters]
    split
    · simpa using heof
    · exact heof
  | cdataBlock v =>
    simp only [dispatch, myCdataBlock]
    split
    · simpa using heof
    · exact heof
  | processingInstruction t d =>
    simp only [dispatch, myProcessingInstruction]
    split
    · simpa using heof
    · exact heof
  | error msg => cases msg <;> simpa [dispatch, myError, callHandler] using heof
  | fatalError msg => cases msg <;> simpa [dispatch, myFatalError, callHandler] using heof
  | ignorableWhitespace ch => simpa [dispatch] using heof
  | reference name => simpa [dispatch] using heof

theorem dispatchAll_eof (handler : Handler) :
    ∀ (evs : List SaxEvent) (r : Reader), r.eof = true → (dispatchAll handler r evs).eof = true
  | [], _, heof => heof
  | e :: rest, r, heof => by
    simp only [dispatchAll, List.foldl_cons]
    exact dispatchAll_eof handler rest (dispatch handler r e) (dispatch_eof handler r e heof)

/-- C18: once the reader has reported the end of the stream (the depth is back at 0 and the
closed flag is set), the later callbacks of the session lead to no `_stream_start`,
`_stanza_start` or `_stanza_end` call: the depth stays 0, the flag stays set, and the
structural events added are at most further stream ends.  The later callbacks are those a
tokenizer can still make once the root element is closed: anything but an element start (a
document has one root; more content is reported through the error callbacks). -/
theorem no_events_after_stream_end (handler : Handler) (r : Reader) (later : List SaxEvent)
    (hd : r.ctxt.nodeNr = 0) (heof : r.eof = true)
    (hno : later.all (fun e => !e.isStart) = true) :
    (∃ k, structuralEvents (dispatchAll handler r later).calls =
        structuralEvents r.calls ++ List.replicate k .streamEnd) ∧
    (dispatchAll handler r later).ctxt.nodeNr = 0 ∧
    (dispatchAll handler r later).eof = true := by
  obtain ⟨h1, h2⟩ := dispatchAll_structural handler later r
  obtain ⟨⟨k, hk⟩, hz⟩ := depthTrace_closed later hno
  rw [hd] at h1 h2
  rw [hz] at h2
  exact ⟨⟨k, by rw [h1, hk]⟩, h2, dispatchAll_eof handler later r heof⟩

/-- Witness for C18: after `<a></a>` come a processing instruction, white space, and the
error reports for a second root element, whose start is not delivered. -/
theorem no_events_after_stream_end_witness :
    (dispatchAll (fun _ _ _ => true) reader_new
        [.startElement "a", .endElement "a"]).calls = [.streamStart, .streamEnd] ∧
    (∃ k, structuralEvents (dispatchAll (fun _ _ _ => true)
        (dispatchAll (fun _ _ _ => true) reader_new [.startElement "a", .endElement "a"])
        [.processingInstruction "t" "d", .ignorableWhitespace " ", .characters "x",
          .error (some "Extra content at the end of the document"),
          .fatalError none]).calls =
      structuralEvents (dispatchAll (fun _ _ _ => true) reader_new
        [.startElement "a", .endElement "a"]).calls ++ List.replicate k .streamEnd) ∧
    (dispatchAll (fun _ _ _ => true)
        (dispatchAll (fun _ _ _ => true) reader_new [.startElement "a", .endElement "a"])
        [.processingInstruction "t" "d", .ignorableWhitespace " ", .characters "x",
          .error (some "Extra content at the end of the document"),
          .fatalError none]).ctxt.nodeNr = 0 ∧
    (dispatchAll (fun _ _ _ => true)
        (dispatchAll (fun _ _ _ => true) reader_new [.startElement "a", .endElement "a"])
        [.processingInstruction "t" "d", .ignorableWhitespace " ", .characters "x",
          .error (some "Extra content at the end of the document"),
          .fatalError none]).eof = true :=
  ⟨by decide,
    no_events_after_stream_end (fun _ _ _ => true)
      (dispatchAll (fun _ _ _ => true) reader_new [.startElement "a", .endElement "a"])
      [.processingInstruction "t" "d", .ignorableWhitespace " ", .characters "x",
        .error (some "Extra content at the end of the document"), .fatalError none]
      (by decide) (by decide) (by decide)⟩

/-! ## The declaring node of the removal -/

/-- C19: in a subtree where a single chain holds `ns` (a declaration is owned by one element)
and nothing uses `ns`, let `D` be the first node in traversal order whose chain contains
`ns`.  Both removals return, the first cell equal to `ns` is unlinked from the chain of `D`
and freed, and the record at every other address, with its chain, is as before. -/
theorem remove_namespace_unlinks_first_declaration (h : Store) (tree : NodePtr)
    (kids : Forest) (ns : NsPtr) (D : NodePtr) (dn : XmlNode)
    (hw : isSubtree h tree kids = true)
    (hfirst : firstDecl h ns (tree :: kids.ptrs) = some D) (hdn : h[D]? = some dn)
    (hown : ∀ y ∈ tree :: kids.ptrs, ∀ m, h[y]? = some m → ns ∈ m.nsDef →
      ∀ z ∈ tree :: kids.ptrs, ∀ n, h[z]? = some n → ns ∈ n.nsDef → y = z)
    (hunused : ∀ y ∈ tree :: kids.ptrs, ∀ m, h[y]? = some m → ¬ refersTo (some ns) m) :
    ∃ h1 : Store,
      h1 = h.set D { dn with nsDef := dn.nsDef.erase ns } ∧
      ns ∈ dn.nsDef ∧
      xmlRemoveNs h (some tree) (some ns) = some ⟨h1, some ns, .returned (some tree)⟩ ∧
      remove_ns h (some tree) (some ns) = some ⟨h1, some ns, .returned none⟩ ∧
      ∀ p : NodePtr, p ≠ D → h1[p]? = h[p]? := by
  have hD : D ∈ tree :: kids.ptrs := List.mem_of_find?_eq_some hfirst
  have hdecl : ns ∈ dn.nsDef := by
    have hp := List.find?_some hfirst
    simpa [hdn] using hp
  obtain ⟨hx, hr⟩ := remove_unused ns hw hunused
  have hlast := lastDecl_unique h ns D dn hdn hdecl (tree :: kids.ptrs) none
    (isSubtree_valid hw) hD
    (fun y hy m hm hin => hown y hy m hm hin D hD dn hdn hdecl)
  rw [hlast] at hx hr
  refine ⟨_, rfl, hdecl, ?_, ?_, ?_⟩
  · rw [hx]
    simp only [removeDecl, hdn, (declares_iff ns _).mpr hdecl, if_true, unlinkNs_eq_erase]
  · rw [hr]
    simp only [removeDecl, hdn, (declares_iff ns _).mpr hdecl, if_true, unlinkNs_eq_erase]
  · intro p hp
    exact List.getElem?_set_ne (fun e => hp e.symm)

/-- Witness for C19: the namespace declared on the inner node `a`, the second node of the
traversal; its chain keeps the other declaration. -/
theorem remove_namespace_unlinks_first_declaration_witness :
    isSubtree innerDeclStore 0 (.node 1 .nil (.node 2 .nil .nil)) = true ∧
    firstDecl innerDeclStore 7 (0 :: (Forest.node 1 .nil (.node 2 .nil .nil)).ptrs) = some 1 ∧
    ∃ h1 : Store,
      h1 = innerDeclStore.set 1
        { ({ elemNode "a" none (some 2) (some 0) with nsDef := [8, 7] } : XmlNode) with
          nsDef := [8, 7].erase 7 } ∧
      7 ∈ [8, 7] ∧
      xmlRemoveNs innerDeclStore (some 0) (some 7) = some ⟨h1, some 7, .returned (some 0)⟩ ∧
      remove_ns innerDeclStore (some 0) (some 7) = some ⟨h1, some 7, .returned none⟩ ∧
      ∀ p : NodePtr, p ≠ 1 → h1[p]? = innerDeclStore[p]? :=
  ⟨by decide, by decide,
    remove_namespace_unlinks_first_declaration innerDeclStore 0
      (.node 1 .nil (.node 2 .nil .nil)) 7 1
      { elemNode "a" none (some 2) (some 0) with nsDef := [8, 7] }
      (by decide) (by decide) (by rfl) (by decide) (by decide)⟩

/-! ## Failure of the removal leaves the store alone -/

/-- C20: whenever `xmlRemoveNs` or `remove_ns` fails, for a null namespace or a namespace in
use, the store it leaves is the store it was given and nothing has been freed, wherever the
declaring node came in the traversal. -/
theorem remove_namespace_atomic (h : Store) (tree : Option NodePtr) (ns : Option NsPtr)
    (o : RemoveNsOutcome) (e : RemoveNsError)
    (hx : xmlRemoveNs h tree ns = some o ∨ remove_ns h tree ns = some o)
    (hf : o.ret = .failed e) :
    o.store = h ∧ o.freed = none := by
  have key : ∀ (o : RemoveNsOutcome) (e : RemoveNsError),
      xmlRemoveNs h tree ns = some o → o.ret = .failed e → o.store = h ∧ o.freed = none := by
    intro o e hx hf
    cases ns with
    | none =>
      simp only [xmlRemoveNs, Option.some.injEq] at hx
      subst hx
      exact ⟨rfl, rfl⟩
    | some ns =>
      cases tree with
      | none =>
        simp only [xmlRemoveNs, Option.some.injEq] at hx
        subst hx
        exact ⟨rfl, rfl⟩
      | some t =>
        simp only [xmlRemoveNs] at hx
        cases hs : xmlRemoveNsScan h t ns (h.length + 1) (some t) none with
        | none => simp [hs] at hx
        | some res =>
          cases res with
          | failed e1 =>
            simp only [hs, Option.some.injEq] at hx
            subst hx
            exact ⟨rfl, rfl⟩
          | done d =>
            simp only [hs] at hx
            cases d with
            | none =>
              simp only [removeDecl, Option.some.injEq] at hx
              subst hx
              exact ⟨rfl, rfl⟩
            | some d =>
              simp only [removeDecl] at hx
              cases hd : h[d]? with
              | none => simp [hd] at hx
              | some dn =>
                simp only [hd, Option.some.injEq] at hx
                subst hx
                simp at hf
  rcases hx with hx | hx
  · exact key o e hx hf
  · rw [remove_ns_eq] at hx
    cases hxo : xmlRemoveNs h tree ns with
    | none => simp [hxo] at hx
    | some o1 =>
      simp only [hxo, Option.map_some', Option.some.injEq] at hx
      subst hx
      cases hr : o1.ret with
      | failed e1 => exact key o1 e1 hxo hr
      | returned p => simp [hr] at hf

/-- Witness for C20: in the sample document `ns1` is declared on the root, which the
traversal visits first, and used three levels below; the removal fails and the declaration is
still in the chain of the root. -/
theorem remove_namespace_atomic_witness :
    xmlRemoveNs deepAttrStore (some 0) (some 7) =
      some ⟨deepAttrStore, none, .failed .attrInUse⟩ ∧
    (⟨deepAttrStore, none, .failed .attrInUse⟩ : RemoveNsOutcome).store = deepAttrStore ∧
    (⟨deepAttrStore, none, .failed .attrInUse⟩ : RemoveNsOutcome).freed = none ∧
    (deepAttrStore[0]?).map XmlNode.nsDef = some [7] :=
  ⟨by decide,
    (remove_namespace_atomic deepAttrStore (some 0) (some 7)
      ⟨deepAttrStore, none, .failed .attrInUse⟩ .attrInUse (Or.inl (by decide)) rfl).1,
    (remove_namespace_atomic deepAttrStore (some 0) (some 7)
      ⟨deepAttrStore, none, .failed .attrInUse⟩ .attrInUse (Or.inl (by decide)) rfl).2,
    by decide⟩

/-! ## What the replacement leaves alone -/

/-- Either replacement on a subtree keeps the own namespace reference of every node of the
subtree that does not refer to `oldNs`, neither itself nor through an attribute, and leaves
the record at every address outside the subtree as it was. -/
theorem replace_frame (h : Store) (tree : NodePtr) (kids : Forest)
    (oldNs newNs : Option NsPtr) (hw : isSubtree h tree kids = true) :
    ∃ h1 : Store,
      xmlReplaceNs h (some tree) oldNs newNs = some (h1, some tree) ∧
      replace_ns h (some tree) oldNs newNs = some h1 ∧
      (∀ x ∈ tree :: kids.ptrs, ∀ m, h[x]? = some m → ¬ refersTo oldNs m →
        ∃ m1, h1[x]? = some m1 ∧ m1.ns = m.ns) ∧
      ∀ p : NodePtr, p ∉ tree :: kids.ptrs → h1[p]? = h[p]? := by
  obtain ⟨hx, hr⟩ := replace_subtree oldNs newNs hw
  obtain ⟨_, _, _, hnd⟩ := isSubtree_iff.mp hw
  refine ⟨_, hx, hr, ?_, ?_⟩
  · intro x hxl m hm hno
    refine ⟨replaceNode oldNs newNs m, ?_, ?_⟩
    · rw [foldl_replaceAt_get oldNs newNs _ h x hnd, if_pos hxl, hm]
      rfl
    · rw [replaceNode_ns, if_neg hno]
  · intro p hp
    rw [foldl_replaceAt_get oldNs newNs _ h p hnd, if_neg hp]

/-- C21 (the code at the failing input): the node `d` is in namespace `p2` (8), which differs
from `oldNs = p1` (7), and carries an attribute in `p1`; after replacing `p1` by namespace 9
the own reference of `d` is 9, not `p2`: the loop over the attributes assigns `node->ns`. -/
theorem replace_namespace_overwrites_other_reference :
    isSubtree ownNsStore 0 (.node 1 .nil .nil) = true ∧
    (ownNsStore[1]?).map XmlNode.ns = some (some 8) ∧
    (xmlReplaceNs ownNsStore (some 0) (some 7) (some 9)).map
        (fun r => (r.1[1]?).map fun m => (m.ns, m.properties)) =
      some (some (some 9, [⟨"x", some 7⟩])) ∧
    (replace_ns ownNsStore (some 0) (some 7) (some 9)).map
        (fun r => (r[1]?).map fun m => (m.ns, m.properties)) =
      some (some (some 9, [⟨"x", some 7⟩])) := by
  decide

/-! ## The two implementations -/

/-- C22: on every store, tree pointer and namespaces, `xmlRemoveNs` of tree.c and `remove_ns`
of xmlextra.c return or fail to return together, take the same failing return on the same
inputs, and leave the same store with the same namespace freed; on success the first returns
`tree` and the second `None`.  `xmlReplaceNs` and `replace_ns` leave the same store. -/
theorem implementations_agree (h : Store) (tree : Option NodePtr) (ns oldNs newNs : Option NsPtr) :
    (xmlRemoveNs h tree ns).map (fun o => (o.store, o.freed, o.ret.failure)) =
      (remove_ns h tree ns).map (fun o => (o.store, o.freed, o.ret.failure)) ∧
    (xmlRemoveNs h tree ns = none ↔ remove_ns h tree ns = none) ∧
    (remove_ns h tree ns).map (fun o => o.ret) =
      (xmlRemoveNs h tree ns).map (fun o =>
        match o.ret with
        | .failed e => RemoveNsReturn.failed e
        | .returned _ => RemoveNsReturn.returned none) ∧
    (xmlReplaceNs h tree oldNs newNs).map Prod.fst = replace_ns h tree oldNs newNs ∧
    (xmlReplaceNs h tree oldNs newNs).map Prod.snd =
      (replace_ns h tree oldNs newNs).map (fun _ => tree) := by
  refine ⟨?_, ?_, ?_, ?_, ?_⟩
  · rw [remove_ns_eq]
    cases hx : xmlRemoveNs h tree ns with
    | none => rfl
    | some o =>
      simp only [Option.map_some', Option.some.injEq, Prod.mk.injEq, true_and]
      cases o.ret <;> rfl
  · rw [remove_ns_eq]
    cases xmlRemoveNs h tree ns <;> simp
  · rw [remove_ns_eq]
    cases xmlRemoveNs h tree ns <;> rfl
  · cases tree with
    | none => rfl
    | some t =>
      simp only [xmlReplaceNs, replace_ns, replaceNsLoop_eq_xml]
      cases xmlReplaceNsLoop t oldNs newNs (h.length + 1) h (some t) <;> rfl
  · cases tree with
    | none => rfl
    | some t =>
      simp only [xmlReplaceNs, replace_ns, replaceNsLoop_eq_xml]
      cases xmlReplaceNsLoop t oldNs newNs (h.length + 1) h (some t) <;> rfl

/-! ## Proofs: the handler decides the flag only -/

/-- One callback, run with two handlers from two states that differ at most in the flag,
leaves two states that differ at most in the flag: the document, the calls made and the
content passed on do not depend on what the handler answers. -/
theorem dispatch_sameButFlag (h1 h2 : Handler) (r1 r2 : Reader) (e : SaxEvent)
    (hs : sameButFlag r1 r2) : sameButFlag (dispatch h1 r1 e) (dispatch h2 r2 e) := by
  obtain ⟨c1, eof1, x1, calls1, fwd1⟩ := r1
  obtain ⟨c2, eof2, x2, calls2, fwd2⟩ := r2
  obtain ⟨hc, he, hcalls, hf⟩ := hs
  simp only at hc he hcalls hf
  subst hc he hcalls hf
  cases e with
  | startElement name =>
    simp only [dispatch, myStartElement]
    split
    · exact ⟨rfl, rfl, rfl, rfl⟩
    · split <;> exact ⟨rfl, rfl, rfl, rfl⟩
  | endElement name =>
    simp only [dispatch, myEndElement]
    split
    · exact ⟨rfl, rfl, rfl, rfl⟩
    · split
      · cases c1.node <;> exact ⟨rfl, rfl, rfl, rfl⟩
      · exact ⟨rfl, rfl, rfl, rfl⟩
  | characters ch =>
    simp only [dispatch, myCharacters]
    split <;> exact ⟨rfl, rfl, rfl, rfl⟩
  | cdataBlock v =>
    simp only [dispatch, myCdataBlock]
    split <;> exact ⟨rfl, rfl, rfl, rfl⟩
  | processingInstruction t d =>
    simp only [dispatch, myProcessingInstruction]
    split <;> exact ⟨rfl, rfl, rfl, rfl⟩
  | error msg => cases msg <;> exact ⟨rfl, rfl, rfl, rfl⟩
  | fatalError msg => cases msg <;> exact ⟨rfl, rfl, rfl, rfl⟩
  | ignorableWhitespace ch => exact ⟨rfl, rfl, rfl, rfl⟩
  | reference name => exact ⟨rfl, rfl, rfl, rfl⟩

theorem dispatchAll_sameButFlag (h1 h2 : Handler) :
    ∀ (evs : List SaxEvent) (r1 r2 : Reader), sameButFlag r1 r2 →
      sameButFlag (dispatchAll h1 r1 evs) (dispatchAll h2 r2 evs)
  | [], _, _, hs => hs
  | e :: rest, r1, r2, hs => by
    rw [dispatchAll_cons, dispatchAll_cons]
    exact dispatchAll_sameButFlag h1 h2 rest _ _ (dispatch_sameButFlag h1 h2 r1 r2 e hs)

/-! ## A failing handler -/

/-- C23: when the `_stanza_end` call of the handler raises (depth 1 after the delegated
close, a node captured), the reader sets the exception flag and still unlinks and frees the
stanza node; for the callbacks that follow in the same call the flag stays set, and the calls
made to the handler, the document and the content passed on are the same as with any other
handler, for instance one that never raises. -/
theorem failing_handler_keeps_bound (handler other : Handler) (r : Reader) (name : String)
    (p : NodePtr) (later : List SaxEvent)
    (hnode : r.ctxt.node = some p) (hdepth : (defaultEndElement r.ctxt).nodeNr = 1)
    (hfail : handler (defaultEndElement r.ctxt) r.calls (.stanzaEnd p) = false) :
    (myEndElement handler r name).exception = true ∧
    (myEndElement handler r name).calls = r.calls ++ [.stanzaEnd p] ∧
    (myEndElement handler r name).ctxt =
      xmlFreeNode (xmlUnlinkNode (defaultEndElement r.ctxt) p) p ∧
    p ∈ (myEndElement handler r name).ctxt.freed ∧
    (dispatchAll handler (myEndElement handler r name) later).exception = true ∧
    (dispatchAll handler (myEndElement handler r name) later).calls =
      (dispatchAll other (myEndElement other r name) later).calls ∧
    (dispatchAll handler (myEndElement handler r name) later).ctxt =
      (dispatchAll other (myEndElement other r name) later).ctxt ∧
    (dispatchAll handler (myEndElement handler r name) later).forwarded =
      (dispatchAll other (myEndElement other r name) later).forwarded := by
  have h0 : ¬ (defaultEndElement r.ctxt).nodeNr = 0 := by rw [hdepth]; decide
  have hexc : (myEndElement handler r name).exception = true := by
    simp [myEndElement, callHandler, h0, hdepth, hnode, hfail]
  have hctxt : (myEndElement handler r name).ctxt =
      xmlFreeNode (xmlUnlinkNode (defaultEndElement r.ctxt) p) p := by
    simp [myEndElement, callHandler, h0, hdepth, hnode]
  have hsame := dispatchAll_sameButFlag handler other later
    (myEndElement handler r name) (myEndElement other r name)
    (dispatch_sameButFlag handler other r r (.endElement name) ⟨rfl, rfl, rfl, rfl⟩)
  refine ⟨hexc, ?_, hctxt, ?_, ?_, hsame.2.2.1, hsame.1, hsame.2.2.2⟩
  · simp [myEndElement, callHandler, h0, hdepth, hnode]
  · rw [hctxt]
    simp [xmlFreeNode]
  · rw [dispatchAll_exception, hexc]
    rfl

/-- Witness for C23: in `<stream><msg>hi</msg><iq/></stream>` the `_stanza_end` call for `msg`
raises; the node of `msg` is freed all the same, and the handler is still called for `iq` and
for the end of the stream. -/
theorem failing_handler_keeps_bound_witness :
    (dispatchAll stanzaEndFails reader_new
        [.startElement "stream", .startElement "msg", .characters "hi"]).ctxt.node = some 1 ∧
    (myEndElement stanzaEndFails (dispatchAll stanzaEndFails reader_new
        [.startElement "stream", .startElement "msg", .characters "hi"]) "msg").exception
      = true ∧
    (myEndElement stanzaEndFails (dispatchAll stanzaEndFails reader_new
        [.startElement "stream", .startElement "msg", .characters "hi"]) "msg").ctxt.freed
      = [1] ∧
    (dispatchAll stanzaEndFails (myEndElement stanzaEndFails (dispatchAll stanzaEndFails
        reader_new [.startElement "stream", .startElement "msg", .characters "hi"]) "msg")
        [.startElement "iq", .endElement "iq", .endElement "stream"]).calls =
      [.streamStart, .stanzaStart (some 1), .stanzaEnd 1, .stanzaStart (some 3),
        .stanzaEnd 3, .streamEnd] ∧
    (dispatchAll stanzaEndFails (myEndElement stanzaEndFails (dispatchAll stanzaEndFails
        reader_new [.startElement "stream", .startElement "msg", .characters "hi"]) "msg")
        [.startElement "iq", .endElement "iq", .endElement "stream"]).exception = true :=
  ⟨by decide,
    (failing_handler_keeps_bound stanzaEndFails (fun _ _ _ => true)
      (dispatchAll stanzaEndFails reader_new
        [.startElement "stream", .startElement "msg", .characters "hi"]) "msg" 1
      [.startElement "iq", .endElement "iq", .endElement "stream"]
      (by decide) (by decide) (by decide)).1,
    by decide, by decide, by decide⟩

end XmlExtra
